import Mathlib

/-!
Verification of the list-crawl core of the crawler repository.

The Python sources under verification are:
  - extractors/list_page.py   (canonicalize, extract_item_links,
                               _extract_url_template_pagination, ...)
  - persistence/list_crawl_state.py (JSONStateStore)
  - list_crawler.py           (ListCrawler)

The URL functions of the repository delegate to CPython 3.11's
urllib.parse (urlparse, urlunparse, parse_qs, urlencode, urljoin,
quote_plus, unquote); those library functions are embedded here as well,
translated from CPython 3.11 Lib/urllib/parse.py, because the observable
behaviour of canonicalize is defined by them.

Python strings are modelled as lists of unicode scalars (List Char).
Percent-decoding goes through UTF-8 bytes exactly as CPython does
(unquote_to_bytes + bytes.decode('utf-8', 'replace')); byte sequences
are lists of Nat below 256.  Not modelled: the ValueError raised by
urlsplit for mismatched IPv6 brackets and non-NFKC netlocs (canonicalize
propagates that exception; all claims concern the returning executions),
and str.lower()/str.strip() beyond the character sets that can actually
reach them here.
-/

namespace Crawler

/-- A Python string: its sequence of unicode scalars. -/
abbrev PyStr := List Char

/-- Convenience injection of a Lean string literal. -/
def pys (s : String) : PyStr := s.data

/-! ## Character classes -/

def isAsciiUpperCh (c : Char) : Bool := 65 ≤ c.toNat && c.toNat ≤ 90

def isAsciiLowerCh (c : Char) : Bool := 97 ≤ c.toNat && c.toNat ≤ 122

def isAsciiAlphaCh (c : Char) : Bool := isAsciiUpperCh c || isAsciiLowerCh c

def isAsciiDigitCh (c : Char) : Bool := 48 ≤ c.toNat && c.toNat ≤ 57

/-- ASCII lowercasing, as str.lower() acts on the ASCII-only strings
(validated scheme names) it is applied to here. -/
def pyLowerChar (c : Char) : Char :=
  if isAsciiUpperCh c then Char.ofNat (c.toNat + 32) else c

def pyLower (l : PyStr) : PyStr := l.map pyLowerChar

/-- scheme_chars of urllib.parse: letters, digits and '+-.'. -/
def schemeChar (c : Char) : Bool :=
  isAsciiAlphaCh c || isAsciiDigitCh c || c = '+' || c = '-' || c = '.'

/-- Membership in _WHATWG_C0_CONTROL_OR_SPACE (C0 controls and the space). -/
def c0ControlOrSpace (c : Char) : Bool := c.toNat ≤ 32

/-- Membership in _UNSAFE_URL_BYTES_TO_REMOVE, the characters removed from
the URL before parsing. -/
def tabCrLf (c : Char) : Bool := c = '\t' || c = '\r' || c = '\n'

/-! ## Generic string splitting helpers -/

/-- str.split(sep, 1) for a one-character separator: some (before, after)
at the first occurrence, none if the separator is absent. -/
def splitFirst (sep : Char) : PyStr → Option (PyStr × PyStr)
  | [] => none
  | c :: t =>
    if c = sep then some ([], t)
    else (splitFirst sep t).map fun r => (c :: r.1, r.2)

/-- Split at the last occurrence of the separator. -/
def splitLast (sep : Char) (l : PyStr) : Option (PyStr × PyStr) :=
  match splitFirst sep l.reverse with
  | some (a, b) => some (b.reverse, a.reverse)
  | none => none

/-- str.split(sep) for a one-character separator; the empty string yields
one empty chunk, as in Python. -/
def pySplitAll (sep : Char) : PyStr → List PyStr
  | [] => [[]]
  | c :: t =>
    if c = sep then [] :: pySplitAll sep t
    else
      match pySplitAll sep t with
      | [] => [[c]]
      | h :: r => (c :: h) :: r

/-- sep.join(parts) for a one-character separator. -/
def joinSep (sep : Char) : List PyStr → PyStr
  | [] => []
  | [x] => x
  | x :: xs => x ++ sep :: joinSep sep xs

/-! ## urlsplit / urlparse (CPython 3.11 Lib/urllib/parse.py) -/

structure SplitResult where
  scheme : PyStr
  netloc : PyStr
  path : PyStr
  query : PyStr
  fragment : PyStr
deriving DecidableEq, Repr

structure ParseResult where
  scheme : PyStr
  netloc : PyStr
  path : PyStr
  params : PyStr
  query : PyStr
  fragment : PyStr
deriving DecidableEq, Repr

/-- The scheme detection of urlsplit: the text before the first ':' is the
scheme when it is nonempty, starts with an ASCII letter and consists of
scheme characters only; it is returned lowercased.  (Python:
i = url.find(':'); if i > 0 and url[0].isascii() and url[0].isalpha() and
all characters of url[:i] are in scheme_chars.) -/
def findScheme (l : PyStr) : Option (PyStr × PyStr) :=
  match splitFirst ':' l with
  | none => none
  | some ([], _) => none
  | some (c :: cs, rest) =>
    if isAsciiAlphaCh c && (c :: cs).all schemeChar then
      some (pyLower (c :: cs), rest)
    else
      none

/-- '/', '?' and '#' delimit the netloc (_splitnetloc). -/
def netDelim (c : Char) : Bool := c = '/' || c = '?' || c = '#'

/-- _splitnetloc(url, 2) applied to url[2:]: the netloc extends to the
first of '/', '?', '#'. -/
def splitNetloc (l : PyStr) : PyStr × PyStr :=
  (l.takeWhile (fun c => !netDelim c), l.dropWhile (fun c => !netDelim c))

/-- url.lstrip(_WHATWG_C0_CONTROL_OR_SPACE) followed by removing every
tab, CR and LF (the loop over _UNSAFE_URL_BYTES_TO_REMOVE). -/
def cleanUrl (l : PyStr) : PyStr :=
  (l.dropWhile c0ControlOrSpace).filter (fun c => !tabCrLf c)

/-- scheme.strip(...) / replace(...) applied to the caller-supplied default
scheme in urlsplit. -/
def cleanScheme (l : PyStr) : PyStr :=
  ((l.dropWhile c0ControlOrSpace).reverse.dropWhile c0ControlOrSpace).reverse.filter
    (fun c => !tabCrLf c)

/-- urlsplit(url, scheme=defaultScheme, allow_fragments=True).
The ValueError branches for bracketed hosts are not modelled. -/
def pyUrlsplit (url : PyStr) (defaultScheme : PyStr := []) : SplitResult :=
  let u0 := cleanUrl url
  let ds := cleanScheme defaultScheme
  let (scheme, u1) :=
    match findScheme u0 with
    | some (s, rest) => (s, rest)
    | none => (ds, u0)
  let (netloc, u2) :=
    if ['/', '/'].isPrefixOf u1 then splitNetloc (u1.drop 2) else ([], u1)
  let (u3, fragment) :=
    match splitFirst '#' u2 with
    | some (a, b) => (a, b)
    | none => (u2, [])
  let (path, query) :=
    match splitFirst '?' u3 with
    | some (a, b) => (a, b)
    | none => (u3, [])
  ⟨scheme, netloc, path, query, fragment⟩

/-- uses_params of urllib.parse. -/
def usesParams : List PyStr :=
  [pys "", pys "ftp", pys "hdl", pys "prospero", pys "http", pys "imap",
   pys "https", pys "shttp", pys "rtsp", pys "rtsps", pys "rtspu", pys "sip",
   pys "sips", pys "mms", pys "sftp", pys "tel"]

/-- uses_relative of urllib.parse. -/
def usesRelative : List PyStr :=
  [pys "", pys "ftp", pys "http", pys "gopher", pys "nntp", pys "imap",
   pys "wais", pys "file", pys "https", pys "shttp", pys "mms",
   pys "prospero", pys "rtsp", pys "rtsps", pys "rtspu", pys "sftp",
   pys "svn", pys "svn+ssh", pys "ws", pys "wss"]

/-- uses_netloc of urllib.parse. -/
def usesNetloc : List PyStr :=
  [pys "", pys "ftp", pys "http", pys "gopher", pys "nntp", pys "telnet",
   pys "imap", pys "wais", pys "file", pys "mms", pys "https", pys "shttp",
   pys "snews", pys "prospero", pys "rtsp", pys "rtsps", pys "rtspu",
   pys "rsync", pys "svn", pys "svn+ssh", pys "sftp", pys "nfs", pys "git",
   pys "git+ssh", pys "ws", pys "wss"]

/-- _splitparams: split at the first ';' at or after the last '/' (at the
first ';' overall when there is no '/'); no split when that find fails. -/
def splitParams (l : PyStr) : PyStr × PyStr :=
  if '/' ∈ l then
    match splitLast '/' l with
    | some (before, lastSeg) =>
      match splitFirst ';' lastSeg with
      | some (segA, segB) => (before ++ '/' :: segA, segB)
      | none => (l, [])
    | none => (l, [])
  else
    match splitFirst ';' l with
    | some (a, b) => (a, b)
    | none => (l, [])

/-- urlparse(url, scheme=defaultScheme): urlsplit plus the params split
for schemes in uses_params. -/
def pyUrlparse (url : PyStr) (defaultScheme : PyStr := []) : ParseResult :=
  let s := pyUrlsplit url defaultScheme
  let (path, params) :=
    if s.scheme ∈ usesParams ∧ ';' ∈ s.path then splitParams s.path
    else (s.path, [])
  ⟨s.scheme, s.netloc, path, params, s.query, s.fragment⟩

/-- urlunsplit of CPython 3.11:
if netloc or (scheme and scheme in uses_netloc and url[:2] != '//') then
the '//' part is produced, prepending '/' to a nonempty url that does not
already start with '/'. -/
def pyUrlunsplit (r : SplitResult) : PyStr :=
  let url := r.path
  let url :=
    if r.netloc ≠ [] ∨
        (r.scheme ≠ [] ∧ r.scheme ∈ usesNetloc ∧ ¬ ['/', '/'].isPrefixOf url) then
      let url := if url ≠ [] ∧ url.head? ≠ some '/' then '/' :: url else url
      '/' :: '/' :: (r.netloc ++ url)
    else url
  let url := if r.scheme ≠ [] then r.scheme ++ ':' :: url else url
  let url := if r.query ≠ [] then url ++ '?' :: r.query else url
  if r.fragment ≠ [] then url ++ '#' :: r.fragment else url

/-- urlunparse: reattach ';params' to the path, then urlunsplit. -/
def pyUrlunparse (r : ParseResult) : PyStr :=
  let url := if r.params ≠ [] then r.path ++ ';' :: r.params else r.path
  pyUrlunsplit ⟨r.scheme, r.netloc, url, r.query, r.fragment⟩

/-! ## UTF-8 (bytes.decode('utf-8', 'replace') and str.encode('utf-8')) -/

/-- UTF-8 encoding of one unicode scalar. -/
def utf8EncodeChar (c : Char) : List Nat :=
  let v := c.toNat
  if v < 128 then [v]
  else if v < 2048 then [192 + v / 64, 128 + v % 64]
  else if v < 65536 then [224 + v / 4096, 128 + v / 64 % 64, 128 + v % 64]
  else [240 + v / 262144, 128 + v / 4096 % 64, 128 + v / 64 % 64, 128 + v % 64]

/-- The replacement character U+FFFD. -/
def replCh : Char := '�'

/-- The state of CPython's incremental UTF-8 decoder: none between
characters, or (accumulated value, continuation bytes still expected,
admissible range for the next byte).  The range differs from 128-191 only
directly after an E0/ED/F0/F4 lead byte. -/
abbrev Utf8State := Option (Nat × Nat × Nat × Nat)

/-- Feeding a byte to the decoder in the between-characters state: ASCII
bytes are emitted, lead bytes C2-DF / E0-EF / F0-F4 open a sequence with
the lead-specific second-byte range, anything else is ill-formed and
yields U+FFFD. -/
def utf8Lead (b : Nat) : PyStr × Utf8State :=
  if b < 128 then ([Char.ofNat b], none)
  else if 194 ≤ b ∧ b ≤ 223 then ([], some (b - 192, 1, 128, 191))
  else if 224 ≤ b ∧ b ≤ 239 then
    ([], some (b - 224, 2, if b = 224 then 160 else 128,
        if b = 237 then 159 else 191))
  else if 240 ≤ b ∧ b ≤ 244 then
    ([], some (b - 240, 3, if b = 240 then 144 else 128,
        if b = 244 then 143 else 191))
  else ([replCh], none)

/-- Feeding one byte: mid-sequence, a byte in the admissible range extends
or finishes the character; a byte outside it replaces the consumed prefix
by U+FFFD and is reprocessed as a lead byte (CPython's replacement of
maximal subparts of ill-formed sequences). -/
def utf8Feed (st : Utf8State) (b : Nat) : PyStr × Utf8State :=
  match st with
  | none => utf8Lead b
  | some (acc, n, lo, hi) =>
    if lo ≤ b ∧ b ≤ hi then
      if n = 1 then ([Char.ofNat (acc * 64 + (b - 128))], none)
      else ([], some (acc * 64 + (b - 128), n - 1, 128, 191))
    else (replCh :: (utf8Lead b).1, (utf8Lead b).2)

/-- At end of input an unfinished sequence yields one U+FFFD. -/
def utf8Flush : Utf8State → PyStr
  | none => []
  | some _ => [replCh]

def utf8DecodeGo : Utf8State → List Nat → PyStr
  | st, [] => utf8Flush st
  | st, b :: t => (utf8Feed st b).1 ++ utf8DecodeGo (utf8Feed st b).2 t

/-- bytes.decode('utf-8', errors='replace'). -/
def utf8DecodeReplace (bs : List Nat) : PyStr := utf8DecodeGo none bs

/-! ## quote / unquote (urllib.parse) -/

/-- The value of a hexadecimal digit character (both cases, as in
_hextobyte). -/
def hexVal (c : Char) : Option Nat :=
  if isAsciiDigitCh c then some (c.toNat - 48)
  else if 65 ≤ c.toNat ∧ c.toNat ≤ 70 then some (c.toNat - 55)
  else if 97 ≤ c.toNat ∧ c.toNat ≤ 102 then some (c.toNat - 87)
  else none

def isAsciiCh (c : Char) : Bool := c.toNat ≤ 127

/-- The byte/char tokens of unquote: '%HH' yields the byte HH, a '%' not
followed by two hex digits yields the byte 37 ('%') with the following
characters reprocessed, an ASCII character yields its code, and a
non-ASCII character passes through (unquote_to_bytes on the maximal ASCII
runs produced by the _asciire split). -/
def uqTokens : PyStr → List (Nat ⊕ Char)
  | [] => []
  | '%' :: h1 :: h2 :: t =>
    match hexVal h1, hexVal h2 with
    | some a, some b => .inl (a * 16 + b) :: uqTokens t
    | _, _ => .inl 37 :: uqTokens (h1 :: h2 :: t)
  | c :: t => (if isAsciiCh c then .inl c.toNat else .inr c) :: uqTokens t

/-- Run the UTF-8 decoder over the tokens: bytes are fed to it, a
non-ASCII character flushes the current run (as the per-run
bytes.decode('utf-8', 'replace') calls of CPython's unquote do) and
passes through. -/
def uqRun : Utf8State → List (Nat ⊕ Char) → PyStr
  | st, [] => utf8Flush st
  | st, .inl b :: t => (utf8Feed st b).1 ++ uqRun (utf8Feed st b).2 t
  | st, .inr c :: t => utf8Flush st ++ c :: uqRun none t

/-- unquote(string, 'utf-8', 'replace') of urllib.parse. -/
def pyUnquote (l : PyStr) : PyStr := uqRun none (uqTokens l)

/-- unquote_plus: replace '+' by ' ' and unquote. -/
def pyUnquotePlus (l : PyStr) : PyStr :=
  pyUnquote (l.map fun c => if c = '+' then ' ' else c)

/-- _ALWAYS_SAFE: ASCII letters, digits and '_.-~'. -/
def alwaysSafe (c : Char) : Bool :=
  isAsciiAlphaCh c || isAsciiDigitCh c || c = '_' || c = '.' || c = '-' || c = '~'

/-- An uppercase hexadecimal digit for a value below 16. -/
def hexUpper (n : Nat) : Char :=
  if n < 10 then Char.ofNat (48 + n) else Char.ofNat (55 + n)

/-- '%{:02X}'.format(b). -/
def quoteByte (b : Nat) : PyStr := ['%', hexUpper (b / 16), hexUpper (b % 16)]

/-- quote_plus with safe='' on a single character: always-safe characters
pass, the space becomes '+', everything else is percent-encoded by UTF-8
byte. -/
def pyQuotePlusChar (c : Char) : PyStr :=
  if alwaysSafe c then [c]
  else if c = ' ' then ['+']
  else (utf8EncodeChar c).flatMap quoteByte

/-- quote_plus(s, safe='') on a str. -/
def pyQuotePlus (l : PyStr) : PyStr := l.flatMap pyQuotePlusChar

/-! ## parse_qsl / parse_qs / urlencode -/

/-- parse_qsl(qs, keep_blank_values=True) with the default '&' separator:
empty chunks are dropped, a chunk without '=' becomes (name, ''), and both
sides are '+'-unescaped and unquoted. -/
def parseQsl (qs : PyStr) : List (PyStr × PyStr) :=
  let chunks := if qs = [] then [] else pySplitAll '&' qs
  chunks.flatMap fun nv =>
    if nv = [] then []
    else
      match splitFirst '=' nv with
      | some (n, v) => [(pyUnquotePlus n, pyUnquotePlus v)]
      | none => [(pyUnquotePlus nv, pyUnquotePlus [])]

/-- One step of parse_qs's dict construction: append the value to an
existing key, else insert the key at the end. -/
def qsAddPair (acc : List (PyStr × List PyStr)) (kv : PyStr × PyStr) :
    List (PyStr × List PyStr) :=
  if acc.any (fun e => e.1 = kv.1) then
    acc.map (fun e => if e.1 = kv.1 then (e.1, e.2 ++ [kv.2]) else e)
  else acc ++ [(kv.1, [kv.2])]

/-- parse_qs(qs, keep_blank_values=True): the insertion-ordered dict from
name to list of values. -/
def parseQs (qs : PyStr) : List (PyStr × List PyStr) :=
  (parseQsl qs).foldl qsAddPair []

/-- urlencode(query, doseq=True) on a dict mapping str keys to lists of
str values. -/
def pyUrlencode (query : List (PyStr × List PyStr)) : PyStr :=
  joinSep '&'
    (query.flatMap fun kv =>
      kv.2.map (fun v => pyQuotePlus kv.1 ++ '=' :: pyQuotePlus v))

/-! ## canonicalize (extractors/list_page.py) -/

/-- The tracking_params set of canonicalize. -/
def trackingParams : List PyStr :=
  [pys "utm_source", pys "utm_medium", pys "utm_campaign", pys "utm_term",
   pys "utm_content", pys "fbclid", pys "gclid", pys "msclkid", pys "mc_cid",
   pys "mc_eid", pys "_ga", pys "_gl", pys "ref", pys "source"]

/-- path.rstrip('/'). -/
def rstripSlashes (l : PyStr) : PyStr :=
  (l.reverse.dropWhile (fun c => c = '/')).reverse

/-- The query rewriting of canonicalize when strip_tracking_params is set
and the query is nonempty: parse_qs, drop the tracking keys, re-encode
when anything remains, else the empty query. -/
def stripTrackingQuery (query : PyStr) : PyStr :=
  let params := parseQs query
  let filtered := params.filter (fun kv => kv.1 ∉ trackingParams)
  if filtered ≠ [] then pyUrlencode filtered else []

/-- canonicalize(url, strip_tracking_params) of extractors/list_page.py. -/
def canonicalize (url : PyStr) (stripTracking : Bool := true) : PyStr :=
  let parsedUrl := pyUrlparse url
  let path :=
    if parsedUrl.path = pys "/" then parsedUrl.path
    else rstripSlashes parsedUrl.path
  let query :=
    if stripTracking ∧ parsedUrl.query ≠ [] then
      stripTrackingQuery parsedUrl.query
    else parsedUrl.query
  pyUrlunparse ⟨parsedUrl.scheme, parsedUrl.netloc, path, parsedUrl.params,
    query, []⟩

/-! ## urljoin (urllib.parse) and normalize_url -/

/-- segments[1:-1] = filter(None, segments[1:-1]): drop empty strings from
the middle of the segment list. -/
def filterMiddle (segs : List PyStr) : List PyStr :=
  match segs with
  | [] => []
  | [x] => [x]
  | x :: y :: rest =>
    x :: ((y :: rest).dropLast.filter (fun s => s ≠ [])) ++
      [(y :: rest).getLast (by simp)]

/-- The segment resolution loop of urljoin: '..' pops (ignoring underflow),
'.' is dropped, other segments are appended. -/
def resolveSegments (segments : List PyStr) : List PyStr :=
  segments.foldl
    (fun acc seg =>
      if seg = pys ".." then acc.dropLast
      else if seg = pys "." then acc
      else acc ++ [seg])
    []

/-- urljoin(base, url) of CPython 3.11. -/
def pyUrljoin (base url : PyStr) : PyStr :=
  if base = [] then url
  else if url = [] then base
  else
    let b := pyUrlparse base
    let t := pyUrlparse url b.scheme
    if t.scheme ≠ b.scheme ∨ t.scheme ∉ usesRelative then url
    else if t.scheme ∈ usesNetloc ∧ t.netloc ≠ [] then pyUrlunparse t
    else
      let netloc := if t.scheme ∈ usesNetloc then b.netloc else t.netloc
      if t.path = [] ∧ t.params = [] then
        let query := if t.query = [] then b.query else t.query
        pyUrlunparse ⟨t.scheme, netloc, b.path, b.params, query, t.fragment⟩
      else
        let baseParts := pySplitAll '/' b.path
        let baseParts :=
          if baseParts.getLast? ≠ some [] then baseParts.dropLast
          else baseParts
        let segments :=
          if t.path.head? = some '/' then pySplitAll '/' t.path
          else filterMiddle (baseParts ++ pySplitAll '/' t.path)
        let resolved := resolveSegments segments
        let resolved :=
          if segments.getLast? = some (pys ".") ∨
              segments.getLast? = some (pys "..") then
            resolved ++ [[]]
          else resolved
        let joined := joinSep '/' resolved
        let joined := if joined = [] then pys "/" else joined
        pyUrlunparse ⟨t.scheme, netloc, joined, t.params, t.query, t.fragment⟩

/-- normalize_url(base_url, href) of extractors/list_page.py. -/
def normalize_url (baseUrl href : PyStr) : PyStr := pyUrljoin baseUrl href

/-! ## extract_item_links (extractors/list_page.py)

BeautifulSoup parsing and CSS selection are abstracted: an Anchor is one
element matched by item_link_css inside a scope (href is the value of
link.get('href', ''), textFragments are its text nodes in document order),
and a Scope is one element matched by scope_css carrying its matched
anchors in document order. -/

/-- Python str-whitespace (the characters str.strip() removes). -/
def pyWhitespaceCh (c : Char) : Bool :=
  (9 ≤ c.toNat && c.toNat ≤ 13) || (28 ≤ c.toNat && c.toNat ≤ 32) ||
  c.toNat = 133 || c.toNat = 160 || c.toNat = 5760 ||
  (8192 ≤ c.toNat && c.toNat ≤ 8202) || c.toNat = 8232 || c.toNat = 8233 ||
  c.toNat = 8239 || c.toNat = 8287 || c.toNat = 12288

/-- str.strip(). -/
def pyStrip (l : PyStr) : PyStr :=
  ((l.dropWhile pyWhitespaceCh).reverse.dropWhile pyWhitespaceCh).reverse

structure Anchor where
  href : PyStr
  textFragments : List PyStr
deriving DecidableEq, Repr

structure Scope where
  links : List Anchor
deriving DecidableEq, Repr

/-- element.get_text(strip=True) of BeautifulSoup: the concatenation of
the stripped text nodes, empty ones skipped. -/
def getTextStrip (a : Anchor) : PyStr :=
  ((a.textFragments.map pyStrip).filter (fun s => s ≠ [])).flatten

/-- The skip test of extract_item_links: empty href (after strip) or one
beginning with '#', 'javascript:' or 'mailto:'. -/
def skipHref (href : PyStr) : Bool :=
  href = [] || (pys "#").isPrefixOf href ||
  (pys "javascript:").isPrefixOf href || (pys "mailto:").isPrefixOf href

/-- str(n) for a natural number. -/
def natToPyStr (n : Nat) : PyStr := (Nat.toDigits 10 n)

/-- str(i) for a Python int. -/
def intToPyStr (i : Int) : PyStr :=
  if i < 0 then '-' :: natToPyStr i.natAbs else natToPyStr i.toNat

structure ItemLink where
  url : PyStr
  text : PyStr
  selector_path : PyStr
deriving DecidableEq, Repr

/-- The inner loop of extract_item_links over
enumerate(scope.select(item_link_css)). -/
def extractLinksInScope (baseUrl scopeCss itemLinkCss : PyStr)
    (scopeIdx : Nat) : Nat → List Anchor → List ItemLink
  | _, [] => []
  | linkIdx, link :: rest =>
    let href := pyStrip link.href
    (if skipHref href then []
     else
       let text := getTextStrip link
       let absoluteUrl := normalize_url baseUrl href
       let selectorPath :=
         scopeCss ++ '[' :: natToPyStr scopeIdx ++ ']' :: ' ' ::
           itemLinkCss ++ '[' :: natToPyStr linkIdx ++ [']']
       [⟨absoluteUrl, text, selectorPath⟩]) ++
      extractLinksInScope baseUrl scopeCss itemLinkCss scopeIdx
        (linkIdx + 1) rest

/-- The outer loop over enumerate(soup.select(scope_css)). -/
def extractScopes (baseUrl scopeCss itemLinkCss : PyStr) :
    Nat → List Scope → List ItemLink
  | _, [] => []
  | scopeIdx, scope :: rest =>
    extractLinksInScope baseUrl scopeCss itemLinkCss scopeIdx 0 scope.links ++
      extractScopes baseUrl scopeCss itemLinkCss (scopeIdx + 1) rest

/-- extract_item_links(html, base_url, scope_css, item_link_css) of
extractors/list_page.py, over the abstracted selection results. -/
def extract_item_links (scopes : List Scope) (baseUrl scopeCss itemLinkCss : PyStr) :
    List ItemLink :=
  extractScopes baseUrl scopeCss itemLinkCss 0 scopes

/-! ## _extract_url_template_pagination (extractors/list_page.py) -/

/-- The pagination configuration dict (recipe.pagination.to_dict()). -/
structure PaginationConfig where
  pagType : PyStr
  next_css : Option PyStr := none
  pagination_scope_css : Option PyStr := none
  page_param : Option PyStr := none
  page_start : Option Int := none
  page_end : Option Int := none
deriving DecidableEq, Repr

/-- Python dict assignment params[k] = v: replace the value in place when
the key exists, else append the new key at the end. -/
def dictSet (d : List (PyStr × List PyStr)) (k : PyStr) (v : List PyStr) :
    List (PyStr × List PyStr) :=
  if d.any (fun e => e.1 = k) then
    d.map (fun e => if e.1 = k then (k, v) else e)
  else d ++ [(k, v)]

/-- range(a, b) over Python ints. -/
def pyRange (a b : Int) : List Int :=
  (List.range (b - a).toNat).map (fun (i : Nat) => a + (i : Int))

/-- _extract_url_template_pagination(base_url, config): one URL per page
number in range(page_start, page_end + 1), rebuilding the query each
iteration from the (mutated) params dict with params[page_param] set to
str(page_num).  Defaults: page_param 'page', page_start 1, page_end 10. -/
def extract_url_template_pagination (baseUrl : PyStr)
    (config : PaginationConfig) : List PyStr :=
  let pageParam := config.page_param.getD (pys "page")
  let pageStart := config.page_start.getD 1
  let pageEnd := config.page_end.getD 10
  let parsed := pyUrlparse baseUrl
  let params0 := parseQs parsed.query
  let step := fun (st : List PyStr × List (PyStr × List PyStr)) (pageNum : Int) =>
    let params := dictSet st.2 pageParam [intToPyStr pageNum]
    let query := pyUrlencode params
    let url := pyUrlunparse
      ⟨parsed.scheme, parsed.netloc, parsed.path, parsed.params, query, []⟩
    (st.1 ++ [url], params)
  ((pyRange pageStart (pageEnd + 1)).foldl step ([], params0)).1

/-- The url_template branch of extract_pagination_links: the html argument
is not passed on (the generated URLs do not depend on it). -/
def extract_pagination_links_url_template {α : Type} (_html : α)
    (baseUrl : PyStr) (config : PaginationConfig) : List PyStr :=
  extract_url_template_pagination baseUrl config

/-! ## JSONStateStore (persistence/list_crawl_state.py)

The in-memory sets are modelled as duplicate-free lists (Python sets),
the two .jsonl logs as lists of entries in append order (each call opens
the file in append mode and writes one line immediately).
datetime.utcnow() is modelled by an abstract monotone clock. -/

structure ItemEntry where
  url : PyStr
  text : PyStr
  source_page : PyStr
  timestamp : Nat
deriving DecidableEq, Repr

structure PageLogEntry where
  url : PyStr
  status : PyStr
  items_found : Nat
  pagination_found : Nat
  timestamp : Nat
deriving DecidableEq, Repr

structure JSONStateStore where
  seen_list_pages : List PyStr
  seen_item_links : List PyStr
  items_log : List ItemEntry
  list_pages_log : List PageLogEntry
  clock : Nat
deriving DecidableEq, Repr

def emptyStore : JSONStateStore := ⟨[], [], [], [], 0⟩

def has_seen_list_page (s : JSONStateStore) (url : PyStr) : Bool :=
  url ∈ s.seen_list_pages

/-- set.add semantics. -/
def mark_list_page_seen (s : JSONStateStore) (url : PyStr) : JSONStateStore :=
  if url ∈ s.seen_list_pages then s
  else { s with seen_list_pages := s.seen_list_pages ++ [url] }

def has_seen_item (s : JSONStateStore) (url : PyStr) : Bool :=
  url ∈ s.seen_item_links

/-- add_item: return unchanged when the url is already seen, otherwise add
it to the seen set and append one entry to items.jsonl with a fresh
timestamp. -/
def add_item (s : JSONStateStore) (url text source_page : PyStr) :
    JSONStateStore :=
  if url ∈ s.seen_item_links then s
  else
    { s with
      seen_item_links := s.seen_item_links ++ [url]
      items_log := s.items_log ++ [⟨url, text, source_page, s.clock⟩]
      clock := s.clock + 1 }

/-- append_list_page_log: always appends one entry to list_pages.jsonl. -/
def append_list_page_log (s : JSONStateStore) (url status : PyStr)
    (items_found pagination_found : Nat) : JSONStateStore :=
  { s with
    list_pages_log :=
      s.list_pages_log ++ [⟨url, status, items_found, pagination_found, s.clock⟩]
    clock := s.clock + 1 }

def get_seen_list_pages_count (s : JSONStateStore) : Nat :=
  s.seen_list_pages.length

def get_seen_items_count (s : JSONStateStore) : Nat :=
  s.seen_item_links.length

/-- clear(): empty both seen sets (logs are not touched). -/
def storeClear (s : JSONStateStore) : JSONStateStore :=
  { s with seen_list_pages := [], seen_item_links := [] }

/-! ## ListCrawler (list_crawler.py)

The fetch transport and the HTML extraction calls are abstracted into an
environment: for a fetched URL the environment yields none (fetch failure)
or the results the two extraction functions would return for the page's
html — extract_item_links projected to its (url, text) pairs, and
extract_pagination_links.  Everything downstream of those calls is
modelled statement by statement from list_crawler.py.  The trace records
every persistence call and queue mutation the run performs. -/

structure PageData where
  itemLinks : List (PyStr × PyStr)
  paginationLinks : List PyStr
deriving DecidableEq, Repr

/-- fetch plus extraction, as one oracle. -/
abbrev FetchEnv := PyStr → Option PageData

structure Limits where
  max_list_pages : Nat := 0
  max_items : Nat := 0
deriving DecidableEq, Repr

structure Recipe where
  start_urls : List PyStr
  pagination : Option PaginationConfig := none
  limits : Limits := {}
deriving DecidableEq, Repr

inductive PersistEvent where
  | addItemCall (url text source_page : PyStr)
  | markListPageSeenCall (url : PyStr)
  | appendListPageLogCall (url status : PyStr) (items_found pagination_found : Nat)
  | enqueueCall (url : PyStr)
  | saveCall
deriving DecidableEq, Repr

structure ListCrawler where
  recipe : Recipe
  dry_run : Bool
  force : Bool
  queue : List PyStr
  queued_urls : List PyStr
  state : JSONStateStore
  stats_list_pages_visited : Nat
  stats_list_pages_skipped : Nat
  stats_items_discovered : Nat
  stats_pagination_links_found : Nat
  trace : List PersistEvent
deriving DecidableEq, Repr

/-- ListCrawler.__init__: optionally clear the loaded state, seed the
queue with the canonicalized start urls, and set queued_urls to the set
of the raw start urls. -/
def initCrawler (recipe : Recipe) (dry_run force : Bool)
    (loadedState : JSONStateStore) : ListCrawler :=
  { recipe := recipe
    dry_run := dry_run
    force := force
    queue := recipe.start_urls.map (fun u => canonicalize u)
    queued_urls := recipe.start_urls
    state := if force then storeClear loadedState else loadedState
    stats_list_pages_visited := 0
    stats_list_pages_skipped := 0
    stats_items_discovered := 0
    stats_pagination_links_found := 0
    trace := [] }

/-- _enqueue_pagination_links: canonicalize each link and append it to the
queue unless already queued or already seen as a list page. -/
def enqueue_pagination_links (c : ListCrawler) (links : List PyStr) :
    ListCrawler :=
  links.foldl
    (fun c link =>
      let canonicalLink := canonicalize link
      if canonicalLink ∈ c.queued_urls then c
      else if has_seen_list_page c.state canonicalLink then c
      else
        { c with
          queue := c.queue ++ [canonicalLink]
          queued_urls := c.queued_urls ++ [canonicalLink]
          trace := c.trace ++ [.enqueueCall canonicalLink] })
    c

/-- _should_stop: limits are Python-falsy when 0 (None or 0). -/
def should_stop (c : ListCrawler) : Bool :=
  (c.recipe.limits.max_list_pages ≠ 0 ∧
    c.stats_list_pages_visited ≥ c.recipe.limits.max_list_pages) ∨
  (c.recipe.limits.max_items ≠ 0 ∧
    c.stats_items_discovered ≥ c.recipe.limits.max_items)

/-- One iteration of the item loop of _process_list_page: canonicalize
the extracted link; when unseen, add_item unless dry_run and count it as
discovered. -/
def processOneItem (url : PyStr) (c : ListCrawler) (item : PyStr × PyStr) :
    ListCrawler :=
  let canonicalUrl := canonicalize item.1
  if ¬ has_seen_item c.state canonicalUrl then
    let c :=
      if ¬ c.dry_run then
        { c with
          state := add_item c.state canonicalUrl item.2 url
          trace := c.trace ++ [.addItemCall canonicalUrl item.2 url] }
      else c
    { c with stats_items_discovered := c.stats_items_discovered + 1 }
  else c

/-- The item loop of _process_list_page. -/
def processItems (url : PyStr) (c : ListCrawler)
    (itemLinks : List (PyStr × PyStr)) : ListCrawler :=
  itemLinks.foldl (processOneItem url) c

/-- _process_list_page(url): returns (success, updated crawler). -/
def process_list_page (env : FetchEnv) (c : ListCrawler) (url : PyStr) :
    Bool × ListCrawler :=
  if ¬ c.force ∧ has_seen_list_page c.state url then
    (true, { c with stats_list_pages_skipped := c.stats_list_pages_skipped + 1 })
  else
    match env url with
    | none =>
      -- the error log append is not guarded by dry_run in the source
      (false,
        { c with
          state := append_list_page_log c.state url (pys "error") 0 0
          trace := c.trace ++ [.appendListPageLogCall url (pys "error") 0 0] })
    | some page =>
      let c := processItems url c page.itemLinks
      let paginationLinks :=
        match c.recipe.pagination with
        | some _ => page.paginationLinks
        | none => []
      let c :=
        match c.recipe.pagination with
        | some _ =>
          let c := { c with
            stats_pagination_links_found :=
              c.stats_pagination_links_found + paginationLinks.length }
          if ¬ c.dry_run then enqueue_pagination_links c paginationLinks else c
        | none => c
      let c :=
        if ¬ c.dry_run then
          { c with
            state :=
              append_list_page_log (mark_list_page_seen c.state url) url
                (pys "success") page.itemLinks.length paginationLinks.length
            trace := c.trace ++
              [.markListPageSeenCall url,
               .appendListPageLogCall url (pys "success")
                 page.itemLinks.length paginationLinks.length] }
        else c
      let c := { c with
        stats_list_pages_visited := c.stats_list_pages_visited + 1 }
      if should_stop c then (false, c) else (true, c)

/-- The body of crawl()'s while loop, fuel-bounded (the Python loop runs
until the queue empties or a limit stops it; every claim is stated for
every fuel). -/
def crawl_loop (env : FetchEnv) : Nat → ListCrawler → ListCrawler
  | 0, c => c
  | fuel + 1, c =>
    match c.queue with
    | [] => c
    | url :: rest =>
      let c1 := { c with queue := rest }
      let r := process_list_page env c1 url
      let c2 := r.2
      let c3 :=
        if ¬ r.1 ∧ ¬ c2.dry_run then { c2 with trace := c2.trace ++ [.saveCall] }
        else c2
      if should_stop c3 then c3
      else
        let c4 :=
          if ¬ c3.dry_run ∧ c3.stats_list_pages_visited % 5 = 0 then
            { c3 with trace := c3.trace ++ [.saveCall] }
          else c3
        crawl_loop env fuel c4

/-- crawl(): the loop followed by the final save (suppressed in dry-run). -/
def crawl (env : FetchEnv) (fuel : Nat) (c : ListCrawler) : ListCrawler :=
  let c := crawl_loop env fuel c
  if ¬ c.dry_run then { c with trace := c.trace ++ [.saveCall] } else c

/-- Replace a crawler's limits (used to state that page-level item
processing does not consult them). -/
def setLimits (c : ListCrawler) (L : Limits) : ListCrawler :=
  { c with recipe := { c.recipe with limits := L } }

/-! # Theorems -/

/-! ## Helper lemmas -/

theorem head?_dropWhile_false {p : Char → Bool} {l : PyStr} {c : Char}
    (h : (l.dropWhile p).head? = some c) : p c = false := by
  induction l with
  | nil => simp [List.dropWhile] at h
  | cons x xs ih =>
    simp only [List.dropWhile] at h
    by_cases hx : p x
    · simp [hx] at h
      exact ih h
    · simp [hx] at h
      subst h
      simpa using hx

theorem rstripSlashes_no_trailing (l : PyStr) :
    (rstripSlashes l).getLast? ≠ some '/' := by
  intro h
  rw [rstripSlashes, List.getLast?_reverse] at h
  have := head?_dropWhile_false h
  simp at this

/-! ## quote/unquote round trip -/

theorem char_valid_nat (c : Char) :
    c.toNat < 55296 ∨ (57343 < c.toNat ∧ c.toNat < 1114112) := c.valid

theorem utf8EncodeChar_lt_256 (c : Char) : ∀ b ∈ utf8EncodeChar c, b < 256 := by
  have hval := char_valid_nat c
  intro b hb
  rw [utf8EncodeChar] at hb
  split_ifs at hb <;> simp at hb <;> omega

theorem hexVal_hexUpper (n : Nat) (h : n < 16) : hexVal (hexUpper n) = some n := by
  interval_cases n <;> decide

theorem hexUpper_ne_plus (n : Nat) (h : n < 16) : hexUpper n ≠ '+' := by
  interval_cases n <;> decide

theorem char_ne_of_toNat_ne {c d : Char} (h : c.toNat ≠ d.toNat) : c ≠ d :=
  fun he => h (he ▸ rfl)

theorem alwaysSafe_props {c : Char} (h : alwaysSafe c = true) :
    c.toNat < 128 ∧ c ≠ '%' ∧ c ≠ '+' ∧ c ≠ ' ' := by
  have hb : c.toNat < 128 ∧ c.toNat ≠ 37 ∧ c.toNat ≠ 43 ∧ c.toNat ≠ 32 := by
    rw [alwaysSafe, Bool.or_eq_true, Bool.or_eq_true, Bool.or_eq_true,
      Bool.or_eq_true, Bool.or_eq_true] at h
    rcases h with ((((h | h) | h) | h) | h) | h
    · rw [isAsciiAlphaCh, Bool.or_eq_true, isAsciiUpperCh, isAsciiLowerCh] at h
      rcases h with h | h <;> simp at h <;> omega
    · rw [isAsciiDigitCh] at h
      simp at h
      omega
    · have hc : c = '_' := by simpa using h
      subst hc; decide
    · have hc : c = '.' := by simpa using h
      subst hc; decide
    · have hc : c = '-' := by simpa using h
      subst hc; decide
    · have hc : c = '~' := by simpa using h
      subst hc; decide
  refine ⟨hb.1, char_ne_of_toNat_ne ?_, char_ne_of_toNat_ne ?_,
    char_ne_of_toNat_ne ?_⟩
  · rw [show ('%' : Char).toNat = 37 from rfl]; exact hb.2.1
  · rw [show ('+' : Char).toNat = 43 from rfl]; exact hb.2.2.1
  · rw [show (' ' : Char).toNat = 32 from rfl]; exact hb.2.2.2

theorem utf8Feed_none (b : Nat) : utf8Feed none b = utf8Lead b := rfl

theorem utf8Lead_ascii (b : Nat) (h : b < 128) :
    utf8Lead b = ([Char.ofNat b], none) := by
  rw [utf8Lead, if_pos h]

theorem utf8Lead_two (b : Nat) (h : 194 ≤ b ∧ b ≤ 223) :
    utf8Lead b = ([], some (b - 192, 1, 128, 191)) := by
  rw [utf8Lead, if_neg (by omega), if_pos h]

theorem utf8Lead_three (b : Nat) (h : 224 ≤ b ∧ b ≤ 239) :
    utf8Lead b = ([], some (b - 224, 2, if b = 224 then 160 else 128,
      if b = 237 then 159 else 191)) := by
  rw [utf8Lead, if_neg (by omega), if_neg (by omega), if_pos h]

theorem utf8Lead_four (b : Nat) (h : 240 ≤ b ∧ b ≤ 244) :
    utf8Lead b = ([], some (b - 240, 3, if b = 240 then 144 else 128,
      if b = 244 then 143 else 191)) := by
  rw [utf8Lead, if_neg (by omega), if_neg (by omega), if_neg (by omega),
    if_pos h]

theorem utf8Feed_final (acc lo hi b : Nat) (h : lo ≤ b ∧ b ≤ hi) :
    utf8Feed (some (acc, 1, lo, hi)) b =
      ([Char.ofNat (acc * 64 + (b - 128))], none) := by
  show (if lo ≤ b ∧ b ≤ hi then
      if 1 = 1 then ([Char.ofNat (acc * 64 + (b - 128))], none)
      else ([], some (acc * 64 + (b - 128), 1 - 1, 128, 191))
    else (replCh :: (utf8Lead b).1, (utf8Lead b).2)) = _
  rw [if_pos h, if_pos rfl]

theorem utf8Feed_mid (acc n lo hi b : Nat) (h : lo ≤ b ∧ b ≤ hi)
    (hn : n ≠ 1) :
    utf8Feed (some (acc, n, lo, hi)) b =
      ([], some (acc * 64 + (b - 128), n - 1, 128, 191)) := by
  show (if lo ≤ b ∧ b ≤ hi then
      if n = 1 then ([Char.ofNat (acc * 64 + (b - 128))], none)
      else ([], some (acc * 64 + (b - 128), n - 1, 128, 191))
    else (replCh :: (utf8Lead b).1, (utf8Lead b).2)) = _
  rw [if_pos h, if_neg hn]

/-- Decoding the UTF-8 bytes of one character from the clean state emits
exactly that character and returns to the clean state. -/
theorem uqRun_encode (c : Char) (ts : List (Nat ⊕ Char)) :
    uqRun none ((utf8EncodeChar c).map Sum.inl ++ ts) = c :: uqRun none ts := by
  have hval := char_valid_nat c
  by_cases h1 : c.toNat < 128
  · have he : utf8EncodeChar c = [c.toNat] := by rw [utf8EncodeChar, if_pos h1]
    rw [he]
    simp only [List.map_cons, List.map_nil, List.cons_append, List.nil_append,
      uqRun, utf8Feed_none, utf8Lead_ascii c.toNat h1]
    simp [Char.ofNat_toNat]
  · by_cases h2 : c.toNat < 2048
    · have he : utf8EncodeChar c =
          [192 + c.toNat / 64, 128 + c.toNat % 64] := by
        rw [utf8EncodeChar, if_neg h1, if_pos h2]
      rw [he]
      simp only [List.map_cons, List.map_nil, List.cons_append, List.nil_append,
        uqRun, utf8Feed_none]
      rw [utf8Lead_two (192 + c.toNat / 64) ⟨by omega, by omega⟩]
      simp only [List.nil_append]
      rw [utf8Feed_final (192 + c.toNat / 64 - 192) 128 191
        (128 + c.toNat % 64) ⟨by omega, by omega⟩]
      have hv : (192 + c.toNat / 64 - 192) * 64 + (128 + c.toNat % 64 - 128) =
          c.toNat := by omega
      rw [hv]
      simp [Char.ofNat_toNat]
    · by_cases h3 : c.toNat < 65536
      · have he : utf8EncodeChar c =
            [224 + c.toNat / 4096, 128 + c.toNat / 64 % 64,
             128 + c.toNat % 64] := by
          rw [utf8EncodeChar, if_neg h1, if_neg h2, if_pos h3]
        rw [he]
        simp only [List.map_cons, List.map_nil, List.cons_append,
          List.nil_append, uqRun, utf8Feed_none]
        rw [utf8Lead_three (224 + c.toNat / 4096) ⟨by omega, by omega⟩]
        simp only [List.nil_append]
        rw [utf8Feed_mid (224 + c.toNat / 4096 - 224) 2
          (if 224 + c.toNat / 4096 = 224 then 160 else 128)
          (if 224 + c.toNat / 4096 = 237 then 159 else 191)
          (128 + c.toNat / 64 % 64)
          ⟨by split_ifs <;> omega, by split_ifs <;> omega⟩ (by omega)]
        simp only [List.nil_append]
        rw [utf8Feed_final ((224 + c.toNat / 4096 - 224) * 64 +
            (128 + c.toNat / 64 % 64 - 128)) 128 191
          (128 + c.toNat % 64) ⟨by omega, by omega⟩]
        have hv : ((224 + c.toNat / 4096 - 224) * 64 +
              (128 + c.toNat / 64 % 64 - 128)) * 64 +
              (128 + c.toNat % 64 - 128) = c.toNat := by omega
        rw [hv]
        simp [Char.ofNat_toNat]
      · have he : utf8EncodeChar c =
            [240 + c.toNat / 262144, 128 + c.toNat / 4096 % 64,
             128 + c.toNat / 64 % 64, 128 + c.toNat % 64] := by
          rw [utf8EncodeChar, if_neg h1, if_neg h2, if_neg h3]
        rw [he]
        simp only [List.map_cons, List.map_nil, List.cons_append,
          List.nil_append, uqRun, utf8Feed_none]
        rw [utf8Lead_four (240 + c.toNat / 262144) ⟨by omega, by omega⟩]
        simp only [List.nil_append]
        rw [utf8Feed_mid (240 + c.toNat / 262144 - 240) 3
          (if 240 + c.toNat / 262144 = 240 then 144 else 128)
          (if 240 + c.toNat / 262144 = 244 then 143 else 191)
          (128 + c.toNat / 4096 % 64)
          ⟨by split_ifs <;> omega, by split_ifs <;> omega⟩ (by omega)]
        simp only [List.nil_append]
        rw [utf8Feed_mid ((240 + c.toNat / 262144 - 240) * 64 +
            (128 + c.toNat / 4096 % 64 - 128)) (3 - 1) 128 191
          (128 + c.toNat / 64 % 64) ⟨by omega, by omega⟩ (by omega)]
        simp only [List.nil_append]
        rw [utf8Feed_final (((240 + c.toNat / 262144 - 240) * 64 +
            (128 + c.toNat / 4096 % 64 - 128)) * 64 +
            (128 + c.toNat / 64 % 64 - 128)) 128 191
          (128 + c.toNat % 64) ⟨by omega, by omega⟩]
        have hv : (((240 + c.toNat / 262144 - 240) * 64 +
              (128 + c.toNat / 4096 % 64 - 128)) * 64 +
              (128 + c.toNat / 64 % 64 - 128)) * 64 +
              (128 + c.toNat % 64 - 128) = c.toNat := by omega
        rw [hv]
        simp [Char.ofNat_toNat]

theorem uqRun_encode_list : ∀ l : PyStr,
    uqRun none ((l.flatMap utf8EncodeChar).map Sum.inl) = l := by
  intro l
  induction l with
  | nil => rfl
  | cons c rest ih =>
    rw [List.flatMap_cons, List.map_append, uqRun_encode, ih]

theorem uqTokens_nonpercent (c : Char) (t : PyStr) (hc : c ≠ '%') :
    uqTokens (c :: t) =
      (if isAsciiCh c then .inl c.toNat else .inr c) :: uqTokens t := by
  rw [uqTokens.eq_def]
  split
  · rename_i heq
    cases heq
  · rename_i heq
    injection heq with h1 h2
    exact absurd h1 hc
  · rename_i heq
    injection heq with h1 h2
    subst h1; subst h2; rfl

theorem uqTokens_percent (h1 h2 : Char) (t : PyStr) :
    uqTokens ('%' :: h1 :: h2 :: t) =
      (match hexVal h1, hexVal h2 with
        | some a, some b => Sum.inl (a * 16 + b) :: uqTokens t
        | _, _ => Sum.inl 37 :: uqTokens (h1 :: h2 :: t)) := by
  rw [uqTokens.eq_def]
  rfl

theorem uqTokens_quoteByte (b : Nat) (hb : b < 256) (rest : PyStr) :
    uqTokens (quoteByte b ++ rest) = .inl b :: uqTokens rest := by
  rw [quoteByte]
  show uqTokens ('%' :: hexUpper (b / 16) :: hexUpper (b % 16) :: rest) = _
  rw [uqTokens_percent,
    hexVal_hexUpper (b / 16) (by omega), hexVal_hexUpper (b % 16) (by omega)]
  show Sum.inl (b / 16 * 16 + b % 16) :: uqTokens rest = _
  have hv : b / 16 * 16 + b % 16 = b := by omega
  rw [hv]

theorem plusmap_quoteByte (b : Nat) (hb : b < 256) :
    (quoteByte b).map (fun c => if c = '+' then ' ' else c) = quoteByte b := by
  rw [quoteByte]
  simp only [List.map_cons, List.map_nil]
  rw [if_neg (by decide), if_neg (hexUpper_ne_plus (b / 16) (by omega)),
    if_neg (hexUpper_ne_plus (b % 16) (by omega))]

theorem uqTokens_quoteBytes (bs : List Nat) (hb : ∀ b ∈ bs, b < 256)
    (rest : PyStr) :
    uqTokens (bs.flatMap quoteByte ++ rest) = bs.map .inl ++ uqTokens rest := by
  induction bs with
  | nil => simp
  | cons b bt ih =>
    rw [List.flatMap_cons, List.append_assoc,
      uqTokens_quoteByte b (hb b (List.mem_cons_self b bt)) _,
      ih (fun x hx => hb x (List.mem_cons_of_mem _ hx)), List.map_cons,
      List.cons_append]

/-- Tokenizing the plus-unescaped quote_plus encoding of one character
yields exactly its UTF-8 bytes. -/
theorem uqTokens_quotePlusChar (c : Char) (rest : PyStr) :
    uqTokens ((pyQuotePlusChar c).map (fun x => if x = '+' then ' ' else x)
        ++ rest) =
      (utf8EncodeChar c).map .inl ++ uqTokens rest := by
  rw [pyQuotePlusChar]
  by_cases hsafe : alwaysSafe c
  · obtain ⟨hlt, hpct, hplus, _⟩ := alwaysSafe_props hsafe
    rw [if_pos hsafe]
    simp only [List.map_cons, List.map_nil, if_neg hplus, List.cons_append,
      List.nil_append]
    rw [uqTokens_nonpercent c _ hpct]
    rw [if_pos (by rw [isAsciiCh]; simp; omega)]
    have he : utf8EncodeChar c = [c.toNat] := by
      rw [utf8EncodeChar, if_pos hlt]
    rw [he]
    simp
  · rw [if_neg hsafe]
    by_cases hsp : c = ' '
    · rw [if_pos hsp, hsp]
      simp only [List.map_cons, List.map_nil, if_pos rfl, List.cons_append,
        List.nil_append, if_true]
      rw [uqTokens_nonpercent ' ' _ (by decide)]
      rw [if_pos (by decide)]
      rfl
    · rw [if_neg hsp]
      have hmap : ∀ bs : List Nat, (∀ b ∈ bs, b < 256) →
          (bs.flatMap quoteByte).map (fun x => if x = '+' then ' ' else x) =
            bs.flatMap quoteByte := by
        intro bs
        induction bs with
        | nil => intro _; rfl
        | cons b bt ih =>
          intro hb
          rw [List.flatMap_cons, List.map_append,
            plusmap_quoteByte b (hb b (List.mem_cons_self b bt)),
            ih (fun x hx => hb x (List.mem_cons_of_mem _ hx))]
      rw [hmap (utf8EncodeChar c) (utf8EncodeChar_lt_256 c),
        uqTokens_quoteBytes (utf8EncodeChar c) (utf8EncodeChar_lt_256 c)]

theorem uqTokens_quotePlus (l : PyStr) (rest : PyStr) :
    uqTokens ((pyQuotePlus l).map (fun x => if x = '+' then ' ' else x)
        ++ rest) =
      (l.flatMap utf8EncodeChar).map Sum.inl ++ uqTokens rest := by
  induction l with
  | nil => simp [pyQuotePlus]
  | cons c ct ih =>
    simp only [pyQuotePlus, List.flatMap_cons, List.map_append,
      List.append_assoc] at ih ⊢
    rw [uqTokens_quotePlusChar, ih]

/-- quote_plus then unquote_plus is the identity. -/
theorem pyUnquotePlus_pyQuotePlus (l : PyStr) :
    pyUnquotePlus (pyQuotePlus l) = l := by
  rw [pyUnquotePlus, pyUnquote]
  have h := uqTokens_quotePlus l []
  rw [List.append_nil] at h
  rw [h, show uqTokens [] = [] from rfl, List.append_nil, uqRun_encode_list]

/-! ## parse_qs / urlencode round trip -/

theorem pyQuotePlus_mem {x : PyStr} {c : Char} (h : c ∈ pyQuotePlus x) :
    alwaysSafe c = true ∨ c = '+' ∨ c = '%' ∨
      ∃ n, n < 16 ∧ c = hexUpper n := by
  rw [pyQuotePlus] at h
  obtain ⟨a, _, hc⟩ := List.mem_flatMap.1 h
  rw [pyQuotePlusChar] at hc
  split_ifs at hc with h1 h2
  · rcases List.mem_singleton.1 hc with rfl
    exact Or.inl h1
  · rcases List.mem_singleton.1 hc with rfl
    exact Or.inr (Or.inl rfl)
  · obtain ⟨b, hb, hcb⟩ := List.mem_flatMap.1 hc
    have hb256 := utf8EncodeChar_lt_256 a b hb
    rw [quoteByte] at hcb
    rcases List.mem_cons.1 hcb with rfl | hcb
    · exact Or.inr (Or.inr (Or.inl rfl))
    rcases List.mem_cons.1 hcb with rfl | hcb
    · exact Or.inr (Or.inr (Or.inr ⟨b / 16, by omega, rfl⟩))
    rcases List.mem_cons.1 hcb with rfl | hcb
    · exact Or.inr (Or.inr (Or.inr ⟨b % 16, by omega, rfl⟩))
    · cases hcb

theorem pyQuotePlus_not_mem (x : PyStr) (d : Char)
    (h1 : alwaysSafe d = false) (h2 : d ≠ '+') (h3 : d ≠ '%')
    (h4 : ∀ n, n < 16 → hexUpper n ≠ d) : d ∉ pyQuotePlus x := by
  intro hm
  rcases pyQuotePlus_mem hm with h | rfl | rfl | ⟨n, hn, rfl⟩
  · rw [h1] at h
    cases h
  · exact h2 rfl
  · exact h3 rfl
  · exact h4 n hn rfl

theorem amp_not_mem_quotePlus (x : PyStr) : '&' ∉ pyQuotePlus x :=
  pyQuotePlus_not_mem x '&' (by decide) (by decide) (by decide)
    (by intro n hn; interval_cases n <;> decide)

theorem eqch_not_mem_quotePlus (x : PyStr) : '=' ∉ pyQuotePlus x :=
  pyQuotePlus_not_mem x '=' (by decide) (by decide) (by decide)
    (by intro n hn; interval_cases n <;> decide)

theorem pySplitAll_no_sep (sep : Char) (x : PyStr) (h : sep ∉ x) :
    pySplitAll sep x = [x] := by
  induction x with
  | nil => rfl
  | cons c t ih =>
    rw [pySplitAll,
      if_neg (fun hc : c = sep => h (hc ▸ List.mem_cons_self c t)),
      ih (fun hm => h (List.mem_cons_of_mem c hm))]

theorem pySplitAll_append_sep (sep : Char) (x r : PyStr) (h : sep ∉ x) :
    pySplitAll sep (x ++ sep :: r) = x :: pySplitAll sep r := by
  induction x with
  | nil => rw [List.nil_append, pySplitAll, if_pos rfl]
  | cons c t ih =>
    rw [List.cons_append, pySplitAll,
      if_neg (fun hc : c = sep => h (hc ▸ List.mem_cons_self c t)),
      ih (fun hm => h (List.mem_cons_of_mem c hm))]

theorem pySplitAll_joinSep (sep : Char) (chunks : List PyStr)
    (hne : chunks ≠ []) (hch : ∀ ch ∈ chunks, sep ∉ ch) :
    pySplitAll sep (joinSep sep chunks) = chunks := by
  induction chunks with
  | nil => exact absurd rfl hne
  | cons x xs ih =>
    cases xs with
    | nil => exact pySplitAll_no_sep sep x (hch x (List.mem_cons_self x []))
    | cons y rest =>
      show pySplitAll sep (x ++ sep :: joinSep sep (y :: rest)) = _
      rw [pySplitAll_append_sep sep x _ (hch x (List.mem_cons_self ..)),
        ih (by simp) (fun ch hm => hch ch (List.mem_cons_of_mem x hm))]

theorem splitFirst_append (sep : Char) (k v : PyStr) (h : sep ∉ k) :
    splitFirst sep (k ++ sep :: v) = some (k, v) := by
  induction k with
  | nil => rw [List.nil_append, splitFirst, if_pos rfl]
  | cons c t ih =>
    rw [List.cons_append, splitFirst,
      if_neg (fun hc : c = sep => h (hc ▸ List.mem_cons_self c t)),
      ih (fun hm => h (List.mem_cons_of_mem c hm))]
    rfl

theorem flatMap_single {α β : Type} (l : List α) (f : α → β) :
    (l.flatMap fun x => [f x]) = l.map f := by
  induction l with
  | nil => rfl
  | cons a t ih => rw [List.flatMap_cons, ih]; rfl

/-- One urlencode chunk list, run through parse_qsl's per-chunk step,
recovers the original pairs. -/
theorem qslChunk_enc (k : PyStr) (vs : List PyStr) :
    (vs.map (fun v => pyQuotePlus k ++ '=' :: pyQuotePlus v)).flatMap
      (fun nv =>
        if nv = [] then []
        else
          match splitFirst '=' nv with
          | some (n, v) => [(pyUnquotePlus n, pyUnquotePlus v)]
          | none => [(pyUnquotePlus nv, pyUnquotePlus [])]) =
      vs.map (fun v => (k, v)) := by
  induction vs with
  | nil => rfl
  | cons v vt ih =>
    simp only [List.map_cons, List.flatMap_cons] at ih ⊢
    rw [ih, if_neg (by simp),
      splitFirst_append '=' _ _ (eqch_not_mem_quotePlus k)]
    show [(pyUnquotePlus (pyQuotePlus k), pyUnquotePlus (pyQuotePlus v))] ++ _
      = _
    rw [pyUnquotePlus_pyQuotePlus, pyUnquotePlus_pyQuotePlus]
    rfl

/-- parse_qsl inverts urlencode(doseq=True) down to the flattened pair
list, for dicts whose value lists are nonempty. -/
theorem parseQsl_urlencode (d : List (PyStr × List PyStr))
    (hv : ∀ kv ∈ d, kv.2 ≠ []) :
    parseQsl (pyUrlencode d) =
      d.flatMap (fun kv => kv.2.map (fun v => (kv.1, v))) := by
  cases d with
  | nil => rfl
  | cons kv0 rest =>
    simp only [pyUrlencode, parseQsl]
    have hch : ∀ ch ∈ (kv0 :: rest).flatMap
        (fun kv => kv.2.map fun v => pyQuotePlus kv.1 ++ '=' :: pyQuotePlus v),
        '&' ∉ ch ∧ ch ≠ [] := by
      intro ch hm
      obtain ⟨kv, _, hmm⟩ := List.mem_flatMap.1 hm
      obtain ⟨v, _, rfl⟩ := List.mem_map.1 hmm
      refine ⟨?_, by simp⟩
      intro hamp
      rcases List.mem_append.1 hamp with hin | hin
      · exact amp_not_mem_quotePlus _ hin
      rcases List.mem_cons.1 hin with heq | hin
      · exact absurd heq (by decide)
      · exact amp_not_mem_quotePlus _ hin
    have hcne : (kv0 :: rest).flatMap
        (fun kv => kv.2.map fun v => pyQuotePlus kv.1 ++ '=' :: pyQuotePlus v)
        ≠ [] := by
      rw [List.flatMap_cons]
      rcases hk0 : kv0.2 with _ | ⟨v0, vt⟩
      · exact absurd hk0 (hv kv0 (List.mem_cons_self ..))
      · simp
    have hqne : joinSep '&' ((kv0 :: rest).flatMap
        (fun kv => kv.2.map fun v => pyQuotePlus kv.1 ++ '=' :: pyQuotePlus v))
        ≠ [] := by
      rcases hcs : (kv0 :: rest).flatMap
          (fun kv => kv.2.map fun v => pyQuotePlus kv.1 ++ '=' :: pyQuotePlus v)
        with _ | ⟨ch0, ctl⟩
      · exact absurd hcs hcne
      · have hch0 := (hch ch0 (hcs ▸ List.mem_cons_self ..)).2
        cases ctl with
        | nil => exact hch0
        | cons y ys => show ch0 ++ '&' :: joinSep '&' (y :: ys) ≠ []; simp
    rw [if_neg hqne,
      pySplitAll_joinSep '&' _ hcne (fun ch hm => (hch ch hm).1),
      List.flatMap_assoc]
    generalize (kv0 :: rest : List (PyStr × List PyStr)) = d'
    induction d' with
    | nil => rfl
    | cons a t ih =>
      simp only [List.flatMap_cons] at ih ⊢
      rw [ih, qslChunk_enc a.1 a.2]

theorem qsAddPair_invariant (acc : List (PyStr × List PyStr))
    (kv : PyStr × PyStr)
    (h : ((acc.map Prod.fst).Nodup ∧ ∀ e ∈ acc, e.2 ≠ [])) :
    ((qsAddPair acc kv).map Prod.fst).Nodup ∧
      ∀ e ∈ qsAddPair acc kv, e.2 ≠ [] := by
  simp only [qsAddPair]
  split_ifs with hany
  · constructor
    · have hfst : (acc.map (fun e =>
          if e.1 = kv.1 then (e.1, e.2 ++ [kv.2]) else e)).map Prod.fst =
          acc.map Prod.fst := by
        rw [List.map_map]
        apply List.map_congr_left
        intro e _
        by_cases he : e.1 = kv.1 <;> simp [he]
      rw [hfst]
      exact h.1
    · intro e he
      obtain ⟨e0, he0, heq⟩ := List.mem_map.1 he
      by_cases hk : e0.1 = kv.1
      · rw [if_pos hk] at heq
        subst heq
        simp
      · rw [if_neg hk] at heq
        subst heq
        exact h.2 e0 he0
  · constructor
    · rw [List.map_append]
      have hnot : kv.1 ∉ acc.map Prod.fst := by
        intro hm
        obtain ⟨e, he, heq⟩ := List.mem_map.1 hm
        exact hany (List.any_eq_true.2 ⟨e, he, by simp [heq]⟩)
      simp only [List.nodup_append, List.map_cons, List.map_nil]
      exact ⟨h.1, List.nodup_singleton _, by simpa using hnot⟩
    · intro e he
      rcases List.mem_append.1 he with he | he
      · exact h.2 e he
      · rw [List.mem_singleton.1 he]
        simp

theorem foldl_qsAddPair_invariant (l : List (PyStr × PyStr)) :
    ∀ acc, ((acc.map Prod.fst).Nodup ∧ ∀ e ∈ acc, e.2 ≠ []) →
      (((l.foldl qsAddPair acc).map Prod.fst).Nodup ∧
        ∀ e ∈ l.foldl qsAddPair acc, e.2 ≠ []) := by
  induction l with
  | nil => intro acc h; exact h
  | cons kv t ih => intro acc h; exact ih _ (qsAddPair_invariant acc kv h)

/-- The keys of parse_qs are distinct and every value list is nonempty. -/
theorem parseQs_invariant (qs : PyStr) :
    ((parseQs qs).map Prod.fst).Nodup ∧ ∀ e ∈ parseQs qs, e.2 ≠ [] := by
  simp only [parseQs]
  exact foldl_qsAddPair_invariant (parseQsl qs) [] ⟨List.nodup_nil, by simp⟩

theorem foldl_qsAddPair_sameKey (k : PyStr) (vs : List PyStr) :
    ∀ (pre : List (PyStr × List PyStr)) (cur : List PyStr),
      (∀ e ∈ pre, e.1 ≠ k) →
      (vs.map (fun v => (k, v))).foldl qsAddPair (pre ++ [(k, cur)]) =
        pre ++ [(k, cur ++ vs)] := by
  induction vs with
  | nil =>
    intro pre cur _
    simp
  | cons v vt ih =>
    intro pre cur h
    rw [List.map_cons, List.foldl_cons]
    have hstep : qsAddPair (pre ++ [(k, cur)]) (k, v) =
        pre ++ [(k, cur ++ [v])] := by
      simp only [qsAddPair]
      rw [if_pos (List.any_eq_true.2 ⟨(k, cur), by simp, by simp⟩),
        List.map_append]
      congr 1
      · conv_rhs => rw [← List.map_id pre]
        apply List.map_congr_left
        intro e he
        rw [if_neg (h e he)]
        rfl
      · simp
    rw [hstep, ih pre (cur ++ [v]) h, List.append_assoc]
    rfl

theorem foldl_qsAddPair_group (k : PyStr) (vs : List PyStr)
    (pre : List (PyStr × List PyStr)) (hpre : ∀ e ∈ pre, e.1 ≠ k)
    (hvs : vs ≠ []) :
    (vs.map (fun v => (k, v))).foldl qsAddPair pre = pre ++ [(k, vs)] := by
  cases vs with
  | nil => exact absurd rfl hvs
  | cons v0 vt =>
    rw [List.map_cons, List.foldl_cons]
    have hstep : qsAddPair pre (k, v0) = pre ++ [(k, [v0])] := by
      simp only [qsAddPair]
      rw [if_neg]
      intro hany
      obtain ⟨e, he, heq⟩ := List.any_eq_true.1 hany
      exact hpre e he (by simpa using heq)
    rw [hstep, foldl_qsAddPair_sameKey k vt pre [v0] hpre]
    rfl

theorem foldl_qsAddPair_build (d : List (PyStr × List PyStr)) :
    ∀ (pre : List (PyStr × List PyStr)),
      (d.map Prod.fst).Nodup → (∀ e ∈ d, e.2 ≠ []) →
      (∀ e ∈ pre, ∀ e' ∈ d, e.1 ≠ e'.1) →
      (d.flatMap (fun kv => kv.2.map (fun v => (kv.1, v)))).foldl qsAddPair
          pre =
        pre ++ d := by
  induction d with
  | nil =>
    intro pre _ _ _
    simp
  | cons a t ih =>
    intro pre hnodup hv hdisj
    rw [List.flatMap_cons, List.foldl_append,
      foldl_qsAddPair_group a.1 a.2 pre
        (fun e he => hdisj e he a (List.mem_cons_self ..))
        (hv a (List.mem_cons_self ..))]
    have hfst : a.1 ∉ t.map Prod.fst := by
      rw [List.map_cons] at hnodup
      exact (List.nodup_cons.1 hnodup).1
    rw [ih (pre ++ [(a.1, a.2)])
      (by rw [List.map_cons] at hnodup; exact (List.nodup_cons.1 hnodup).2)
      (fun e he => hv e (List.mem_cons_of_mem a he))
      ?_, List.append_assoc]
    · rfl
    · intro e he e' he'
      rcases List.mem_append.1 he with he | he
      · exact hdisj e he e' (List.mem_cons_of_mem a he')
      · rw [List.mem_singleton.1 he]
        intro heq
        exact hfst (heq ▸ List.mem_map_of_mem Prod.fst he')

/-- parse_qs inverts urlencode(doseq=True) on dicts with distinct keys
and nonempty value lists. -/
theorem parseQs_urlencode (d : List (PyStr × List PyStr))
    (hnodup : (d.map Prod.fst).Nodup) (hv : ∀ e ∈ d, e.2 ≠ []) :
    parseQs (pyUrlencode d) = d := by
  simp only [parseQs]
  rw [parseQsl_urlencode d hv,
    foldl_qsAddPair_build d [] hnodup hv (by simp)]
  rfl

/-- The query rewriting of canonicalize acts on the parsed query exactly
as the filter that drops the tracking keys. -/
theorem parseQs_stripTracking (q : PyStr) :
    parseQs (stripTrackingQuery q) =
      (parseQs q).filter (fun kv => kv.1 ∉ trackingParams) := by
  obtain ⟨hnodup, hval⟩ := parseQs_invariant q
  simp only [stripTrackingQuery]
  split_ifs with hf
  · exact parseQs_urlencode _
      (List.Nodup.sublist (List.Sublist.map Prod.fst (List.filter_sublist _))
        hnodup)
      (fun e he => hval e (List.mem_of_mem_filter he))
  · rw [not_ne_iff] at hf
    rw [hf]
    rfl

/-- The query rewriting of canonicalize is stable on its own nonempty
image. -/
theorem stripTrackingQuery_stable (q : PyStr)
    (h : stripTrackingQuery q ≠ []) :
    stripTrackingQuery (stripTrackingQuery q) = stripTrackingQuery q := by
  have hff : ((parseQs q).filter (fun kv => kv.1 ∉ trackingParams)).filter
      (fun kv => kv.1 ∉ trackingParams) =
      (parseQs q).filter (fun kv => kv.1 ∉ trackingParams) := by
    rw [List.filter_filter]
    apply List.filter_congr
    intro e _
    by_cases hm : e.1 ∈ trackingParams <;> simp [hm]
  have hfne : (parseQs q).filter (fun kv => kv.1 ∉ trackingParams) ≠ [] := by
    intro hnil
    apply h
    show (if (parseQs q).filter (fun kv => kv.1 ∉ trackingParams) ≠ [] then
        pyUrlencode ((parseQs q).filter (fun kv => kv.1 ∉ trackingParams))
      else []) = []
    rw [if_neg (not_ne_iff.2 hnil)]
  have hq2 : stripTrackingQuery q =
      pyUrlencode ((parseQs q).filter (fun kv => kv.1 ∉ trackingParams)) := by
    show (if (parseQs q).filter (fun kv => kv.1 ∉ trackingParams) ≠ [] then
        pyUrlencode ((parseQs q).filter (fun kv => kv.1 ∉ trackingParams))
      else []) = _
    rw [if_pos hfne]
  show (if (parseQs (stripTrackingQuery q)).filter
        (fun kv => kv.1 ∉ trackingParams) ≠ [] then
      pyUrlencode ((parseQs (stripTrackingQuery q)).filter
        (fun kv => kv.1 ∉ trackingParams))
    else []) = stripTrackingQuery q
  rw [parseQs_stripTracking q, hff, if_pos hfne, ← hq2]

/-! ## C8: tracking-parameter removal -/

/-- C8, counterexample: the tracking filter is the fixed fourteen-name
set, not a utm_* wildcard — utm_id is a utm_-prefixed parameter, yet
canonicalize retains it (the claim predicts "https://x.test/p?id=2"). -/
theorem c8_counterexample :
    canonicalize (pys "https://x.test/p?utm_id=1&id=2") ≠
      pys "https://x.test/p?id=2" ∧
    canonicalize (pys "https://x.test/p?utm_id=1&id=2") =
      pys "https://x.test/p?utm_id=1&id=2" ∧
    (pys "utm_").isPrefixOf (pys "utm_id") = true := by
  exact ⟨by decide, by decide, by decide⟩

/-- C8 (amended): with stripTracking true, canonicalize's query rewriting
removes exactly the keys in the fixed fourteen-name set trackingParams
(the five utm_ names utm_source, utm_medium, utm_campaign, utm_term,
utm_content — not every utm_* name — plus fbclid, gclid, msclkid, mc_cid,
mc_eid, _ga, _gl, ref, source): for every query string, the rewritten
query parses to exactly the original parsed query minus the tracking
keys, preserving key order and the value multiplicities of all other
parameters; the spec's concrete examples hold, and with
stripTracking=false the tracking parameter is retained. -/
theorem c8_amended :
    (∀ q : PyStr, parseQs (stripTrackingQuery q) =
      (parseQs q).filter (fun kv => kv.1 ∉ trackingParams)) ∧
    canonicalize (pys "https://x.test/p?utm_source=a&id=1") =
      pys "https://x.test/p?id=1" ∧
    canonicalize (pys "https://x.test/p?utm_source=a&id=1") false =
      pys "https://x.test/p?utm_source=a&id=1" := by
  exact ⟨parseQs_stripTracking, by decide, by decide⟩

/-! ## C7: idempotence of canonicalize — string and parser lemmas -/

theorem toNat_ofNat_valid (n : Nat) (h : n < 55296) :
    (Char.ofNat n).toNat = n := by
  have hv : n.isValidChar := Or.inl h
  unfold Char.ofNat
  rw [dif_pos hv]
  rfl

theorem pyLowerChar_idem (c : Char) :
    pyLowerChar (pyLowerChar c) = pyLowerChar c := by
  have hnot : isAsciiUpperCh (pyLowerChar c) = false := by
    by_cases h : isAsciiUpperCh c = true
    · have hlt : 65 ≤ c.toNat ∧ c.toNat ≤ 90 := by
        rw [isAsciiUpperCh] at h
        simpa using h
      rw [pyLowerChar, if_pos h, isAsciiUpperCh,
        toNat_ofNat_valid (c.toNat + 32) (by omega)]
      rw [Bool.eq_false_iff]
      simp only [ne_eq, Bool.and_eq_true, decide_eq_true_eq]
      omega
    · rw [pyLowerChar, if_neg h]
      simpa using h
  conv_lhs => rw [pyLowerChar]
  rw [if_neg (by simp [hnot])]

theorem pyLower_idem (l : PyStr) : pyLower (pyLower l) = pyLower l := by
  simp only [pyLower, List.map_map]
  apply List.map_congr_left
  intro c _
  exact pyLowerChar_idem c

theorem pyLowerChar_lower {c : Char} (hu : isAsciiUpperCh c = true) :
    isAsciiLowerCh (pyLowerChar c) = true := by
  have hlt : 65 ≤ c.toNat ∧ c.toNat ≤ 90 := by
    rw [isAsciiUpperCh] at hu
    simpa using hu
  rw [pyLowerChar, if_pos hu, isAsciiLowerCh,
    toNat_ofNat_valid (c.toNat + 32) (by omega)]
  simp only [Bool.and_eq_true, decide_eq_true_eq]
  omega

theorem pyLowerChar_scheme {c : Char} (h : schemeChar c = true) :
    schemeChar (pyLowerChar c) = true := by
  by_cases hu : isAsciiUpperCh c = true
  · rw [schemeChar, isAsciiAlphaCh, pyLowerChar_lower hu]
    simp
  · rw [pyLowerChar, if_neg hu]
    exact h

theorem pyLowerChar_alpha {c : Char} (h : isAsciiAlphaCh c = true) :
    isAsciiAlphaCh (pyLowerChar c) = true := by
  by_cases hu : isAsciiUpperCh c = true
  · rw [isAsciiAlphaCh, pyLowerChar_lower hu]
    simp
  · rw [pyLowerChar, if_neg hu]
    exact h

theorem schemeChar_facts {c : Char} (h : schemeChar c = true) :
    32 < c.toNat ∧ c.toNat < 128 ∧ c ≠ ':' ∧ c ≠ '/' ∧ c ≠ '?' ∧ c ≠ '#' ∧
      c ≠ ';' ∧ tabCrLf c = false := by
  have hb : 32 < c.toNat ∧ c.toNat < 128 ∧ c.toNat ≠ 58 ∧ c.toNat ≠ 47 ∧
      c.toNat ≠ 63 ∧ c.toNat ≠ 35 ∧ c.toNat ≠ 59 ∧ c.toNat ≠ 9 ∧
      c.toNat ≠ 13 ∧ c.toNat ≠ 10 := by
    rw [schemeChar, Bool.or_eq_true, Bool.or_eq_true, Bool.or_eq_true,
      Bool.or_eq_true] at h
    rcases h with (((h | h) | h) | h) | h
    · rw [isAsciiAlphaCh, Bool.or_eq_true, isAsciiUpperCh, isAsciiLowerCh] at h
      rcases h with h | h <;> simp at h <;> omega
    · rw [isAsciiDigitCh] at h
      simp at h
      omega
    · have hc : c = '+' := by simpa using h
      subst hc; decide
    · have hc : c = '-' := by simpa using h
      subst hc; decide
    · have hc : c = '.' := by simpa using h
      subst hc; decide
  refine ⟨hb.1, hb.2.1, char_ne_of_toNat_ne ?_, char_ne_of_toNat_ne ?_,
    char_ne_of_toNat_ne ?_, char_ne_of_toNat_ne ?_, char_ne_of_toNat_ne ?_, ?_⟩
  · rw [show (':' : Char).toNat = 58 from rfl]; exact hb.2.2.1
  · rw [show ('/' : Char).toNat = 47 from rfl]; exact hb.2.2.2.1
  · rw [show ('?' : Char).toNat = 63 from rfl]; exact hb.2.2.2.2.1
  · rw [show ('#' : Char).toNat = 35 from rfl]; exact hb.2.2.2.2.2.1
  · rw [show (';' : Char).toNat = 59 from rfl]; exact hb.2.2.2.2.2.2.1
  · rw [tabCrLf]
    have h9 := hb.2.2.2.2.2.2.2.1
    have h13 := hb.2.2.2.2.2.2.2.2.1
    have h10 := hb.2.2.2.2.2.2.2.2.2
    simp only [Bool.or_eq_false_iff]
    refine ⟨⟨?_, ?_⟩, ?_⟩ <;>
      · simp only [decide_eq_false_iff_not]
        apply char_ne_of_toNat_ne
        simp only [show ('\t' : Char).toNat = 9 from rfl,
          show ('\r' : Char).toNat = 13 from rfl,
          show ('\n' : Char).toNat = 10 from rfl]
        omega

theorem splitFirst_eq_some (sep : Char) : ∀ (l x y : PyStr),
    splitFirst sep l = some (x, y) → l = x ++ sep :: y ∧ sep ∉ x := by
  intro l
  induction l with
  | nil => intro x y h; cases h
  | cons c t ih =>
    intro x y h
    rw [splitFirst] at h
    split_ifs at h with hc
    · simp only [Option.some.injEq, Prod.mk.injEq] at h
      obtain ⟨hx, hy⟩ := h
      subst hx; subst hy
      subst hc
      exact ⟨rfl, by simp⟩
    · cases hs : splitFirst sep t with
      | none => rw [hs] at h; cases h
      | some r =>
        rw [hs] at h
        simp only [Option.map_some', Option.some.injEq, Prod.mk.injEq] at h
        obtain ⟨hx, hy⟩ := h
        obtain ⟨ht, hns⟩ := ih r.1 r.2 (by rw [hs])
        subst hx; subst hy
        refine ⟨by rw [List.cons_append, ← ht], ?_⟩
        intro hm
        rcases List.mem_cons.1 hm with heq | hm
        · exact hc heq.symm
        · exact hns hm

theorem splitFirst_eq_none (sep : Char) : ∀ l : PyStr,
    sep ∉ l → splitFirst sep l = none := by
  intro l
  induction l with
  | nil => intro _; rfl
  | cons c t ih =>
    intro h
    rw [splitFirst,
      if_neg (fun hc : c = sep => h (hc ▸ List.mem_cons_self ..)),
      ih (fun hm => h (List.mem_cons_of_mem c hm))]
    rfl

theorem splitFirst_isSome (sep : Char) : ∀ l : PyStr, sep ∈ l →
    ∃ x y, splitFirst sep l = some (x, y) := by
  intro l
  induction l with
  | nil => intro h; cases h
  | cons c t ih =>
    intro h
    by_cases hc : c = sep
    · exact ⟨[], t, by rw [splitFirst, if_pos hc]⟩
    · obtain ⟨x, y, hxy⟩ := ih (by
        rcases List.mem_cons.1 h with heq | hm
        · exact absurd heq.symm hc
        · exact hm)
      exact ⟨c :: x, y, by rw [splitFirst, if_neg hc, hxy]; rfl⟩

theorem splitLast_append (sep : Char) (b ls : PyStr) (h : sep ∉ ls) :
    splitLast sep (b ++ sep :: ls) = some (b, ls) := by
  rw [splitLast]
  have hrev : (b ++ sep :: ls).reverse = ls.reverse ++ sep :: b.reverse := by
    rw [List.reverse_append, List.reverse_cons, List.append_assoc]
    rfl
  rw [hrev, splitFirst_append sep _ _ (by simpa using h)]
  simp

theorem splitLast_eq_some (sep : Char) (l x y : PyStr)
    (h : splitLast sep l = some (x, y)) : l = x ++ sep :: y ∧ sep ∉ y := by
  rw [splitLast] at h
  cases hs : splitFirst sep l.reverse with
  | none => rw [hs] at h; cases h
  | some r =>
    rw [hs] at h
    obtain ⟨hl, hna⟩ := splitFirst_eq_some sep l.reverse r.1 r.2 (by rw [hs])
    simp only [Option.some.injEq, Prod.mk.injEq] at h
    obtain ⟨hx, hy⟩ := h
    subst hx; subst hy
    constructor
    · have hrr := congrArg List.reverse hl
      rw [List.reverse_reverse, List.reverse_append, List.reverse_cons,
        List.append_assoc] at hrr
      rw [hrr]
      rfl
    · simpa using hna

theorem splitLast_isSome (sep : Char) (l : PyStr) (h : sep ∈ l) :
    ∃ x y, splitLast sep l = some (x, y) := by
  obtain ⟨x, y, hxy⟩ := splitFirst_isSome sep l.reverse (by simpa using h)
  exact ⟨y.reverse, x.reverse, by rw [splitLast, hxy]⟩

/-! findScheme characterization -/

theorem findScheme_build (c : Char) (cs rest : PyStr)
    (hc : isAsciiAlphaCh c = true)
    (hall : (c :: cs).all schemeChar = true) :
    findScheme ((c :: cs) ++ ':' :: rest) = some (pyLower (c :: cs), rest) := by
  rw [findScheme, splitFirst_append ':' (c :: cs) rest ?_]
  · show (if (isAsciiAlphaCh c && (c :: cs).all schemeChar) = true then
        some (pyLower (c :: cs), rest) else none) = some (pyLower (c :: cs), rest)
    rw [hc, hall]
    rfl
  · intro hm
    have := (schemeChar_facts (by
      rw [List.all_eq_true] at hall
      exact hall ':' hm)).2.2.1
    exact this rfl

theorem findScheme_none_head (l : PyStr)
    (h : ∀ c, l.head? = some c → isAsciiAlphaCh c = false) :
    findScheme l = none := by
  cases l with
  | nil => rfl
  | cons c t =>
    have hc := h c rfl
    rw [findScheme]
    by_cases hcc : c = ':'
    · rw [splitFirst, if_pos hcc]
    · rw [splitFirst, if_neg hcc]
      cases hs : splitFirst ':' t with
      | none => rfl
      | some r =>
        show (if (isAsciiAlphaCh c && (c :: r.1).all schemeChar) = true then
            some (pyLower (c :: r.1), r.2) else none) = none
        rw [hc]
        rfl

theorem findScheme_destruct (l sch rest : PyStr)
    (h : findScheme l = some (sch, rest)) :
    ∃ c cs, l = (c :: cs) ++ ':' :: rest ∧ isAsciiAlphaCh c = true ∧
      (c :: cs).all schemeChar = true ∧ sch = pyLower (c :: cs) := by
  rw [findScheme] at h
  cases hs : splitFirst ':' l with
  | none => rw [hs] at h; cases h
  | some r =>
    obtain ⟨r1, r2⟩ := r
    have hsp := splitFirst_eq_some ':' l r1 r2 hs
    rw [hs] at h
    cases r1 with
    | nil =>
      have h0 : (none : Option (PyStr × PyStr)) = some (sch, rest) := h
      cases h0
    | cons c cs =>
      have h' : (if (isAsciiAlphaCh c && (c :: cs).all schemeChar) = true then
          some (pyLower (c :: cs), r2) else none) = some (sch, rest) := h
      split_ifs at h' with hcond
      · simp only [Option.some.injEq, Prod.mk.injEq] at h'
        obtain ⟨hsch, hrest⟩ := h'
        rw [Bool.and_eq_true] at hcond
        subst hrest
        exact ⟨c, cs, hsp.1, hcond.1, hcond.2, hsch.symm⟩

/-! cleanUrl and splitNetloc -/

theorem cleanUrl_id (l : PyStr)
    (ht : ∀ c ∈ l, tabCrLf c = false)
    (hh : ∀ c, l.head? = some c → c0ControlOrSpace c = false) :
    cleanUrl l = l := by
  rw [cleanUrl]
  have hdrop : l.dropWhile c0ControlOrSpace = l := by
    cases l with
    | nil => rfl
    | cons c t => rw [List.dropWhile_cons, hh c rfl]; rfl
  rw [hdrop, List.filter_eq_self]
  intro c hc
  rw [ht c hc]
  rfl

theorem takeWhile_all_append (p : Char → Bool) : ∀ (n rest : PyStr),
    (∀ c ∈ n, p c = true) →
    (rest = [] ∨ ∃ c, rest.head? = some c ∧ p c = false) →
    (n ++ rest).takeWhile p = n ∧ (n ++ rest).dropWhile p = rest := by
  intro n rest hn hrest
  induction n with
  | nil =>
    simp only [List.nil_append]
    rcases hrest with rfl | ⟨c, hc, hpc⟩
    · exact ⟨rfl, rfl⟩
    · cases rest with
      | nil => exact ⟨rfl, rfl⟩
      | cons d t =>
        have hd : d = c := by
          simpa using hc
        subst hd
        rw [List.takeWhile_cons, List.dropWhile_cons, hpc]
        exact ⟨rfl, rfl⟩
  | cons c t ih =>
    obtain ⟨ht1, ht2⟩ := ih (fun x hx => hn x (List.mem_cons_of_mem c hx))
    have hc := hn c (List.mem_cons_self ..)
    constructor
    · rw [List.cons_append, List.takeWhile_cons, hc, if_pos rfl, ht1]
    · rw [List.cons_append, List.dropWhile_cons, hc, if_pos rfl, ht2]

theorem splitNetloc_append (n rest : PyStr)
    (hn : ∀ c ∈ n, netDelim c = false)
    (hrest : rest = [] ∨ ∃ c, rest.head? = some c ∧ netDelim c = true) :
    splitNetloc (n ++ rest) = (n, rest) := by
  rw [splitNetloc]
  obtain ⟨h1, h2⟩ := takeWhile_all_append (fun c => !netDelim c) n rest
    (fun c hc => by show (!netDelim c) = true; rw [hn c hc]; rfl)
    (by
      rcases hrest with rfl | ⟨c, hc, hpc⟩
      · exact Or.inl rfl
      · refine Or.inr ⟨c, hc, ?_⟩
        show (!netDelim c) = false
        rw [hpc]
        rfl)
  rw [h1, h2]

/-! splitParams recovery -/

theorem splitParams_append (pa2 pr : PyStr)
    (hpa : ';' ∉ pa2) (hpr : '/' ∉ pr) :
    splitParams (pa2 ++ ';' :: pr) = (pa2, pr) := by
  rw [splitParams]
  by_cases hs : '/' ∈ pa2
  · rw [if_pos (List.mem_append.2 (Or.inl hs))]
    obtain ⟨α, β, hsplit⟩ := splitLast_isSome '/' pa2 hs
    obtain ⟨hdecomp, hβ⟩ := splitLast_eq_some '/' pa2 α β hsplit
    have hassoc : pa2 ++ ';' :: pr = α ++ '/' :: (β ++ ';' :: pr) := by
      rw [hdecomp, List.append_assoc]
      rfl
    rw [hassoc, splitLast_append '/' α (β ++ ';' :: pr) ?_]
    · show (match splitFirst ';' (β ++ ';' :: pr) with
        | some (segA, segB) => (α ++ '/' :: segA, segB)
        | none => (α ++ '/' :: (β ++ ';' :: pr), [])) = (pa2, pr)
      rw [splitFirst_append ';' β pr
        (fun hm => hpa (by
          rw [hdecomp]
          exact List.mem_append.2 (Or.inr (List.mem_cons_of_mem '/' hm))))]
      show ((α ++ '/' :: β : PyStr), pr) = (pa2, pr)
      rw [← hdecomp]
    · intro hm
      rcases List.mem_append.1 hm with h | h
      · exact hβ h
      · rcases List.mem_cons.1 h with heq | h
        · exact absurd heq (by decide)
        · exact hpr h
  · rw [if_neg (by
      intro hm
      rcases List.mem_append.1 hm with h | h
      · exact hs h
      · rcases List.mem_cons.1 h with heq | h
        · exact absurd heq (by decide)
        · exact hpr h)]
    rw [splitFirst_append ';' pa2 pr hpa]

/-! rstripSlashes, isPrefixOf and urlencode character facts -/

theorem rstripSlashes_eq_self {l : PyStr} (h : l.getLast? ≠ some '/') :
    rstripSlashes l = l := by
  rw [rstripSlashes]
  have hdrop : l.reverse.dropWhile (fun c => c = '/') = l.reverse := by
    cases hl : l.reverse with
    | nil => rfl
    | cons c t =>
      rw [List.dropWhile_cons]
      have hc : ¬ (c = '/') := by
        intro hcc
        apply h
        rw [← List.head?_reverse, hl, hcc]
        rfl
      simp [hc]
  rw [hdrop, List.reverse_reverse]

theorem rstripSlashes_idem (l : PyStr) :
    rstripSlashes (rstripSlashes l) = rstripSlashes l :=
  rstripSlashes_eq_self (rstripSlashes_no_trailing l)

theorem rstripSlashes_prefix (l : PyStr) : rstripSlashes l <+: l := by
  rw [rstripSlashes]
  obtain ⟨t, ht⟩ : l.reverse.dropWhile (fun c => c = '/') <:+ l.reverse :=
    List.dropWhile_suffix _
  refine ⟨t.reverse, ?_⟩
  have hrev := congrArg List.reverse ht
  rw [List.reverse_append, List.reverse_reverse] at hrev
  exact hrev

theorem rstripSlashes_subset {l : PyStr} {c : Char}
    (h : c ∈ rstripSlashes l) : c ∈ l :=
  ( rstripSlashes_prefix l).subset h

theorem rstripSlashes_head (l : PyStr) (h : rstripSlashes l ≠ []) :
    (rstripSlashes l).head? = l.head? := by
  obtain ⟨t, ht⟩ := rstripSlashes_prefix l
  cases hr : rstripSlashes l with
  | nil => exact absurd hr h
  | cons c cs =>
    rw [hr] at ht
    rw [← ht]
    rfl

theorem isPrefixOf_slash2 (t : PyStr) :
    ['/', '/'].isPrefixOf ('/' :: '/' :: t) = true := by
  simp [List.isPrefixOf]

theorem isPrefixOf_nil2 : ['/', '/'].isPrefixOf ([] : PyStr) = false := rfl

theorem isPrefixOf_one : ['/', '/'].isPrefixOf ['/'] = false := by
  simp [List.isPrefixOf]

theorem isPrefixOf_ne_head {c : Char} (h : c ≠ '/') (t : PyStr) :
    ['/', '/'].isPrefixOf (c :: t) = false := by
  simp [List.isPrefixOf]
  intro hc
  exact absurd hc.symm h

theorem isPrefixOf_ne_second {c : Char} (h : c ≠ '/') (t : PyStr) :
    ['/', '/'].isPrefixOf ('/' :: c :: t) = false := by
  simp [List.isPrefixOf]
  intro hc
  exact absurd hc.symm h

theorem alwaysSafe_ne {c d : Char} (h : alwaysSafe c = true)
    (hd : alwaysSafe d = false) : c ≠ d := by
  intro he
  rw [he, hd] at h
  cases h

theorem tabCrLf_eq_false {c : Char} (h1 : c ≠ '\t') (h2 : c ≠ '\r')
    (h3 : c ≠ '\n') : tabCrLf c = false := by
  rw [tabCrLf]
  simp [h1, h2, h3]

theorem joinSep_mem {sep : Char} {parts : List PyStr} {c : Char}
    (h : c ∈ joinSep sep parts) : c = sep ∨ ∃ p ∈ parts, c ∈ p := by
  induction parts with
  | nil => cases h
  | cons x xs ih =>
    cases xs with
    | nil => exact Or.inr ⟨x, by simp, h⟩
    | cons y ys =>
      have h' : c ∈ x ++ sep :: joinSep sep (y :: ys) := h
      rcases List.mem_append.1 h' with h1 | h1
      · exact Or.inr ⟨x, by simp, h1⟩
      · rcases List.mem_cons.1 h1 with rfl | h1
        · exact Or.inl rfl
        · rcases ih h1 with h2 | ⟨p, hp, hcp⟩
          · exact Or.inl h2
          · exact Or.inr ⟨p, List.mem_cons_of_mem x hp, hcp⟩

theorem pyUrlencode_mem {d : List (PyStr × List PyStr)} {c : Char}
    (h : c ∈ pyUrlencode d) :
    c = '&' ∨ c = '=' ∨ ∃ x, c ∈ pyQuotePlus x := by
  rcases joinSep_mem h with rfl | ⟨p, hp, hcp⟩
  · exact Or.inl rfl
  · obtain ⟨kv, _, hmm⟩ := List.mem_flatMap.1 hp
    obtain ⟨v, _, rfl⟩ := List.mem_map.1 hmm
    rcases List.mem_append.1 hcp with h1 | h1
    · exact Or.inr (Or.inr ⟨kv.1, h1⟩)
    · rcases List.mem_cons.1 h1 with rfl | h1
      · exact Or.inr (Or.inl rfl)
      · exact Or.inr (Or.inr ⟨v, h1⟩)

theorem pyQuotePlus_char_facts {x : PyStr} {c : Char} (h : c ∈ pyQuotePlus x) :
    c ≠ '#' ∧ tabCrLf c = false := by
  rcases pyQuotePlus_mem h with hsafe | rfl | rfl | ⟨m, hm, rfl⟩
  · exact ⟨alwaysSafe_ne hsafe (by decide),
      tabCrLf_eq_false (alwaysSafe_ne hsafe (by decide))
        (alwaysSafe_ne hsafe (by decide)) (alwaysSafe_ne hsafe (by decide))⟩
  · exact ⟨by decide, by decide⟩
  · exact ⟨by decide, by decide⟩
  · interval_cases m <;> exact ⟨by decide, by decide⟩

theorem pyUrlencode_char_facts {d : List (PyStr × List PyStr)} {c : Char}
    (h : c ∈ pyUrlencode d) : c ≠ '#' ∧ tabCrLf c = false := by
  rcases pyUrlencode_mem h with rfl | rfl | ⟨x, hx⟩
  · exact ⟨by decide, by decide⟩
  · exact ⟨by decide, by decide⟩
  · exact pyQuotePlus_char_facts hx

theorem stripTrackingQuery_char_facts (q : PyStr) {c : Char}
    (h : c ∈ stripTrackingQuery q) : c ≠ '#' ∧ tabCrLf c = false := by
  have hq : stripTrackingQuery q = [] ∨ ∃ d, stripTrackingQuery q =
      pyUrlencode d := by
    simp only [stripTrackingQuery]
    split_ifs with hf
    · exact Or.inr ⟨_, rfl⟩
    · exact Or.inl rfl
  rcases hq with hq | ⟨d, hq⟩
  · rw [hq] at h
    cases h
  · rw [hq] at h
    exact pyUrlencode_char_facts h

/-! ## C4: trailing-slash handling of canonicalize -/

/-- C4, counterexample: canonicalize removes every trailing slash, not a
single one — on "https://x.test/p//" it yields ".../p", not ".../p/" as
the claim ("a path ending in one '/' loses exactly that one slash",
removing a single slash in general) would require. -/
theorem c4_counterexample :
    canonicalize (pys "https://x.test/p//") ≠ pys "https://x.test/p/" ∧
    canonicalize (pys "https://x.test/p//") = pys "https://x.test/p" := by
  constructor
  · decide
  · decide

/-- C4, amended: canonicalize strips the fragment and removes ALL trailing
slashes from the path unless the path is exactly the root '/'; the two
concrete examples of the claim hold, and on a path with several trailing
slashes all of them are removed.  Stated by the claim's examples, the
unfolding of canonicalize through urlparse (showing the fragment is
dropped and the exact path transformation), and the fact that the path
transformation leaves no trailing slash. -/
theorem c4_amended :
    canonicalize (pys "https://x.test/p/") = pys "https://x.test/p" ∧
    canonicalize (pys "https://x.test/") = pys "https://x.test/" ∧
    canonicalize (pys "https://x.test/p//") = pys "https://x.test/p" ∧
    (∀ (u : PyStr) (strip : Bool),
      canonicalize u strip =
        pyUrlunparse
          ⟨(pyUrlparse u).scheme, (pyUrlparse u).netloc,
            (if (pyUrlparse u).path = pys "/" then (pyUrlparse u).path
             else rstripSlashes (pyUrlparse u).path),
            (pyUrlparse u).params,
            (if strip ∧ (pyUrlparse u).query ≠ [] then
              stripTrackingQuery (pyUrlparse u).query
             else (pyUrlparse u).query), []⟩) ∧
    (∀ l : PyStr, (rstripSlashes l).getLast? ≠ some '/') := by
  refine ⟨by decide, by decide, by decide, fun u strip => rfl,
    rstripSlashes_no_trailing⟩

/-- C4 witness: the amended theorem applied at concrete inputs. -/
theorem c4_amended_witness :
    (rstripSlashes (pys "ab///")).getLast? ≠ some '/' ∧
    canonicalize (pys "https://x.test/p/") = pys "https://x.test/p" :=
  ⟨c4_amended.2.2.2.2 (pys "ab///"), c4_amended.1⟩

/-! ## C6: add_item deduplication -/

theorem add_item_seen {s : JSONStateStore} {u : PyStr} (t src : PyStr)
    (h : u ∈ s.seen_item_links) : add_item s u t src = s := by
  simp [add_item, h]

theorem add_item_unseen {s : JSONStateStore} {u : PyStr} (t src : PyStr)
    (h : u ∉ s.seen_item_links) :
    (add_item s u t src).items_log =
      s.items_log ++ [⟨u, t, src, s.clock⟩] ∧
    (add_item s u t src).seen_item_links = s.seen_item_links ++ [u] := by
  simp [add_item, h]

/-- Folding add_item over further calls never touches the entries for a
url that is already seen. -/
theorem foldl_add_item_seen (u : PyStr)
    (calls : List (PyStr × PyStr × PyStr)) :
    ∀ s : JSONStateStore, u ∈ s.seen_item_links →
      ((calls.foldl (fun st c => add_item st c.1 c.2.1 c.2.2) s).items_log.filter
          (fun e => e.url = u)).length =
        (s.items_log.filter (fun e => e.url = u)).length ∧
      (calls.foldl (fun st c => add_item st c.1 c.2.1 c.2.2)
          s).seen_item_links.count u = s.seen_item_links.count u := by
  induction calls with
  | nil => intro s hs; exact ⟨rfl, rfl⟩
  | cons c cs ih =>
    intro s hs
    simp only [List.foldl_cons]
    by_cases hc : c.1 ∈ s.seen_item_links
    · rw [add_item_seen c.2.1 c.2.2 hc]
      exact ih s hs
    · have hcu : c.1 ≠ u := fun h => hc (h ▸ hs)
      have h1 := (add_item_unseen (s := s) (u := c.1) c.2.1 c.2.2 hc).1
      have h2 := (add_item_unseen (s := s) (u := c.1) c.2.1 c.2.2 hc).2
      have hmem : u ∈ (add_item s c.1 c.2.1 c.2.2).seen_item_links := by
        rw [h2]; exact List.mem_append_left _ hs
      obtain ⟨ha, hb⟩ := ih (add_item s c.1 c.2.1 c.2.2) hmem
      constructor
      · rw [ha, h1]
        simp [List.filter_append, hcu]
      · rw [hb, h2]
        simp [List.count_append, List.count_cons, hcu]

/-- C6: add_item deduplicates by canonical url.  A call with an
already-seen url is a strict no-op; a call with an unseen url appends
exactly one items.jsonl entry and grows the seen set by that url; and
across any sequence of calls containing a given unseen url, the items log
gains exactly one entry for that url and its count in the seen set ends
at exactly one — every call after the first is a no-op for that url. -/
theorem c6_add_item_dedup :
    (∀ (s : JSONStateStore) (u t src : PyStr), u ∈ s.seen_item_links →
      add_item s u t src = s) ∧
    (∀ (s : JSONStateStore) (u t src : PyStr), u ∉ s.seen_item_links →
      (add_item s u t src).items_log = s.items_log ++ [⟨u, t, src, s.clock⟩] ∧
      (add_item s u t src).seen_item_links.length =
        s.seen_item_links.length + 1) ∧
    (∀ (calls : List (PyStr × PyStr × PyStr)) (s : JSONStateStore) (u : PyStr),
      u ∉ s.seen_item_links → u ∈ calls.map (fun c => c.1) →
      ((calls.foldl (fun st c => add_item st c.1 c.2.1 c.2.2) s).items_log.filter
          (fun e => e.url = u)).length =
        (s.items_log.filter (fun e => e.url = u)).length + 1 ∧
      (calls.foldl (fun st c => add_item st c.1 c.2.1 c.2.2)
          s).seen_item_links.count u = s.seen_item_links.count u + 1) := by
  refine ⟨fun s u t src h => add_item_seen t src h,
    fun s u t src h => ⟨(add_item_unseen t src h).1, ?_⟩, ?_⟩
  · rw [(add_item_unseen t src h).2]; simp
  · intro calls
    induction calls with
    | nil => intro s u _ hmem; simp at hmem
    | cons c cs ih =>
      intro s u hu hmem
      simp only [List.foldl_cons]
      by_cases hc : c.1 = u
      · subst hc
        have h1 := (add_item_unseen (s := s) (u := c.1) c.2.1 c.2.2 hu).1
        have h2 := (add_item_unseen (s := s) (u := c.1) c.2.1 c.2.2 hu).2
        have hmem2 : c.1 ∈ (add_item s c.1 c.2.1 c.2.2).seen_item_links := by
          rw [h2]; simp
        obtain ⟨ha, hb⟩ := foldl_add_item_seen c.1 cs _ hmem2
        constructor
        · rw [ha, h1]; simp [List.filter_append]
        · rw [hb, h2]
          simp [List.count_append, List.count_cons]
      · have hcnem : u ∈ cs.map (fun c => c.1) := by
          simp only [List.map_cons, List.mem_cons] at hmem
          exact hmem.resolve_left (fun h => hc h.symm)
        by_cases hseen : c.1 ∈ s.seen_item_links
        · rw [add_item_seen c.2.1 c.2.2 hseen]
          exact ih s u hu hcnem
        · have h1 := (add_item_unseen (s := s) (u := c.1) c.2.1 c.2.2 hseen).1
          have h2 := (add_item_unseen (s := s) (u := c.1) c.2.1 c.2.2 hseen).2
          have hu2 : u ∉ (add_item s c.1 c.2.1 c.2.2).seen_item_links := by
            rw [h2]
            intro hmem2
            rcases List.mem_append.mp hmem2 with h | h
            · exact hu h
            · exact hc (List.mem_singleton.mp h).symm
          obtain ⟨ha, hb⟩ := ih (add_item s c.1 c.2.1 c.2.2) u hu2 hcnem
          constructor
          · rw [ha, h1]
            simp [List.filter_append, hc]
          · rw [hb, h2]
            simp [List.count_append, List.count_cons, hc]

/-- C6 witness: two calls with the same url on an empty store leave one
log entry and a seen count of one for it. -/
theorem c6_add_item_dedup_witness :
    (([(pys "https://x.test/i", pys "a", pys "https://x.test/p"),
       (pys "https://x.test/i", pys "b", pys "https://x.test/p")].foldl
        (fun st c => add_item st c.1 c.2.1 c.2.2) emptyStore).items_log.filter
      (fun e => e.url = pys "https://x.test/i")).length =
      (emptyStore.items_log.filter
        (fun e => e.url = pys "https://x.test/i")).length + 1 :=
  (c6_add_item_dedup.2.2 _ emptyStore (pys "https://x.test/i")
    (by decide) (by decide)).1

/-! ## C1: dry-run and persistence -/

/-- C1: the claim states that in dry-run mode appendListPageLog is never
invoked, including for pages whose fetch fails.  The code violates this:
in _process_list_page the error-path call
self.state.append_list_page_log(url, 'error', 0, 0) (list_crawler.py:151)
is not guarded by dry_run, while every other persistence call is.  A
dry-run crawl of one URL whose fetch fails makes exactly that call and
appends a status=error entry to list_pages.jsonl.  (The crawler's own
messaging promises the opposite: "DRY RUN MODE - No changes will be
saved" and the docstring "Print discovered links without saving".)  This
theorem evaluates the code at the failing input. -/
theorem c1_dry_run_error_log_bug :
    (crawl (fun _ => none) 5
        (initCrawler ⟨[pys "https://x.test/p"], none, ⟨0, 0⟩⟩ true false
          emptyStore)).trace =
      [.appendListPageLogCall (pys "https://x.test/p") (pys "error") 0 0] ∧
    (crawl (fun _ => none) 5
        (initCrawler ⟨[pys "https://x.test/p"], none, ⟨0, 0⟩⟩ true false
          emptyStore)).state.list_pages_log =
      [⟨pys "https://x.test/p", pys "error", 0, 0, 0⟩] := by
  constructor
  · decide
  · decide

/-! ## C2: max_items stop condition -/

/-- C2, counterexample: with max_items = 1 and a single page carrying two
extractable unseen item links, the crawl adds BOTH items (two addItem
calls, two items.jsonl entries, discovered count 2), although the claim
says no further item is added once the count reaches 1. -/
theorem c2_counterexample :
    ((crawl
        (fun u =>
          if u = pys "https://x.test/p" then
            some ⟨[(pys "https://x.test/i1", pys "a"),
                   (pys "https://x.test/i2", pys "b")], []⟩
          else none)
        5
        (initCrawler ⟨[pys "https://x.test/p"], none, ⟨0, 1⟩⟩ false false
          emptyStore)).state.items_log.length = 2) ∧
    ((crawl
        (fun u =>
          if u = pys "https://x.test/p" then
            some ⟨[(pys "https://x.test/i1", pys "a"),
                   (pys "https://x.test/i2", pys "b")], []⟩
          else none)
        5
        (initCrawler ⟨[pys "https://x.test/p"], none, ⟨0, 1⟩⟩ false false
          emptyStore)).stats_items_discovered = 2) := by
  constructor
  · decide
  · decide

theorem should_stop_max_items (c : ListCrawler)
    (h0 : c.recipe.limits.max_items ≠ 0)
    (h : c.stats_items_discovered ≥ c.recipe.limits.max_items) :
    should_stop c = true := by
  simp [should_stop, h0, h]

theorem processOneItem_setLimits (url : PyStr) (L : Limits)
    (c : ListCrawler) (item : PyStr × PyStr) :
    processOneItem url (setLimits c L) item =
      setLimits (processOneItem url c item) L := by
  unfold processOneItem setLimits
  by_cases hseen : has_seen_item c.state (canonicalize item.1) <;>
    by_cases hdry : c.dry_run <;> simp [hseen, hdry]

/-- Item processing of the current page never consults the limits: the
same page processed under any limits produces the same state except for
the recorded limits themselves. -/
theorem processItems_limits_independent (url : PyStr) (L : Limits) :
    ∀ (itemLinks : List (PyStr × PyStr)) (c : ListCrawler),
      processItems url (setLimits c L) itemLinks =
        setLimits (processItems url c itemLinks) L := by
  intro itemLinks
  induction itemLinks with
  | nil => intro c; rfl
  | cons item rest ih =>
    intro c
    simp only [processItems, List.foldl_cons] at *
    rw [processOneItem_setLimits, ih]

/-- C2, amended: the stop conditions are evaluated only after a page is
fully processed.  Every unseen item link of the current page is added
even past max_items (item processing is independent of the limits), the
discovered-item count reaching a nonzero max_items makes _should_stop
true, and once _should_stop holds after the page just processed, the main
loop halts immediately: the remaining queue is not touched. -/
theorem c2_amended :
    (∀ (url : PyStr) (L : Limits) (itemLinks : List (PyStr × PyStr))
        (c : ListCrawler),
      processItems url (setLimits c L) itemLinks =
        setLimits (processItems url c itemLinks) L) ∧
    (∀ c : ListCrawler, c.recipe.limits.max_items ≠ 0 →
      c.stats_items_discovered ≥ c.recipe.limits.max_items →
      should_stop c = true) ∧
    (∀ (env : FetchEnv) (fuel : Nat) (c : ListCrawler) (url : PyStr)
        (rest : List PyStr),
      c.queue = url :: rest →
      ∀ r : Bool × ListCrawler,
      r = process_list_page env { c with queue := rest } url →
      ∀ s : ListCrawler,
      s = (if ¬ r.1 ∧ ¬ r.2.dry_run then
             { r.2 with trace := r.2.trace ++ [.saveCall] }
           else r.2) →
      should_stop s = true → crawl_loop env (fuel + 1) c = s) := by
  refine ⟨fun url L itemLinks c => processItems_limits_independent url L itemLinks c,
    fun c h0 h => should_stop_max_items c h0 h, ?_⟩
  intro env fuel c url rest hq r hr s hs hstop
  simp only [crawl_loop, hq]
  rw [← hr, ← hs]
  simp [hstop]

/-- C2 witness: the amended theorem applied at a concrete one-page crawl
with max_list_pages = 1, where the loop halts right after the page. -/
theorem c2_amended_witness :
    should_stop
      ⟨⟨[], none, ⟨0, 1⟩⟩, false, false, [], [], emptyStore, 1, 0, 2, 0, []⟩ =
      true ∧
    crawl_loop (fun _ => some ⟨[], []⟩) 3
        (initCrawler ⟨[pys "https://x.test/p"], none, ⟨1, 0⟩⟩ false false
          emptyStore) =
      (let r := process_list_page (fun _ => some ⟨[], []⟩)
        { initCrawler ⟨[pys "https://x.test/p"], none, ⟨1, 0⟩⟩ false false
            emptyStore with
          queue := [] } (pys "https://x.test/p")
       if ¬ r.1 ∧ ¬ r.2.dry_run then
         { r.2 with trace := r.2.trace ++ [.saveCall] }
       else r.2) := by
  constructor
  · exact c2_amended.2.1 _ (by decide) (by decide)
  · exact c2_amended.2.2 (fun _ => some ⟨[], []⟩) 2 _ (pys "https://x.test/p")
      [] (by decide) _ rfl _ rfl (by decide)

/-! ## C3: no-double-enqueue invariant -/

/-- C3, counterexample: initialization does NOT guard its enqueues with
queued_urls.  __init__ appends the canonicalized start urls unchecked and
seeds queued_urls with the RAW start urls, so two start urls that share a
canonical form put the same canonical URL into the pending queue twice —
the invariant is violated before the first page is fetched. -/
theorem c3_counterexample :
    (initCrawler
        ⟨[pys "https://x.test/p", pys "https://x.test/p/"], none, ⟨0, 0⟩⟩
        false false emptyStore).queue =
      [pys "https://x.test/p", pys "https://x.test/p"] ∧
    ¬ (initCrawler
        ⟨[pys "https://x.test/p", pys "https://x.test/p/"], none, ⟨0, 0⟩⟩
        false false emptyStore).queue.Nodup := by
  constructor
  · decide
  · decide

/-- One guarded enqueue step preserves the queue invariant. -/
theorem enqueue_step_invariant (c : ListCrawler) (link : PyStr)
    (hnd : c.queue.Nodup) (hsub : ∀ u ∈ c.queue, u ∈ c.queued_urls) :
    (let canonicalLink := canonicalize link
     let c' :=
       if canonicalLink ∈ c.queued_urls then c
       else if has_seen_list_page c.state canonicalLink then c
       else
         { c with
           queue := c.queue ++ [canonicalLink]
           queued_urls := c.queued_urls ++ [canonicalLink]
           trace := c.trace ++ [.enqueueCall canonicalLink] }
     c'.queue.Nodup ∧ ∀ u ∈ c'.queue, u ∈ c'.queued_urls) := by
  by_cases hq : canonicalize link ∈ c.queued_urls
  · simpa [hq] using ⟨hnd, hsub⟩
  · by_cases hseen : has_seen_list_page c.state (canonicalize link)
    · simpa [hq, hseen] using ⟨hnd, hsub⟩
    · simp only [if_neg hq, if_neg hseen]
      constructor
      · rw [List.nodup_append]
        refine ⟨hnd, List.nodup_singleton _, ?_⟩
        intro a ha hb
        rw [List.mem_singleton] at hb
        subst hb
        exact hq (hsub _ ha)
      · intro u hu
        rcases List.mem_append.mp hu with h | h
        · exact List.mem_append_left _ (hsub _ h)
        · exact List.mem_append_right _ h

/-- C3, amended: the guard holds for pagination enqueues but not for the
start urls.  _enqueue_pagination_links preserves the invariant "the
pending queue is duplicate-free and every pending URL is recorded in
queued_urls": a canonical URL already in queued_urls (in particular one
still pending) is never enqueued again.  At initialization, however, the
canonicalized start urls are appended unguarded while queued_urls records
the raw start urls, so the invariant can fail there (see the
counterexample). -/
theorem c3_amended (c : ListCrawler) (links : List PyStr)
    (hnd : c.queue.Nodup) (hsub : ∀ u ∈ c.queue, u ∈ c.queued_urls) :
    (enqueue_pagination_links c links).queue.Nodup ∧
    ∀ u ∈ (enqueue_pagination_links c links).queue,
      u ∈ (enqueue_pagination_links c links).queued_urls := by
  induction links generalizing c with
  | nil => exact ⟨hnd, hsub⟩
  | cons link rest ih =>
    simp only [enqueue_pagination_links, List.foldl_cons] at *
    have hstep := enqueue_step_invariant c link hnd hsub
    by_cases hq : canonicalize link ∈ c.queued_urls
    · simp only [hq, if_true] at hstep ⊢
      exact ih c hstep.1 hstep.2
    · by_cases hseen : has_seen_list_page c.state (canonicalize link)
      · simp only [hq, hseen, if_false, if_true] at hstep ⊢
        exact ih c hstep.1 hstep.2
      · simp only [hq, hseen, if_false] at hstep ⊢
        exact ih _ hstep.1 hstep.2

/-- C3 witness: the amended theorem applied to a crawler whose queue
satisfies the invariant and a pagination link that is already pending. -/
theorem c3_amended_witness :
    (enqueue_pagination_links
        (initCrawler ⟨[pys "https://x.test/p"], none, ⟨0, 0⟩⟩ false false
          emptyStore)
        [pys "https://x.test/p", pys "https://x.test/p2"]).queue.Nodup :=
  (c3_amended
    (initCrawler ⟨[pys "https://x.test/p"], none, ⟨0, 0⟩⟩ false false
      emptyStore)
    [pys "https://x.test/p", pys "https://x.test/p2"]
    (by decide) (by decide)).1

/-! ## C9: extract_item_links -/

theorem dropWhile_eq_self_of_head {p : Char → Bool} {l : PyStr}
    (h : ∀ c, l.head? = some c → p c = false) : l.dropWhile p = l := by
  cases l with
  | nil => rfl
  | cons c t => simp [List.dropWhile, h c rfl]

theorem pyStrip_head {x : PyStr} {c : Char}
    (h : (pyStrip x).head? = some c) : pyWhitespaceCh c = false := by
  obtain ⟨t, ht⟩ :=
    List.dropWhile_suffix (l := (x.dropWhile pyWhitespaceCh).reverse)
      pyWhitespaceCh
  have hy : pyStrip x ++ t.reverse = x.dropWhile pyWhitespaceCh := by
    have h2 := congrArg List.reverse ht
    simpa [pyStrip] using h2
  have hhead : (x.dropWhile pyWhitespaceCh).head? = some c := by
    rw [← hy]
    cases hs : pyStrip x with
    | nil => rw [hs] at h; simp at h
    | cons a b =>
      rw [hs] at h
      simp only [List.head?_cons, Option.some.injEq] at h
      simp [h]
  exact head?_dropWhile_false hhead

theorem pyStrip_getLast {x : PyStr} {c : Char}
    (h : (pyStrip x).getLast? = some c) : pyWhitespaceCh c = false := by
  rw [pyStrip, List.getLast?_reverse] at h
  exact head?_dropWhile_false h

/-- The glued text of the stripped nonempty fragments starts with a
non-whitespace character (or is empty). -/
theorem flatten_head_not_ws (parts : List PyStr)
    (hne : ∀ p ∈ parts, p ≠ [])
    (hhead : ∀ p ∈ parts, ∀ c, p.head? = some c → pyWhitespaceCh c = false) :
    parts.flatten.dropWhile pyWhitespaceCh = parts.flatten := by
  cases parts with
  | nil => rfl
  | cons p rest =>
    cases hp : p with
    | nil => exact absurd hp (hne p (List.mem_cons_self p rest))
    | cons c t =>
      have hc : pyWhitespaceCh c = false :=
        hhead p (List.mem_cons_self p rest) c (by rw [hp]; rfl)
      simp [List.flatten_cons, hp, List.dropWhile, hc]

theorem flatten_getLast_not_ws (parts : List PyStr)
    (hlast : ∀ p ∈ parts, ∀ c, p.getLast? = some c → pyWhitespaceCh c = false) :
    ∀ c, parts.flatten.getLast? = some c → pyWhitespaceCh c = false := by
  induction parts with
  | nil => intro c h; simp at h
  | cons p rest ih =>
    intro c h
    rw [List.flatten_cons, List.getLast?_append] at h
    cases hr : rest.flatten.getLast? with
    | some d =>
      rw [hr] at h
      simp only [Option.or] at h
      exact ih (fun q hq => hlast q (List.mem_cons_of_mem _ hq)) c
        (by rw [hr]; exact h)
    | none =>
      rw [hr] at h
      simp only [Option.or] at h
      exact hlast p (List.mem_cons_self p rest) c h

/-- get_text(strip=True) output carries no leading or trailing whitespace:
stripping it again changes nothing. -/
theorem getTextStrip_trimmed (a : Anchor) :
    pyStrip (getTextStrip a) = getTextStrip a := by
  set parts := (a.textFragments.map pyStrip).filter (fun s => s ≠ []) with hparts
  have hne : ∀ p ∈ parts, p ≠ [] := by
    intro p hp
    have := List.of_mem_filter hp
    simpa using this
  have hmemstrip : ∀ p ∈ parts, ∃ x, p = pyStrip x := by
    intro p hp
    have := List.mem_of_mem_filter hp
    rcases List.mem_map.mp this with ⟨x, _, hx⟩
    exact ⟨x, hx.symm⟩
  have hhead : ∀ p ∈ parts, ∀ c, p.head? = some c → pyWhitespaceCh c = false := by
    intro p hp c hc
    rcases hmemstrip p hp with ⟨x, rfl⟩
    exact pyStrip_head hc
  have hlast : ∀ p ∈ parts, ∀ c, p.getLast? = some c → pyWhitespaceCh c = false := by
    intro p hp c hc
    rcases hmemstrip p hp with ⟨x, rfl⟩
    exact pyStrip_getLast hc
  have h1 : parts.flatten.dropWhile pyWhitespaceCh = parts.flatten :=
    flatten_head_not_ws parts hne hhead
  have h2 : parts.flatten.reverse.dropWhile pyWhitespaceCh =
      parts.flatten.reverse := by
    apply dropWhile_eq_self_of_head
    intro c hc
    rw [List.head?_reverse] at hc
    exact flatten_getLast_not_ws parts hlast c hc
  rw [getTextStrip, ← hparts, pyStrip, h1, h2, List.reverse_reverse]

/-- The inner loop keeps, in document order and without deduplication, one
record per non-skipped anchor, with the stripped href resolved against the
base URL and the stripped text. -/
theorem extractLinksInScope_proj (baseUrl scopeCss itemLinkCss : PyStr)
    (scopeIdx : Nat) :
    ∀ (links : List Anchor) (linkIdx : Nat),
      (extractLinksInScope baseUrl scopeCss itemLinkCss scopeIdx linkIdx
          links).map (fun r => (r.url, r.text)) =
        (links.filter (fun a => ¬ skipHref (pyStrip a.href))).map
          (fun a => (normalize_url baseUrl (pyStrip a.href), getTextStrip a)) := by
  intro links
  induction links with
  | nil => intro linkIdx; rfl
  | cons link rest ih =>
    intro linkIdx
    rw [extractLinksInScope]
    by_cases hskip : skipHref (pyStrip link.href)
    · simp [hskip, ih]
    · simp [hskip, ih]

/-- C9: over every abstracted document (list of scopes, each carrying its
matched anchors), base URL and selectors, extract_item_links produces —
in document order of scopes then of links, with no deduplication — one
(url, text) record per anchor whose stripped href is nonempty and does
not begin with '#', 'javascript:' or 'mailto:', the url being the href
resolved against the base URL and the text the trimmed visible text
(stripping it again is a no-op); and on the claim's concrete scope with
hrefs javascript:void(0), mailto:a@b.com, #frag and /valid, exactly one
item results, resolving to https://x.test/valid. -/
theorem c9_extract_item_links :
    (∀ (scopes : List Scope) (baseUrl scopeCss itemLinkCss : PyStr),
      (extract_item_links scopes baseUrl scopeCss itemLinkCss).map
          (fun r => (r.url, r.text)) =
        scopes.flatMap (fun scope =>
          (scope.links.filter (fun a => ¬ skipHref (pyStrip a.href))).map
            (fun a => (normalize_url baseUrl (pyStrip a.href),
              getTextStrip a)))) ∧
    (∀ a : Anchor, pyStrip (getTextStrip a) = getTextStrip a) ∧
    extract_item_links
        [⟨[⟨pys "javascript:void(0)", [pys "x1"]⟩,
           ⟨pys "mailto:a@b.com", [pys "x2"]⟩,
           ⟨pys "#frag", [pys "x3"]⟩,
           ⟨pys "/valid", [pys " t "]⟩]⟩]
        (pys "https://x.test/list") (pys "div.q") (pys "a[href]") =
      [⟨pys "https://x.test/valid", pys "t", pys "div.q[0] a[href][3]"⟩] := by
  refine ⟨?_, getTextStrip_trimmed, by decide⟩
  intro scopes baseUrl scopeCss itemLinkCss
  rw [extract_item_links]
  generalize 0 = scopeIdx
  induction scopes generalizing scopeIdx with
  | nil => rfl
  | cons scope rest ih =>
    rw [extractScopes, List.flatMap_cons, List.map_append,
      extractLinksInScope_proj, ih]

/-! ## C10: url_template pagination -/

theorem dictSet_keys_any (d : List (PyStr × List PyStr)) (k : PyStr)
    (v : List PyStr) : (dictSet d k v).any (fun e => e.1 = k) = true := by
  rw [dictSet]
  by_cases h : d.any (fun e => e.1 = k)
  · rw [if_pos h]
    rw [List.any_eq_true] at h ⊢
    rcases h with ⟨e, he, hk⟩
    refine ⟨if e.1 = k then (k, v) else e, List.mem_map_of_mem _ he, ?_⟩
    simp at hk
    simp [hk]
  · rw [if_neg h]
    simp

/-- Overwriting the same key twice keeps only the last value. -/
theorem dictSet_dictSet (d : List (PyStr × List PyStr)) (k : PyStr)
    (v w : List PyStr) : dictSet (dictSet d k v) k w = dictSet d k w := by
  by_cases h : d.any (fun e => e.1 = k)
  · rw [dictSet, if_pos (dictSet_keys_any d k v)]
    rw [dictSet, if_pos h, dictSet, if_pos h, List.map_map]
    apply List.map_congr_left
    intro e _
    by_cases he : e.1 = k <;> simp [he]
  · rw [dictSet, if_pos (dictSet_keys_any d k v)]
    rw [dictSet, if_neg h, dictSet, if_neg h, List.map_append]
    have hmap : d.map (fun e => if e.1 = k then (k, w) else e) = d := by
      conv_rhs => rw [← List.map_id d]
      apply List.map_congr_left
      intro e he
      rw [List.any_eq_true] at h
      push_neg at h
      have := h e he
      simp at this
      simp [this]
    simp [hmap]

theorem tmpl_foldl (mkUrl : List (PyStr × List PyStr) → PyStr) (P : PyStr)
    (v : Int → List PyStr) :
    ∀ (ns : List Int) (us : List PyStr) (d : List (PyStr × List PyStr)),
      ((ns.foldl
          (fun st n =>
            (st.1 ++ [mkUrl (dictSet st.2 P (v n))], dictSet st.2 P (v n)))
          (us, d)).1) =
        us ++ ns.map (fun n => mkUrl (dictSet d P (v n))) := by
  intro ns
  induction ns with
  | nil => intro us d; simp
  | cons n rest ih =>
    intro us d
    rw [List.foldl_cons, ih, List.map_cons]
    have hsets : ∀ m, dictSet (dictSet d P (v n)) P (v m) = dictSet d P (v m) :=
      fun m => dictSet_dictSet d P (v n) (v m)
    simp [hsets]

/-- C10: with pagination type url_template, page_param P, page_start a and
page_end b, the extractor ignores the HTML and returns, in ascending
order, one URL per integer page number n in range(a, b+1) — each obtained
from the base URL by re-encoding its parsed query with the parameter P
rewritten (in place, or appended when absent) to str(n) and every other
parameter left untouched; the result has b - a + 1 URLs when a ≤ b and is
empty when a > b; and the claim's concrete configuration yields the three
expected URLs in order. -/
theorem c10_url_template_pagination :
    (∀ (baseUrl P : PyStr) (a b : Int),
      extract_url_template_pagination baseUrl
          ⟨pys "url_template", none, none, some P, some a, some b⟩ =
        (pyRange a (b + 1)).map (fun n =>
          pyUrlunparse
            ⟨(pyUrlparse baseUrl).scheme, (pyUrlparse baseUrl).netloc,
              (pyUrlparse baseUrl).path, (pyUrlparse baseUrl).params,
              pyUrlencode
                (dictSet (parseQs (pyUrlparse baseUrl).query) P [intToPyStr n]),
              []⟩)) ∧
    (∀ (α : Type) (html : α) (baseUrl : PyStr) (config : PaginationConfig),
      extract_pagination_links_url_template html baseUrl config =
        extract_url_template_pagination baseUrl config) ∧
    (∀ (baseUrl P : PyStr) (a b : Int), a ≤ b →
      (extract_url_template_pagination baseUrl
          ⟨pys "url_template", none, none, some P, some a, some b⟩).length =
        (b - a + 1).toNat) ∧
    (∀ (baseUrl P : PyStr) (a b : Int), a > b →
      extract_url_template_pagination baseUrl
          ⟨pys "url_template", none, none, some P, some a, some b⟩ = []) ∧
    extract_url_template_pagination (pys "https://x.test/p")
        ⟨pys "url_template", none, none, some (pys "page"), some 1, some 3⟩ =
      [pys "https://x.test/p?page=1", pys "https://x.test/p?page=2",
       pys "https://x.test/p?page=3"] := by
  have hmain : ∀ (baseUrl P : PyStr) (a b : Int),
      extract_url_template_pagination baseUrl
          ⟨pys "url_template", none, none, some P, some a, some b⟩ =
        (pyRange a (b + 1)).map (fun n =>
          pyUrlunparse
            ⟨(pyUrlparse baseUrl).scheme, (pyUrlparse baseUrl).netloc,
              (pyUrlparse baseUrl).path, (pyUrlparse baseUrl).params,
              pyUrlencode
                (dictSet (parseQs (pyUrlparse baseUrl).query) P [intToPyStr n]),
              []⟩) := by
    intro baseUrl P a b
    rw [extract_url_template_pagination]
    exact tmpl_foldl
      (fun d =>
        pyUrlunparse
          ⟨(pyUrlparse baseUrl).scheme, (pyUrlparse baseUrl).netloc,
            (pyUrlparse baseUrl).path, (pyUrlparse baseUrl).params,
            pyUrlencode d, []⟩)
      P (fun n => [intToPyStr n]) (pyRange a (b + 1)) []
      (parseQs (pyUrlparse baseUrl).query)
  refine ⟨hmain, fun α html baseUrl config => rfl, ?_, ?_, by decide⟩
  · intro baseUrl P a b hab
    rw [hmain, List.length_map, pyRange, List.length_map, List.length_range]
    omega
  · intro baseUrl P a b hab
    rw [hmain]
    have : (b + 1 - a).toNat = 0 := by omega
    simp [pyRange, this]

/-- C10 witness: the count and emptiness parts applied concretely. -/
theorem c10_url_template_pagination_witness :
    (extract_url_template_pagination (pys "https://x.test/p")
        ⟨pys "url_template", none, none, some (pys "page"), some 1, some 3⟩).length =
      ((3 : Int) - 1 + 1).toNat ∧
    extract_url_template_pagination (pys "https://x.test/p")
        ⟨pys "url_template", none, none, some (pys "page"), some 5, some 4⟩ = [] :=
  ⟨c10_url_template_pagination.2.2.1 (pys "https://x.test/p") (pys "page") 1 3
      (by decide),
   c10_url_template_pagination.2.2.2.1 (pys "https://x.test/p") (pys "page") 5 4
      (by decide)⟩

/-! ## C5: fetch failure handling -/

/-- C5: when fetch fails for a dequeued URL that is not skipped, the page
is logged with status=error (one entry appended for that url with the
current clock), neither seen set changes (in particular the URL is not
marked seen and nothing is re-enqueued — the queue is exactly the rest),
the items log is untouched, and the main loop does not abort: with the
stop conditions not triggered it proceeds to the next queued URL, only
recording the on-error save. -/
theorem c5_fetch_failure (env : FetchEnv) (c : ListCrawler) (url : PyStr)
    (rest : List PyStr) (fuel : Nat)
    (hq : c.queue = url :: rest)
    (henv : env url = none)
    (hseen : has_seen_list_page c.state url = false)
    (hdry : c.dry_run = false)
    (hstop : should_stop c = false) :
    (process_list_page env { c with queue := rest } url).1 = false ∧
    (process_list_page env { c with queue := rest } url).2.state.list_pages_log =
      c.state.list_pages_log ++ [⟨url, pys "error", 0, 0, c.state.clock⟩] ∧
    (process_list_page env { c with queue := rest } url).2.state.seen_list_pages =
      c.state.seen_list_pages ∧
    (process_list_page env { c with queue := rest } url).2.state.seen_item_links =
      c.state.seen_item_links ∧
    (process_list_page env { c with queue := rest } url).2.state.items_log =
      c.state.items_log ∧
    (process_list_page env { c with queue := rest } url).2.queue = rest ∧
    crawl_loop env (fuel + 1) c =
      crawl_loop env fuel
        (let c3 := { (process_list_page env { c with queue := rest } url).2 with
          trace := (process_list_page env { c with queue := rest } url).2.trace ++
            [.saveCall] }
         if c3.stats_list_pages_visited % 5 = 0 then
           { c3 with trace := c3.trace ++ [.saveCall] }
         else c3) := by
  have hproc : process_list_page env { c with queue := rest } url =
      (false,
        { c with
          queue := rest
          state := append_list_page_log c.state url (pys "error") 0 0
          trace := c.trace ++ [.appendListPageLogCall url (pys "error") 0 0] }) := by
    rw [process_list_page]
    simp [hseen, henv]
  rw [hproc]
  refine ⟨rfl, by simp [append_list_page_log], by simp [append_list_page_log],
    by simp [append_list_page_log], by simp [append_list_page_log], rfl, ?_⟩
  conv_lhs => rw [crawl_loop]
  simp only [hq]
  rw [hproc]
  simp only [should_stop, hdry] at hstop ⊢
  simp [hstop]

/-- C5 witness: a concrete failing fetch. -/
theorem c5_fetch_failure_witness :
    (process_list_page (fun _ => none)
        { initCrawler ⟨[pys "https://x.test/p"], none, ⟨0, 0⟩⟩ false false
            emptyStore with
          queue := [] } (pys "https://x.test/p")).2.state.list_pages_log =
      emptyStore.list_pages_log ++
        [⟨pys "https://x.test/p", pys "error", 0, 0, 0⟩] :=
  (c5_fetch_failure (fun _ => none)
    (initCrawler ⟨[pys "https://x.test/p"], none, ⟨0, 0⟩⟩ false false
      emptyStore)
    (pys "https://x.test/p") [] 0 (by decide) rfl (by decide) rfl
    (by decide)).2.1

/-! ## C7: idempotence of canonicalize -/

theorem pyUrlsplit_eval (v s A nl rest2 pa q : PyStr)
    (h0 : cleanUrl v = v)
    (hfs : (findScheme v = some (s, A)) ∨ (s = [] ∧ A = v ∧ findScheme v = none))
    (hnet : (['/', '/'].isPrefixOf A = true ∧ splitNetloc (A.drop 2) = (nl, rest2)) ∨
            (['/', '/'].isPrefixOf A = false ∧ nl = [] ∧ rest2 = A))
    (hfrag : '#' ∉ rest2)
    (hquery : (splitFirst '?' rest2 = some (pa, q)) ∨
              (splitFirst '?' rest2 = none ∧ pa = rest2 ∧ q = [])) :
    pyUrlsplit v [] = ⟨s, nl, pa, q, []⟩ := by
  have hfr := splitFirst_eq_none '#' rest2 hfrag
  have hcs : cleanScheme ([] : PyStr) = [] := rfl
  rcases hfs with hfs | ⟨hs0, hA, hfs⟩
  · rcases hnet with ⟨hp, hsn⟩ | ⟨hp, hnl, hr2⟩
    · rcases hquery with hq | ⟨hq, hpa, hq0⟩
      · simp only [pyUrlsplit, h0, hfs, hp, hsn, hfr, hq, if_true, if_false, Bool.false_eq_true]
      · subst hpa; subst hq0
        simp only [pyUrlsplit, h0, hfs, hp, hsn, hfr, hq, if_true, if_false, Bool.false_eq_true]
    · subst hnl; subst hr2
      rcases hquery with hq | ⟨hq, hpa, hq0⟩
      · simp only [pyUrlsplit, h0, hfs, hp, hfr, hq, if_true, if_false, Bool.false_eq_true]
      · subst hpa; subst hq0
        simp only [pyUrlsplit, h0, hfs, hp, hfr, hq, if_true, if_false, Bool.false_eq_true]
  · subst hs0; subst hA
    rcases hnet with ⟨hp, hsn⟩ | ⟨hp, hnl, hr2⟩
    · rcases hquery with hq | ⟨hq, hpa, hq0⟩
      · simp only [pyUrlsplit, h0, hfs, hp, hsn, hfr, hq, hcs, if_true, if_false, Bool.false_eq_true]
      · subst hpa; subst hq0
        simp only [pyUrlsplit, h0, hfs, hp, hsn, hfr, hq, hcs, if_true, if_false, Bool.false_eq_true]
    · subst hnl; subst hr2
      rcases hquery with hq | ⟨hq, hpa, hq0⟩
      · simp only [pyUrlsplit, h0, hfs, hp, hfr, hq, hcs, if_true, if_false, Bool.false_eq_true]
      · subst hpa; subst hq0
        simp only [pyUrlsplit, h0, hfs, hp, hfr, hq, hcs, if_true, if_false, Bool.false_eq_true]

theorem pyUrlparse_eval (v sc nl pa q pa2 pr2 : PyStr)
    (hsplit : pyUrlsplit v [] = ⟨sc, nl, pa, q, []⟩)
    (hparams : (sc ∈ usesParams ∧ ';' ∈ pa ∧ splitParams pa = (pa2, pr2)) ∨
               (¬(sc ∈ usesParams ∧ ';' ∈ pa) ∧ pa2 = pa ∧ pr2 = [])) :
    pyUrlparse v [] = ⟨sc, nl, pa2, pr2, q, []⟩ := by
  rcases hparams with ⟨h1, h2, h3⟩ | ⟨h1, h2, h3⟩
  · simp only [pyUrlparse, hsplit, if_pos (And.intro h1 h2), h3]
  · subst h2; subst h3
    simp only [pyUrlparse, hsplit, if_neg h1]

theorem canonicalize_eval (v sc nl pa2 pr2 q pw qw fg : PyStr)
    (hparse : pyUrlparse v [] = ⟨sc, nl, pa2, pr2, q, fg⟩)
    (hpw : (pa2 = pys "/" ∧ pw = pa2) ∨ (pa2 ≠ pys "/" ∧ pw = rstripSlashes pa2))
    (hqw : (q ≠ [] ∧ qw = stripTrackingQuery q) ∨ (q = [] ∧ qw = q)) :
    canonicalize v = pyUrlunparse ⟨sc, nl, pw, pr2, qw, []⟩ := by
  rcases hpw with ⟨h1, h2⟩ | ⟨h1, h2⟩
  · rcases hqw with ⟨h3, h4⟩ | ⟨h3, h4⟩
    · subst h2; subst h4
      simp only [canonicalize, hparse, if_pos h1]
      rw [if_pos (And.intro trivial h3)]
    · subst h2; subst h4
      simp only [canonicalize, hparse, if_pos h1]
      rw [if_neg (fun hc => hc.2 h3)]
  · rcases hqw with ⟨h3, h4⟩ | ⟨h3, h4⟩
    · subst h2; subst h4
      simp only [canonicalize, hparse, if_neg h1]
      rw [if_pos (And.intro trivial h3)]
    · subst h2; subst h4
      simp only [canonicalize, hparse, if_neg h1]
      rw [if_neg (fun hc => hc.2 h3)]

theorem alpha_not_c0 {c : Char} (h : isAsciiAlphaCh c = true) :
    c0ControlOrSpace c = false := by
  rw [isAsciiAlphaCh, Bool.or_eq_true, isAsciiUpperCh, isAsciiLowerCh] at h
  rw [c0ControlOrSpace]
  rcases h with h | h <;> simp at h ⊢ <;> omega

theorem urlsplit_rt_net (s n U q2 qp : PyStr)
    (hsv : s = [] ∨ (∃ c cs, s = c :: cs ∧ isAsciiAlphaCh c = true ∧
      (c :: cs).all schemeChar = true ∧ pyLower (c :: cs) = c :: cs))
    (hn : ∀ c ∈ n, netDelim c = false ∧ tabCrLf c = false)
    (hU : ∀ c ∈ U, c ≠ '?' ∧ c ≠ '#' ∧ tabCrLf c = false)
    (hUh : U = [] ∨ U.head? = some '/')
    (hq2c : ∀ c ∈ q2, c ≠ '#' ∧ tabCrLf c = false)
    (hqp : (q2 ≠ [] ∧ qp = '?' :: q2) ∨ (q2 = [] ∧ qp = [])) :
    pyUrlsplit ((if s ≠ [] then s ++ ':' :: ('/' :: '/' :: (n ++ U))
        else '/' :: '/' :: (n ++ U)) ++ qp) [] = ⟨s, n, U, q2, []⟩ := by
  -- the netloc-stage input
  have hrest : (U ++ qp = [] ∨
      ∃ c, (U ++ qp).head? = some c ∧ netDelim c = true) := by
    cases hU0 : U with
    | nil =>
      rcases hqp with ⟨hq0, rfl⟩ | ⟨hq0, rfl⟩
      · exact Or.inr ⟨'?', rfl, by decide⟩
      · exact Or.inl rfl
    | cons u ut =>
      have hh : U.head? = some '/' := by
        rcases hUh with h | h
        · rw [h] at hU0; cases hU0
        · exact h
      rw [hU0] at hh
      have hu : u = '/' := by simpa using hh
      subst hu
      exact Or.inr ⟨'/', rfl, by decide⟩
  have hnet0 : splitNetloc ((n ++ U) ++ qp) = (n, U ++ qp) := by
    rw [List.append_assoc]
    exact splitNetloc_append n (U ++ qp) (fun c hc => (hn c hc).1) hrest
  have hfrag : '#' ∉ U ++ qp := by
    intro hm
    rcases List.mem_append.1 hm with hm | hm
    · exact (hU _ hm).2.1 rfl
    · rcases hqp with ⟨hq0, rfl⟩ | ⟨hq0, rfl⟩
      · rcases List.mem_cons.1 hm with heq | hm
        · exact absurd heq (by decide)
        · exact (hq2c _ hm).1 rfl
      · cases hm
  have hquery : (splitFirst '?' (U ++ qp) = some (U, q2)) ∨
      (splitFirst '?' (U ++ qp) = none ∧ U = U ++ qp ∧ q2 = []) := by
    rcases hqp with ⟨hq0, rfl⟩ | ⟨hq0, rfl⟩
    · exact Or.inl (splitFirst_append '?' U q2 (fun hm => (hU _ hm).1 rfl))
    · refine Or.inr ⟨?_, by rw [List.append_nil], hq0⟩
      rw [List.append_nil]
      exact splitFirst_eq_none '?' U (fun hm => (hU _ hm).1 rfl)
  have htabsep : ∀ c ∈ ('/' :: '/' :: (n ++ U)) ++ qp, tabCrLf c = false := by
    intro c hc
    rcases List.mem_append.1 hc with hc | hc
    · rcases List.mem_cons.1 hc with rfl | hc
      · decide
      rcases List.mem_cons.1 hc with rfl | hc
      · decide
      rcases List.mem_append.1 hc with hc | hc
      · exact (hn c hc).2
      · exact (hU c hc).2.2
    · rcases hqp with ⟨hq0, hqe⟩ | ⟨hq0, hqe⟩ <;> rw [hqe] at hc
      · rcases List.mem_cons.1 hc with rfl | hc
        · decide
        · exact (hq2c c hc).2
      · cases hc
  rcases hsv with rfl | ⟨c, cs, rfl, hca, hcall, hclow⟩
  · rw [if_neg (by simp)]
    apply pyUrlsplit_eval _ [] ('/' :: '/' :: ((n ++ U) ++ qp)) n (U ++ qp) U q2
    · apply cleanUrl_id
      · intro c hc
        have hc' : c ∈ ('/' :: '/' :: (n ++ U)) ++ qp := by
          simpa using hc
        exact htabsep c hc'
      · intro c hc
        have h2 : '/' = c := by simpa using hc
        subst h2
        decide
    · refine Or.inr ⟨rfl, ?_, ?_⟩
      · show ('/' :: '/' :: (n ++ U)) ++ qp = _
        simp [List.append_assoc]
      · apply findScheme_none_head
        intro c hc
        have h' : (('/' : Char) :: ('/' :: ((n ++ U) ++ qp))).head? = some c := hc
        have h2 : '/' = c := by simpa using h'
        subst h2
        decide
    · refine Or.inl ⟨isPrefixOf_slash2 _, ?_⟩
      show splitNetloc ((n ++ U) ++ qp) = _
      exact hnet0
    · exact hfrag
    · exact hquery
  · rw [if_pos (by simp)]
    apply pyUrlsplit_eval _ (c :: cs) (('/' :: '/' :: (n ++ U)) ++ qp) n (U ++ qp) U q2
    · apply cleanUrl_id
      · intro x hx
        rcases List.mem_append.1 hx with hx | hx
        · rcases List.mem_append.1 hx with hx | hx
          · rw [List.all_eq_true] at hcall
            exact (schemeChar_facts (hcall x hx)).2.2.2.2.2.2.2
          · rcases List.mem_cons.1 hx with rfl | hx
            · decide
            · exact htabsep x (List.mem_append.2 (Or.inl hx))
        · exact htabsep x (List.mem_append.2 (Or.inr hx))
      · intro x hx
        have h2 : c = x := by simpa using hx
        subst h2
        exact alpha_not_c0 hca
    · refine Or.inl ?_
      have hshape : ((c :: cs) ++ ':' :: ('/' :: '/' :: (n ++ U))) ++ qp =
          (c :: cs) ++ ':' :: (('/' :: '/' :: (n ++ U)) ++ qp) := by
        simp [List.append_assoc]
      rw [hshape, findScheme_build c cs _ hca hcall, hclow]
    · refine Or.inl ⟨isPrefixOf_slash2 _, ?_⟩
      show splitNetloc ((n ++ U) ++ qp) = _
      exact hnet0
    · exact hfrag
    · exact hquery

theorem urlsplit_rt_rel (s U q2 qp : PyStr)
    (hsv : s = [] ∨ (∃ c cs, s = c :: cs ∧ isAsciiAlphaCh c = true ∧
      (c :: cs).all schemeChar = true ∧ pyLower (c :: cs) = c :: cs))
    (hU : ∀ c ∈ U, c ≠ '?' ∧ c ≠ '#' ∧ tabCrLf c = false)
    (hUpre : ['/', '/'].isPrefixOf (U ++ qp) = false)
    (hheadc0 : s = [] → ∀ c, (U ++ qp).head? = some c →
      c0ControlOrSpace c = false)
    (hnoscheme : s = [] → findScheme (U ++ qp) = none)
    (hq2c : ∀ c ∈ q2, c ≠ '#' ∧ tabCrLf c = false)
    (hqp : (q2 ≠ [] ∧ qp = '?' :: q2) ∨ (q2 = [] ∧ qp = [])) :
    pyUrlsplit ((if s ≠ [] then s ++ ':' :: U else U) ++ qp) [] =
      ⟨s, [], U, q2, []⟩ := by
  have hfrag : '#' ∉ U ++ qp := by
    intro hm
    rcases List.mem_append.1 hm with hm | hm
    · exact (hU _ hm).2.1 rfl
    · rcases hqp with ⟨hq0, rfl⟩ | ⟨hq0, rfl⟩
      · rcases List.mem_cons.1 hm with heq | hm
        · exact absurd heq (by decide)
        · exact (hq2c _ hm).1 rfl
      · cases hm
  have hquery : (splitFirst '?' (U ++ qp) = some (U, q2)) ∨
      (splitFirst '?' (U ++ qp) = none ∧ U = U ++ qp ∧ q2 = []) := by
    rcases hqp with ⟨hq0, rfl⟩ | ⟨hq0, rfl⟩
    · exact Or.inl (splitFirst_append '?' U q2 (fun hm => (hU _ hm).1 rfl))
    · refine Or.inr ⟨?_, by rw [List.append_nil], hq0⟩
      rw [List.append_nil]
      exact splitFirst_eq_none '?' U (fun hm => (hU _ hm).1 rfl)
  have htabU : ∀ c ∈ U ++ qp, tabCrLf c = false := by
    intro c hc
    rcases List.mem_append.1 hc with hc | hc
    · exact (hU c hc).2.2
    · rcases hqp with ⟨hq0, hqe⟩ | ⟨hq0, hqe⟩ <;> rw [hqe] at hc
      · rcases List.mem_cons.1 hc with rfl | hc
        · decide
        · exact (hq2c c hc).2
      · cases hc
  rcases hsv with rfl | ⟨c, cs, rfl, hca, hcall, hclow⟩
  · rw [if_neg (by simp)]
    apply pyUrlsplit_eval _ [] (U ++ qp) [] (U ++ qp) U q2
    · exact cleanUrl_id _ htabU (hheadc0 rfl)
    · exact Or.inr ⟨rfl, rfl, hnoscheme rfl⟩
    · exact Or.inr ⟨hUpre, rfl, rfl⟩
    · exact hfrag
    · exact hquery
  · rw [if_pos (by simp)]
    apply pyUrlsplit_eval _ (c :: cs) (U ++ qp) [] (U ++ qp) U q2
    · apply cleanUrl_id
      · intro x hx
        rcases List.mem_append.1 hx with hx | hx
        · rcases List.mem_append.1 hx with hx | hx
          · rw [List.all_eq_true] at hcall
            exact (schemeChar_facts (hcall x hx)).2.2.2.2.2.2.2
          · rcases List.mem_cons.1 hx with rfl | hx
            · decide
            · exact htabU x (List.mem_append.2 (Or.inl hx))
        · exact htabU x (List.mem_append.2 (Or.inr hx))
      · intro x hx
        have h2 : c = x := by simpa using hx
        subst h2
        exact alpha_not_c0 hca
    · refine Or.inl ?_
      have hshape : ((c :: cs) ++ ':' :: U) ++ qp =
          (c :: cs) ++ ':' :: (U ++ qp) := by
        simp [List.append_assoc]
      rw [hshape, findScheme_build c cs _ hca hcall, hclow]
    · exact Or.inr ⟨hUpre, rfl, rfl⟩
    · exact hfrag
    · exact hquery

theorem pyUrlunparse_eval (s n pa pr q2 u1 u2 : PyStr)
    (hu1 : (pr ≠ [] ∧ u1 = pa ++ ';' :: pr) ∨ (pr = [] ∧ u1 = pa))
    (hu2 : ((n ≠ [] ∨ (s ≠ [] ∧ s ∈ usesNetloc ∧
              ¬ ['/', '/'].isPrefixOf u1 = true)) ∧
             ((u1 ≠ [] ∧ u1.head? ≠ some '/' ∧
                 u2 = '/' :: '/' :: (n ++ ('/' :: u1))) ∨
              (¬(u1 ≠ [] ∧ u1.head? ≠ some '/') ∧
                 u2 = '/' :: '/' :: (n ++ u1)))) ∨
           (¬(n ≠ [] ∨ (s ≠ [] ∧ s ∈ usesNetloc ∧
              ¬ ['/', '/'].isPrefixOf u1 = true)) ∧ u2 = u1)) :
    pyUrlunparse ⟨s, n, pa, pr, q2, []⟩ =
      (if s ≠ [] then s ++ ':' :: u2 else u2) ++
        (if q2 ≠ [] then '?' :: q2 else []) := by
  have hstep1 : pyUrlunparse ⟨s, n, pa, pr, q2, []⟩ =
      pyUrlunsplit ⟨s, n, u1, q2, []⟩ := by
    rcases hu1 with ⟨h1, h2⟩ | ⟨h1, h2⟩
    · subst h2
      simp only [pyUrlunparse]
      rw [if_pos h1]
    · subst h1; subst h2
      simp only [pyUrlunparse]
      rw [if_neg (by simp)]
  rw [hstep1]
  have hstep2 : pyUrlunsplit ⟨s, n, u1, q2, []⟩ =
      (let url := if q2 ≠ [] then
          (if s ≠ [] then s ++ ':' :: u2 else u2) ++ '?' :: q2
        else (if s ≠ [] then s ++ ':' :: u2 else u2)
       url) := by
    rcases hu2 with ⟨hb, hmp⟩ | ⟨hb, hmp⟩
    · rcases hmp with ⟨hm1, hm2, hm3⟩ | ⟨hm, hm3⟩
      · subst hm3
        simp only [pyUrlunsplit]
        rw [if_pos hb, if_pos (And.intro hm1 hm2)]
        rw [if_neg (by simp : ¬ (([] : PyStr) ≠ []))]
      · subst hm3
        simp only [pyUrlunsplit]
        rw [if_pos hb, if_neg hm]
        rw [if_neg (by simp : ¬ (([] : PyStr) ≠ []))]
    · subst hmp
      simp only [pyUrlunsplit]
      rw [if_neg hb]
      rw [if_neg (by simp : ¬ (([] : PyStr) ≠ []))]
  rw [hstep2]
  by_cases hq0 : q2 = []
  · subst hq0
    simp
  · rw [if_pos hq0, if_pos hq0]

theorem append_scheme_split (raw : PyStr) : ∀ (pa tail rest : PyStr),
    pa ++ tail = raw ++ ':' :: rest →
    raw.all schemeChar = true →
    (tail = [] ∨ ∃ c r, tail = c :: r ∧ schemeChar c = false ∧ c ≠ ':') →
    ∃ y, pa = raw ++ ':' :: y := by
  induction raw with
  | nil =>
    intro pa tail rest hv _ htail
    cases pa with
    | nil =>
      rcases htail with rfl | ⟨c, r, rfl, hsc, hcne⟩
      · cases hv
      · injection hv with h1 _
        exact absurd h1 hcne
    | cons p ps =>
      injection hv with h1 _
      exact ⟨ps, by rw [h1]; rfl⟩
  | cons rc raws ih =>
    intro pa tail rest hv hall htail
    cases pa with
    | nil =>
      rcases htail with rfl | ⟨c, r, rfl, hsc, hcne⟩
      · cases hv
      · injection hv with h1 _
        rw [List.all_eq_true] at hall
        have hrc := hall rc (List.mem_cons_self ..)
        rw [h1, hrc] at hsc
        cases hsc
    | cons p ps =>
      injection hv with h1 h2
      obtain ⟨y, hy⟩ := ih ps tail rest h2 (by
        rw [List.all_eq_true] at hall ⊢
        intro x hx
        exact hall x (List.mem_cons_of_mem rc hx)) htail
      exact ⟨y, by rw [h1, hy]; rfl⟩

theorem isPrefixOf2_append (x t : PyStr)
    (h : ['/', '/'].isPrefixOf x = false)
    (ht : t = [] ∨ ∃ c r, t = c :: r ∧ c ≠ '/') :
    ['/', '/'].isPrefixOf (x ++ t) = false := by
  cases x with
  | nil =>
    simp only [List.nil_append]
    rcases ht with rfl | ⟨c, r, rfl, hc⟩
    · rfl
    · exact isPrefixOf_ne_head hc r
  | cons a x1 =>
    cases x1 with
    | nil =>
      by_cases ha : a = '/'
      · subst ha
        rcases ht with rfl | ⟨c, r, rfl, hc⟩
        · exact isPrefixOf_one
        · exact isPrefixOf_ne_second hc r
      · exact isPrefixOf_ne_head ha _
    | cons b x2 =>
      have e : ∀ z : PyStr, ['/', '/'].isPrefixOf (a :: b :: z) =
          (('/' == a) && ('/' == b)) := by
        intro z
        show (('/' == a) && (('/' == b) && List.isPrefixOf [] z)) = _
        rw [show List.isPrefixOf ([] : PyStr) z = true by cases z <;> rfl, Bool.and_true]
      rw [show (a :: b :: x2) ++ t = a :: b :: (x2 ++ t) from rfl,
        e (x2 ++ t), ← e x2]
      exact h

theorem rstrip_stable_getLast {l : PyStr} (h : rstripSlashes l = l)
    (_hne : l ≠ []) : l.getLast? ≠ some '/' := by
  intro hlast
  have hrev : l.reverse.head? = some '/' := by
    rw [List.head?_reverse]
    exact hlast
  cases hr : l.reverse with
  | nil => rw [hr] at hrev; cases hrev
  | cons c t =>
    rw [hr] at hrev
    have hc : c = '/' := by simpa using hrev
    subst hc
    have hsub : (t.dropWhile (fun c => c = '/')).length ≤ t.length :=
      (List.dropWhile_suffix _).length_le
    have hlen : (rstripSlashes l).length =
        (l.reverse.dropWhile (fun c => c = '/')).length := by
      rw [rstripSlashes, List.length_reverse]
    rw [hr, List.dropWhile_cons] at hlen
    rw [if_pos (by decide)] at hlen
    have hll : l.length = t.length + 1 := by
      rw [← List.length_reverse, hr]
      rfl
    rw [h] at hlen
    omega

theorem getLast?_cons_ne (c : Char) {l : PyStr} (h : l ≠ []) :
    (c :: l).getLast? = l.getLast? := by
  rw [← List.head?_reverse, ← List.head?_reverse, List.reverse_cons]
  cases hr : l.reverse with
  | nil =>
    exact absurd (by simpa using congrArg List.reverse hr) h
  | cons a t => rfl

theorem canonicalize_unparse_stable
    (s n pa2 pr q2 : PyStr)
    (hsv : s = [] ∨ ∃ c cs, s = c :: cs ∧ isAsciiAlphaCh c = true ∧
      (c :: cs).all schemeChar = true ∧ pyLower (c :: cs) = c :: cs)
    (hn : ∀ c ∈ n, netDelim c = false ∧ tabCrLf c = false)
    (hpa2 : ∀ c ∈ pa2, c ≠ ';' ∧ c ≠ '?' ∧ c ≠ '#' ∧ tabCrLf c = false)
    (hpa2r : pa2 = pys "/" ∨ rstripSlashes pa2 = pa2)
    (hpa2s : n = [] → ['/', '/'].isPrefixOf pa2 = false)
    (hpr : ∀ c ∈ pr, c ≠ '/' ∧ c ≠ '?' ∧ c ≠ '#' ∧ tabCrLf c = false)
    (hprs : pr ≠ [] → s ∈ usesParams)
    (hq2s : q2 ≠ [] → stripTrackingQuery q2 = q2)
    (hq2c : ∀ c ∈ q2, c ≠ '#' ∧ tabCrLf c = false)
    (hns : s = [] → n = [] → ∀ x y : PyStr, pa2 = x ++ ':' :: y → x ≠ [] →
      x.all schemeChar = true →
      (∀ c, x.head? = some c → isAsciiAlphaCh c = true) → False)
    (hhead : s = [] → n = [] → ∀ c, pa2.head? = some c →
      c0ControlOrSpace c = false) :
    canonicalize (pyUrlunparse ⟨s, n, pa2, pr, q2, []⟩) =
      pyUrlunparse ⟨s, n, pa2, pr, q2, []⟩ := by
  have hqp : (q2 ≠ [] ∧ (if q2 ≠ [] then '?' :: q2 else []) = '?' :: q2) ∨
      (q2 = [] ∧ (if q2 ≠ [] then '?' :: q2 else ([] : PyStr)) = []) := by
    by_cases hq0 : q2 = []
    · exact Or.inr ⟨hq0, by rw [if_neg (not_ne_iff.2 hq0)]⟩
    · exact Or.inl ⟨hq0, by rw [if_pos hq0]⟩
  have hqw : (q2 ≠ [] ∧ q2 = stripTrackingQuery q2) ∨
      (q2 = [] ∧ q2 = q2) := by
    by_cases hq0 : q2 = []
    · exact Or.inr ⟨hq0, rfl⟩
    · exact Or.inl ⟨hq0, (hq2s hq0).symm⟩
  have hpw_pa2 : (pa2 = pys "/" ∧ pa2 = pa2) ∨
      (pa2 ≠ pys "/" ∧ pa2 = rstripSlashes pa2) := by
    by_cases hroot : pa2 = pys "/"
    · exact Or.inl ⟨hroot, rfl⟩
    · rcases hpa2r with h | h
      · exact absurd h hroot
      · exact Or.inr ⟨hroot, h.symm⟩
  have hqptail : (if q2 ≠ [] then '?' :: q2 else ([] : PyStr)) = [] ∨
      ∃ c r, (if q2 ≠ [] then '?' :: q2 else ([] : PyStr)) = c :: r ∧
        c ≠ '/' := by
    rcases hqp with ⟨_, hq⟩ | ⟨_, hq⟩
    · exact Or.inr ⟨'?', q2, hq, by decide⟩
    · exact Or.inl hq
  have hU_slashcons : ∀ X : PyStr, (∀ c ∈ X, c ≠ '?' ∧ c ≠ '#' ∧
      tabCrLf c = false) → ∀ c ∈ ('/' :: X), c ≠ '?' ∧ c ≠ '#' ∧
      tabCrLf c = false := by
    intro X hX c hc
    rcases List.mem_cons.1 hc with rfl | hc
    · exact ⟨by decide, by decide, by decide⟩
    · exact hX c hc
  have hU_pa2 : ∀ c ∈ pa2, c ≠ '?' ∧ c ≠ '#' ∧ tabCrLf c = false :=
    fun c hc => ⟨(hpa2 c hc).2.1, (hpa2 c hc).2.2.1, (hpa2 c hc).2.2.2⟩
  have hU_url1 : ∀ c ∈ pa2 ++ ';' :: pr, c ≠ '?' ∧ c ≠ '#' ∧
      tabCrLf c = false := by
    intro c hc
    rcases List.mem_append.1 hc with hc | hc
    · exact hU_pa2 c hc
    · rcases List.mem_cons.1 hc with rfl | hc
      · exact ⟨by decide, by decide, by decide⟩
      · exact ⟨(hpr c hc).2.1, (hpr c hc).2.2.1, (hpr c hc).2.2.2⟩
  have hstab_cons : pa2 ≠ [] → pa2.head? ≠ some '/' →
      (('/' :: pa2) ≠ pys "/" ∧ ('/' :: pa2) = rstripSlashes ('/' :: pa2)) := by
    intro hne hhd
    have hroot : pa2 ≠ pys "/" := by
      intro h
      rw [h] at hhd
      exact hhd rfl
    have hstab : rstripSlashes pa2 = pa2 := by
      rcases hpa2r with h | h
      · exact absurd h hroot
      · exact h
    refine ⟨?_, ?_⟩
    · intro h
      have : pa2 = [] := by
        have := congrArg List.tail h
        simpa using this
      exact hne this
    · refine (rstripSlashes_eq_self ?_).symm
      rw [getLast?_cons_ne '/' hne]
      exact rstrip_stable_getLast hstab hne
  by_cases hpr0 : pr = []
  · subst hpr0
    by_cases hB : n ≠ [] ∨ (s ≠ [] ∧ s ∈ usesNetloc ∧
        ¬ ['/', '/'].isPrefixOf pa2 = true)
    · by_cases hprep : pa2 ≠ [] ∧ pa2.head? ≠ some '/'
      · -- A1: prepend happens, reparse path is '/' :: pa2
        have hv := pyUrlunparse_eval s n pa2 [] q2 pa2
          ('/' :: '/' :: (n ++ ('/' :: pa2)))
          (Or.inr ⟨rfl, rfl⟩)
          (Or.inl ⟨hB, Or.inl ⟨hprep.1, hprep.2, rfl⟩⟩)
        have hsplit := urlsplit_rt_net s n ('/' :: pa2) q2 _ hsv hn
          (hU_slashcons pa2 hU_pa2) (Or.inr rfl) hq2c hqp
        have hsplitV : pyUrlsplit (pyUrlunparse ⟨s, n, pa2, [], q2, []⟩) [] =
            ⟨s, n, '/' :: pa2, q2, []⟩ := by
          rw [hv]
          exact hsplit
        have hparse := pyUrlparse_eval _ s n ('/' :: pa2) q2 ('/' :: pa2) []
          hsplitV
          (Or.inr ⟨by
            rintro ⟨_, hm⟩
            rcases List.mem_cons.1 hm with heq | hm
            · exact absurd heq (by decide)
            · exact (hpa2 ';' hm).1 rfl, rfl, rfl⟩)
        obtain ⟨hne1, hstab1⟩ := hstab_cons hprep.1 hprep.2
        have hcanon := canonicalize_eval _ s n ('/' :: pa2) [] q2
          ('/' :: pa2) q2 [] hparse (Or.inr ⟨hne1, hstab1⟩) hqw
        rw [hcanon]
        obtain ⟨p, ps, hpa2eq⟩ : ∃ p ps, pa2 = p :: ps := by
          cases hpc : pa2 with
          | nil => exact absurd hpc hprep.1
          | cons p ps => exact ⟨p, ps, rfl⟩
        have hpne : p ≠ '/' := by
          intro h
          apply hprep.2
          rw [hpa2eq, h]
          rfl
        have hB2 : n ≠ [] ∨ (s ≠ [] ∧ s ∈ usesNetloc ∧
            ¬ ['/', '/'].isPrefixOf ('/' :: pa2) = true) := by
          rcases hB with h | ⟨h1, h2, _⟩
          · exact Or.inl h
          · refine Or.inr ⟨h1, h2, ?_⟩
            rw [hpa2eq, isPrefixOf_ne_second hpne]
            simp
        have hv2 := pyUrlunparse_eval s n ('/' :: pa2) [] q2 ('/' :: pa2)
          ('/' :: '/' :: (n ++ ('/' :: pa2)))
          (Or.inr ⟨rfl, rfl⟩)
          (Or.inl ⟨hB2, Or.inr ⟨by
            rintro ⟨_, hh⟩
            exact hh rfl, rfl⟩⟩)
        rw [hv, hv2]
      · -- A2: no prepend, exact reparse
        have hv := pyUrlunparse_eval s n pa2 [] q2 pa2
          ('/' :: '/' :: (n ++ pa2))
          (Or.inr ⟨rfl, rfl⟩)
          (Or.inl ⟨hB, Or.inr ⟨hprep, rfl⟩⟩)
        have hUh : pa2 = [] ∨ pa2.head? = some '/' := by
          by_cases h0 : pa2 = []
          · exact Or.inl h0
          · refine Or.inr (not_not.1 ?_)
            intro hh
            exact hprep ⟨h0, hh⟩
        have hsplit := urlsplit_rt_net s n pa2 q2 _ hsv hn hU_pa2 hUh hq2c hqp
        have hsplitV : pyUrlsplit (pyUrlunparse ⟨s, n, pa2, [], q2, []⟩) [] =
            ⟨s, n, pa2, q2, []⟩ := by
          rw [hv]
          exact hsplit
        have hparse := pyUrlparse_eval _ s n pa2 q2 pa2 [] hsplitV
          (Or.inr ⟨by
            rintro ⟨_, hm⟩
            exact (hpa2 ';' hm).1 rfl, rfl, rfl⟩)
        have hcanon := canonicalize_eval _ s n pa2 [] q2 pa2 q2 [] hparse
          hpw_pa2 hqw
        rw [hcanon]
    · -- A3: no netloc line in the output
        have hBn : n = [] := by
          by_cases h0 : n = []
          · exact h0
          · exact absurd (Or.inl h0) hB
        subst hBn
        have hv := pyUrlunparse_eval s [] pa2 [] q2 pa2 pa2
          (Or.inr ⟨rfl, rfl⟩) (Or.inr ⟨hB, rfl⟩)
        have hUpre : ['/', '/'].isPrefixOf
            (pa2 ++ (if q2 ≠ [] then '?' :: q2 else [])) = false :=
          isPrefixOf2_append pa2 _ (hpa2s rfl) hqptail
        have hheadc0 : s = [] → ∀ c,
            (pa2 ++ (if q2 ≠ [] then '?' :: q2 else [])).head? = some c →
            c0ControlOrSpace c = false := by
          intro hs0 c hc
          cases hpc : pa2 with
          | nil =>
            rw [hpc] at hc
            rcases hqp with ⟨_, hq⟩ | ⟨_, hq⟩ <;> rw [hq] at hc
            · have h2 : '?' = c := by simpa using hc
              subst h2
              decide
            · cases hc
          | cons p ps =>
            rw [hpc] at hc
            have h2 : p = c := by simpa using hc
            subst h2
            exact hhead hs0 rfl p (by rw [hpc]; rfl)
        have hnoscheme : s = [] →
            findScheme (pa2 ++ (if q2 ≠ [] then '?' :: q2 else [])) = none := by
          intro hs0
          cases hfs : findScheme (pa2 ++ (if q2 ≠ [] then '?' :: q2 else []))
            with
          | none => rfl
          | some r =>
            exfalso
            obtain ⟨c, cs, hdec, hca, hall, _⟩ :=
              findScheme_destruct _ r.1 r.2 (by rw [hfs])
            obtain ⟨y, hy⟩ := append_scheme_split (c :: cs) pa2 _ r.2 hdec hall
              (by
                rcases hqp with ⟨_, hq⟩ | ⟨_, hq⟩ <;> rw [hq]
                · exact Or.inr ⟨'?', q2, rfl, by decide, by decide⟩
                · exact Or.inl rfl)
            exact hns hs0 rfl (c :: cs) y hy (by simp) hall (by
              intro x hx
              have h2 : c = x := by simpa using hx
              subst h2
              exact hca)
        have hsplit := urlsplit_rt_rel s pa2 q2 _ hsv hU_pa2 hUpre hheadc0
          hnoscheme hq2c hqp
        have hsplitV : pyUrlsplit (pyUrlunparse ⟨s, [], pa2, [], q2, []⟩) [] =
            ⟨s, [], pa2, q2, []⟩ := by
          rw [hv]
          exact hsplit
        have hparse := pyUrlparse_eval _ s [] pa2 q2 pa2 [] hsplitV
          (Or.inr ⟨by
            rintro ⟨_, hm⟩
            exact (hpa2 ';' hm).1 rfl, rfl, rfl⟩)
        have hcanon := canonicalize_eval _ s [] pa2 [] q2 pa2 q2 [] hparse
          hpw_pa2 hqw
        rw [hcanon]
  · by_cases hB : n ≠ [] ∨ (s ≠ [] ∧ s ∈ usesNetloc ∧
        ¬ ['/', '/'].isPrefixOf (pa2 ++ ';' :: pr) = true)
    · by_cases hprep : (pa2 ++ ';' :: pr).head? ≠ some '/'
      · -- B1: prepend happens, reparse path is '/' :: pa2
        have hv := pyUrlunparse_eval s n pa2 pr q2 (pa2 ++ ';' :: pr)
          ('/' :: '/' :: (n ++ ('/' :: (pa2 ++ ';' :: pr))))
          (Or.inl ⟨hpr0, rfl⟩)
          (Or.inl ⟨hB, Or.inl ⟨by simp, hprep, rfl⟩⟩)
        have hsplit := urlsplit_rt_net s n ('/' :: (pa2 ++ ';' :: pr)) q2 _
          hsv hn (hU_slashcons _ hU_url1) (Or.inr rfl) hq2c hqp
        have hsplitV : pyUrlsplit (pyUrlunparse ⟨s, n, pa2, pr, q2, []⟩) [] =
            ⟨s, n, '/' :: (pa2 ++ ';' :: pr), q2, []⟩ := by
          rw [hv]
          exact hsplit
        have hsp : splitParams ('/' :: (pa2 ++ ';' :: pr)) =
            ('/' :: pa2, pr) := by
          have hshape : '/' :: (pa2 ++ ';' :: pr) =
              ('/' :: pa2) ++ ';' :: pr := rfl
          rw [hshape]
          apply splitParams_append
          · intro hm
            rcases List.mem_cons.1 hm with heq | hm
            · exact absurd heq (by decide)
            · exact (hpa2 ';' hm).1 rfl
          · intro hm
            exact (hpr '/' hm).1 rfl
        have hparse := pyUrlparse_eval _ s n ('/' :: (pa2 ++ ';' :: pr)) q2
          ('/' :: pa2) pr hsplitV
          (Or.inl ⟨hprs hpr0, by simp, hsp⟩)
        have hpwB : (('/' :: pa2) = pys "/" ∧ ('/' :: pa2) = '/' :: pa2) ∨
            (('/' :: pa2) ≠ pys "/" ∧
              ('/' :: pa2) = rstripSlashes ('/' :: pa2)) := by
          by_cases hpa0 : pa2 = []
          · subst hpa0
            exact Or.inl ⟨rfl, rfl⟩
          · have hhd : pa2.head? ≠ some '/' := by
              intro hh
              apply hprep
              cases hpc : pa2 with
              | nil => exact absurd hpc hpa0
              | cons p ps =>
                rw [hpc] at hh
                have hp2 : p = '/' := by simpa using hh
                rw [hp2]
                rfl
            exact Or.inr (hstab_cons hpa0 hhd)
        have hcanon := canonicalize_eval _ s n ('/' :: pa2) pr q2
          ('/' :: pa2) q2 [] hparse hpwB hqw
        rw [hcanon]
        have hpref2 : ['/', '/'].isPrefixOf (('/' :: pa2) ++ ';' :: pr)
            = false := by
          cases hpc : pa2 with
          | nil => exact isPrefixOf_ne_second (by decide) _
          | cons p ps =>
            have hpne : p ≠ '/' := by
              intro h
              apply hprep
              rw [hpc, h]
              rfl
            exact isPrefixOf_ne_second hpne _
        have hB2 : n ≠ [] ∨ (s ≠ [] ∧ s ∈ usesNetloc ∧
            ¬ ['/', '/'].isPrefixOf (('/' :: pa2) ++ ';' :: pr) = true) := by
          rcases hB with h | ⟨h1, h2, _⟩
          · exact Or.inl h
          · refine Or.inr ⟨h1, h2, ?_⟩
            rw [hpref2]
            simp
        have hv2 := pyUrlunparse_eval s n ('/' :: pa2) pr q2
          (('/' :: pa2) ++ ';' :: pr)
          ('/' :: '/' :: (n ++ (('/' :: pa2) ++ ';' :: pr)))
          (Or.inl ⟨hpr0, rfl⟩)
          (Or.inl ⟨hB2, Or.inr ⟨by
            rintro ⟨_, hh⟩
            exact hh rfl, rfl⟩⟩)
        rw [hv, hv2]
        rfl
      · -- B2: no prepend, exact reparse
        have hhd : (pa2 ++ ';' :: pr).head? = some '/' := not_not.1 hprep
        have hv := pyUrlunparse_eval s n pa2 pr q2 (pa2 ++ ';' :: pr)
          ('/' :: '/' :: (n ++ (pa2 ++ ';' :: pr)))
          (Or.inl ⟨hpr0, rfl⟩)
          (Or.inl ⟨hB, Or.inr ⟨by
            rintro ⟨_, hh⟩
            exact hh hhd, rfl⟩⟩)
        have hsplit := urlsplit_rt_net s n (pa2 ++ ';' :: pr) q2 _ hsv hn
          hU_url1 (Or.inr hhd) hq2c hqp
        have hsplitV : pyUrlsplit (pyUrlunparse ⟨s, n, pa2, pr, q2, []⟩) [] =
            ⟨s, n, pa2 ++ ';' :: pr, q2, []⟩ := by
          rw [hv]
          exact hsplit
        have hsp : splitParams (pa2 ++ ';' :: pr) = (pa2, pr) := by
          apply splitParams_append
          · intro hm
            exact (hpa2 ';' hm).1 rfl
          · intro hm
            exact (hpr '/' hm).1 rfl
        have hparse := pyUrlparse_eval _ s n (pa2 ++ ';' :: pr) q2 pa2 pr
          hsplitV (Or.inl ⟨hprs hpr0, by simp, hsp⟩)
        have hcanon := canonicalize_eval _ s n pa2 pr q2 pa2 q2 [] hparse
          hpw_pa2 hqw
        rw [hcanon]
    · -- B3: no netloc line in the output
        have hBn : n = [] := by
          by_cases h0 : n = []
          · exact h0
          · exact absurd (Or.inl h0) hB
        subst hBn
        have hv := pyUrlunparse_eval s [] pa2 pr q2 (pa2 ++ ';' :: pr)
          (pa2 ++ ';' :: pr)
          (Or.inl ⟨hpr0, rfl⟩) (Or.inr ⟨hB, rfl⟩)
        have hshape : (pa2 ++ ';' :: pr) ++ (if q2 ≠ [] then '?' :: q2 else [])
            = pa2 ++ (';' :: (pr ++ (if q2 ≠ [] then '?' :: q2 else []))) := by
          rw [List.append_assoc]
          rfl
        have hUpre : ['/', '/'].isPrefixOf
            ((pa2 ++ ';' :: pr) ++ (if q2 ≠ [] then '?' :: q2 else []))
            = false := by
          rw [hshape]
          exact isPrefixOf2_append pa2 _ (hpa2s rfl)
            (Or.inr ⟨';', _, rfl, by decide⟩)
        have hheadc0 : s = [] → ∀ c,
            ((pa2 ++ ';' :: pr) ++
              (if q2 ≠ [] then '?' :: q2 else [])).head? = some c →
            c0ControlOrSpace c = false := by
          intro hs0 c hc
          rw [hshape] at hc
          cases hpc : pa2 with
          | nil =>
            rw [hpc] at hc
            have h2 : ';' = c := by simpa using hc
            subst h2
            decide
          | cons p ps =>
            rw [hpc] at hc
            have h2 : p = c := by simpa using hc
            subst h2
            exact hhead hs0 rfl p (by rw [hpc]; rfl)
        have hnoscheme : s = [] →
            findScheme ((pa2 ++ ';' :: pr) ++
              (if q2 ≠ [] then '?' :: q2 else [])) = none := by
          intro hs0
          cases hfs : findScheme ((pa2 ++ ';' :: pr) ++
              (if q2 ≠ [] then '?' :: q2 else [])) with
          | none => rfl
          | some r =>
            exfalso
            obtain ⟨c, cs, hdec, hca, hall, _⟩ :=
              findScheme_destruct _ r.1 r.2 (by rw [hfs])
            rw [hshape] at hdec
            obtain ⟨y, hy⟩ := append_scheme_split (c :: cs) pa2 _ r.2 hdec hall
              (Or.inr ⟨';', _, rfl, by decide, by decide⟩)
            exact hns hs0 rfl (c :: cs) y hy (by simp) hall (by
              intro x hx
              have h2 : c = x := by simpa using hx
              subst h2
              exact hca)
        have hsplit := urlsplit_rt_rel s (pa2 ++ ';' :: pr) q2 _ hsv hU_url1
          hUpre hheadc0 hnoscheme hq2c hqp
        have hsplitV : pyUrlsplit (pyUrlunparse ⟨s, [], pa2, pr, q2, []⟩) [] =
            ⟨s, [], pa2 ++ ';' :: pr, q2, []⟩ := by
          rw [hv]
          exact hsplit
        have hsp : splitParams (pa2 ++ ';' :: pr) = (pa2, pr) := by
          apply splitParams_append
          · intro hm
            exact (hpa2 ';' hm).1 rfl
          · intro hm
            exact (hpr '/' hm).1 rfl
        have hparse := pyUrlparse_eval _ s [] (pa2 ++ ';' :: pr) q2 pa2 pr
          hsplitV (Or.inl ⟨hprs hpr0, by simp, hsp⟩)
        have hcanon := canonicalize_eval _ s [] pa2 pr q2 pa2 q2 [] hparse
          hpw_pa2 hqw
        rw [hcanon]

theorem splitFirst_none_not_mem (sep : Char) : ∀ l : PyStr,
    splitFirst sep l = none → sep ∉ l := by
  intro l
  induction l with
  | nil => intro _ h; cases h
  | cons c t ih =>
    intro h hm
    rw [splitFirst] at h
    by_cases hc : c = sep
    · rw [if_pos hc] at h
      exact Option.noConfusion h
    · rw [if_neg hc] at h
      rcases List.mem_cons.1 hm with heq | hm2
      · exact hc heq.symm
      · cases hs : splitFirst sep t with
        | none => exact ih hs hm2
        | some r =>
          rw [hs] at h
          exact Option.noConfusion h

theorem head?_append_left {a : PyStr} (t : PyStr) (h : a ≠ []) :
    (a ++ t).head? = a.head? := by
  cases a with
  | nil => exact absurd rfl h
  | cons c cs => rfl

theorem c0_false_tab_false {c : Char} (h : c0ControlOrSpace c = false) :
    tabCrLf c = false := by
  rw [c0ControlOrSpace] at h
  simp at h
  refine tabCrLf_eq_false ?_ ?_ ?_ <;>
    · apply char_ne_of_toNat_ne
      simp only [show ('\t' : Char).toNat = 9 from rfl,
        show ('\r' : Char).toNat = 13 from rfl,
        show ('\n' : Char).toNat = 10 from rfl]
      omega

theorem cleanUrl_facts (u : PyStr) :
    (∀ c ∈ cleanUrl u, tabCrLf c = false) ∧
    (∀ c, (cleanUrl u).head? = some c → c0ControlOrSpace c = false) := by
  constructor
  · intro c hc
    rw [cleanUrl] at hc
    have := List.of_mem_filter hc
    simpa using this
  · intro c hc
    rw [cleanUrl] at hc
    cases hd : u.dropWhile c0ControlOrSpace with
    | nil => rw [hd] at hc; cases hc
    | cons d t =>
      have hdc : c0ControlOrSpace d = false := by
        have h2 : (u.dropWhile c0ControlOrSpace).head? = some d := by
          rw [hd]
          rfl
        exact head?_dropWhile_false h2
      rw [hd, List.filter_cons] at hc
      rw [if_pos (by rw [c0_false_tab_false hdc]; rfl)] at hc
      have h2 : d = c := by simpa using hc
      subst h2
      exact hdc

theorem pyUrlsplit_eval_gen (v s A nl rest2 u3 f pa q : PyStr)
    (h0 : cleanUrl v = v)
    (hfs : (findScheme v = some (s, A)) ∨ (s = [] ∧ A = v ∧ findScheme v = none))
    (hnet : (['/', '/'].isPrefixOf A = true ∧ splitNetloc (A.drop 2) = (nl, rest2)) ∨
            (['/', '/'].isPrefixOf A = false ∧ nl = [] ∧ rest2 = A))
    (hfrag : (splitFirst '#' rest2 = some (u3, f)) ∨
             (splitFirst '#' rest2 = none ∧ u3 = rest2 ∧ f = []))
    (hquery : (splitFirst '?' u3 = some (pa, q)) ∨
              (splitFirst '?' u3 = none ∧ pa = u3 ∧ q = [])) :
    pyUrlsplit v [] = ⟨s, nl, pa, q, f⟩ := by
  have hcs : cleanScheme ([] : PyStr) = [] := rfl
  rcases hfs with hfs | ⟨hs0, hA, hfs⟩ <;>
    rcases hnet with ⟨hp, hsn⟩ | ⟨hp, hnl, hr2⟩ <;>
    rcases hfrag with hfr | ⟨hfr, hu3, hf0⟩ <;>
    rcases hquery with hq | ⟨hq, hpa, hq0⟩ <;>
    (try subst hpa) <;> (try subst hq0) <;> (try subst hu3) <;>
    (try subst hf0) <;> (try subst hs0) <;> (try subst hA) <;>
    (try subst hnl) <;> (try subst hr2) <;>
    simp only [pyUrlsplit, hcs, if_true, if_false, Bool.false_eq_true, *]

theorem pyUrlsplit_facts (u s n pa q f : PyStr)
    (h : pyUrlsplit u [] = ⟨s, n, pa, q, f⟩) :
    (s = [] ∨ ∃ c cs, s = c :: cs ∧ isAsciiAlphaCh c = true ∧
      (c :: cs).all schemeChar = true ∧ pyLower (c :: cs) = c :: cs) ∧
    (∀ c ∈ n, netDelim c = false ∧ tabCrLf c = false) ∧
    (∀ c ∈ pa, c ≠ '?' ∧ c ≠ '#' ∧ tabCrLf c = false) ∧
    (∀ c ∈ q, c ≠ '#' ∧ tabCrLf c = false) ∧
    (s = [] → n = [] →
      (∀ x y : PyStr, pa = x ++ ':' :: y → x ≠ [] →
        x.all schemeChar = true →
        (∀ c, x.head? = some c → isAsciiAlphaCh c = true) → False) ∧
      (∀ c, pa.head? = some c → c0ControlOrSpace c = false)) := by
  obtain ⟨hu0tab, hu0head⟩ := cleanUrl_facts u
  have h0 : cleanUrl (cleanUrl u) = cleanUrl u := cleanUrl_id _ hu0tab hu0head
  have hsame : pyUrlsplit u [] = pyUrlsplit (cleanUrl u) [] := by
    simp only [pyUrlsplit, h0]
  obtain ⟨sc, A, hFS, hscv, hAsub, hsc0⟩ :
      ∃ sc A, ((findScheme (cleanUrl u) = some (sc, A)) ∨
        (sc = [] ∧ A = cleanUrl u ∧ findScheme (cleanUrl u) = none)) ∧
      (sc = [] ∨ ∃ c cs, sc = c :: cs ∧ isAsciiAlphaCh c = true ∧
        (c :: cs).all schemeChar = true ∧ pyLower (c :: cs) = c :: cs) ∧
      (∀ c ∈ A, c ∈ cleanUrl u) ∧
      (sc = [] → A = cleanUrl u ∧ findScheme (cleanUrl u) = none) := by
    cases hfs : findScheme (cleanUrl u) with
    | none =>
      exact ⟨[], cleanUrl u, Or.inr ⟨rfl, rfl, rfl⟩, Or.inl rfl,
        fun c hc => hc, fun _ => ⟨rfl, rfl⟩⟩
    | some r =>
      obtain ⟨sc, A⟩ := r
      obtain ⟨c, cs, hw, hca, hall, hsceq⟩ :=
        findScheme_destruct (cleanUrl u) sc A hfs
      refine ⟨sc, A, Or.inl rfl, Or.inr ?_, ?_, ?_⟩
      · refine ⟨pyLowerChar c, cs.map pyLowerChar, by rw [hsceq]; rfl,
          pyLowerChar_alpha hca, ?_, ?_⟩
        · rw [show (pyLowerChar c :: cs.map pyLowerChar) =
              pyLower (c :: cs) from rfl]
          rw [List.all_eq_true] at hall ⊢
          intro x hx
          rw [pyLower] at hx
          obtain ⟨x0, hx0, rfl⟩ := List.mem_map.1 hx
          exact pyLowerChar_scheme (hall x0 hx0)
        · rw [show (pyLowerChar c :: cs.map pyLowerChar) =
              pyLower (c :: cs) from rfl]
          exact pyLower_idem (c :: cs)
      · intro x hx
        rw [hw]
        exact List.mem_append.2 (Or.inr (List.mem_cons_of_mem ':' hx))
      · intro h0'
        rw [h0'] at hsceq
        exact absurd hsceq (by simp [pyLower])
  obtain ⟨nl, rest2, hNET, hnlf, hr2sub, hnl0⟩ :
      ∃ nl rest2, ((['/', '/'].isPrefixOf A = true ∧
          splitNetloc (A.drop 2) = (nl, rest2)) ∨
        (['/', '/'].isPrefixOf A = false ∧ nl = [] ∧ rest2 = A)) ∧
      (∀ c ∈ nl, netDelim c = false ∧ c ∈ A) ∧
      (∀ c ∈ rest2, c ∈ A) ∧
      (nl = [] → (rest2 = A ∧ ['/', '/'].isPrefixOf A = false) ∨
        (rest2 = [] ∨ ∃ c, rest2.head? = some c ∧ netDelim c = true)) := by
    cases hp : ['/', '/'].isPrefixOf A with
    | false =>
      exact ⟨[], A, Or.inr ⟨rfl, rfl, rfl⟩, by simp, fun c hc => hc,
        fun _ => Or.inl ⟨rfl, rfl⟩⟩
    | true =>
      refine ⟨(A.drop 2).takeWhile (fun c => !netDelim c),
        (A.drop 2).dropWhile (fun c => !netDelim c),
        Or.inl ⟨rfl, rfl⟩, ?_, ?_, ?_⟩
      · intro c hc
        have hpred := List.mem_takeWhile_imp hc
        refine ⟨by simpa using hpred, ?_⟩
        exact List.drop_subset 2 A ((List.takeWhile_sublist _).subset hc)
      · intro c hc
        exact List.drop_subset 2 A ((List.dropWhile_sublist _).subset hc)
      · intro _
        refine Or.inr ?_
        cases hr : (A.drop 2).dropWhile (fun c => !netDelim c) with
        | nil => exact Or.inl rfl
        | cons c t =>
          refine Or.inr ⟨c, rfl, ?_⟩
          have h3 : ((A.drop 2).dropWhile (fun c => !netDelim c)).head? =
              some c := by
            rw [hr]
            rfl
          simpa using head?_dropWhile_false h3
  obtain ⟨u3, fr, hFR, hu3f, hu3pre⟩ :
      ∃ u3 fr, ((splitFirst '#' rest2 = some (u3, fr)) ∨
        (splitFirst '#' rest2 = none ∧ u3 = rest2 ∧ fr = [])) ∧
      ('#' ∉ u3) ∧ (∃ t, u3 ++ t = rest2) := by
    cases hfr : splitFirst '#' rest2 with
    | none =>
      exact ⟨rest2, [], Or.inr ⟨rfl, rfl, rfl⟩,
        splitFirst_none_not_mem '#' rest2 hfr, [], List.append_nil rest2⟩
    | some r =>
      obtain ⟨a, b⟩ := r
      obtain ⟨hdec, hnm⟩ := splitFirst_eq_some '#' rest2 a b hfr
      exact ⟨a, b, Or.inl rfl, hnm, '#' :: b, hdec.symm⟩
  obtain ⟨pa', q', hQ, hq'f, hpapre, hq'sub⟩ :
      ∃ pa' q', ((splitFirst '?' u3 = some (pa', q')) ∨
        (splitFirst '?' u3 = none ∧ pa' = u3 ∧ q' = [])) ∧
      ('?' ∉ pa') ∧ (∃ t, pa' ++ t = u3) ∧ (∀ c ∈ q', c ∈ u3) := by
    cases hq : splitFirst '?' u3 with
    | none =>
      exact ⟨u3, [], Or.inr ⟨rfl, rfl, rfl⟩,
        splitFirst_none_not_mem '?' u3 hq, ⟨[], List.append_nil u3⟩,
        by simp⟩
    | some r =>
      obtain ⟨a, b⟩ := r
      obtain ⟨hdec, hnm⟩ := splitFirst_eq_some '?' u3 a b hq
      refine ⟨a, b, Or.inl rfl, hnm, ⟨'?' :: b, hdec.symm⟩, ?_⟩
      intro c hc
      rw [hdec]
      exact List.mem_append.2 (Or.inr (List.mem_cons_of_mem '?' hc))
  have heval := pyUrlsplit_eval_gen (cleanUrl u) sc A nl rest2 u3 fr pa' q'
    h0 hFS hNET hFR hQ
  have hrec : (⟨s, n, pa, q, f⟩ : SplitResult) = ⟨sc, nl, pa', q', fr⟩ :=
    h.symm.trans (hsame.trans heval)
  simp only [SplitResult.mk.injEq] at hrec
  obtain ⟨rfl, rfl, rfl, rfl, rfl⟩ := hrec
  obtain ⟨t1, ht1⟩ := hpapre
  obtain ⟨t2, ht2⟩ := hu3pre
  have hpasub : ∀ c ∈ pa, c ∈ cleanUrl u := by
    intro c hc
    apply hAsub
    apply hr2sub
    rw [← ht2]
    apply List.mem_append.2
    left
    rw [← ht1]
    exact List.mem_append.2 (Or.inl hc)
  refine ⟨hscv, ?_, ?_, ?_, ?_⟩
  · intro c hc
    obtain ⟨hnd, hmem⟩ := hnlf c hc
    exact ⟨hnd, hu0tab c (hAsub c hmem)⟩
  · intro c hc
    refine ⟨fun he => hq'f (he ▸ hc), fun he => hu3f ?_, ?_⟩
    · rw [← ht1]
      exact List.mem_append.2 (Or.inl (he ▸ hc))
    · exact hu0tab c (hpasub c hc)
  · intro c hc
    have hcu3 : c ∈ u3 := hq'sub c hc
    refine ⟨fun he => hu3f (he ▸ hcu3), ?_⟩
    have : c ∈ rest2 := by
      rw [← ht2]
      exact List.mem_append.2 (Or.inl hcu3)
    exact hu0tab c (hAsub c (hr2sub c this))
  · intro hs0 hn0
    obtain ⟨hAw, hfsn⟩ := hsc0 hs0
    rcases hnl0 hn0 with ⟨hr2A, _⟩ | hdel
    · -- rest2 = A = cleanUrl u : pa is a prefix of the cleaned input
      have hpaw : pa ++ (t1 ++ t2) = cleanUrl u := by
        rw [← List.append_assoc, ht1, ht2, hr2A, hAw]
      constructor
      · intro x y hpxy hxne hall halpha
        have hwdec : cleanUrl u = x ++ ':' :: (y ++ (t1 ++ t2)) := by
          rw [← hpaw, hpxy, List.append_assoc]
          rfl
        obtain ⟨c, cs, rfl⟩ : ∃ c cs, x = c :: cs := by
          cases hx : x with
          | nil => exact absurd hx hxne
          | cons c cs => exact ⟨c, cs, rfl⟩
        rw [hwdec, findScheme_build c cs _ (halpha c rfl) hall] at hfsn
        exact Option.noConfusion hfsn
      · intro c hc
        apply hu0head
        rw [← hpaw, head?_append_left]
        · exact hc
        · intro he
          rw [he] at hc
          cases hc
    · -- rest2 is empty or starts with a delimiter: pa = [] or starts '/'
      have hpa0 : pa = [] ∨ pa.head? = some '/' := by
        cases hpc : pa with
        | nil => exact Or.inl rfl
        | cons p ps =>
          refine Or.inr ?_
          have hpane : pa ≠ [] := by
            rw [hpc]
            exact List.cons_ne_nil p ps
          have hu3ne : u3 ≠ [] := by
            rw [← ht1]
            intro he
            exact hpane (List.append_eq_nil.1 he).1
          have hhd : rest2.head? = some p := by
            rw [← ht2, head?_append_left _ hu3ne, ← ht1,
              head?_append_left _ hpane, hpc]
            rfl
          rcases hdel with hr0 | ⟨c, hcc, hnd⟩
          · rw [hr0] at hhd
            cases hhd
          · rw [hcc] at hhd
            have hpc2 : p = c := by
              have := hhd
              injection this with h2
              exact h2.symm
            subst hpc2
            have hpmem : p ∈ pa := by
              rw [hpc]
              exact List.mem_cons_self ..
            rw [netDelim, Bool.or_eq_true, Bool.or_eq_true] at hnd
            rcases hnd with (h3 | h3) | h3
            · have hp3 : p = '/' := by simpa using h3
              rw [hp3]
              rfl
            · have hp3 : p = '?' := by simpa using h3
              exact absurd hp3 (fun he => hq'f (he ▸ hpmem))
            · have hp3 : p = '#' := by simpa using h3
              refine absurd hp3 (fun he => hu3f ?_)
              rw [← ht1]
              exact List.mem_append.2 (Or.inl (he ▸ hpmem))
      constructor
      · intro x y hpxy hxne hall halpha
        rcases hpa0 with hpa0 | hpa0
        · rw [hpa0] at hpxy
          cases x with
          | nil => cases hpxy
          | cons c cs => cases hpxy
        · obtain ⟨c, cs, rfl⟩ : ∃ c cs, x = c :: cs := by
            cases hx : x with
            | nil => exact absurd hx hxne
            | cons c cs => exact ⟨c, cs, rfl⟩
          have hpc : pa.head? = some c := by
            rw [hpxy]
            rfl
          rw [hpa0] at hpc
          injection hpc with h2
          have hca := halpha c rfl
          rw [← h2] at hca
          exact absurd hca (by decide)
      · intro c hc
        rcases hpa0 with hpa0 | hpa0
        · rw [hpa0] at hc
          cases hc
        · rw [hpa0] at hc
          injection hc with h2
          rw [← h2]
          decide

theorem splitParams_struct (l a b : PyStr) (h : splitParams l = (a, b)) :
    (a = l ∧ b = []) ∨ (l = a ++ ';' :: b ∧ '/' ∉ b) := by
  rw [splitParams] at h
  split_ifs at h with hs
  · cases hsl : splitLast '/' l with
    | none =>
      rw [hsl] at h
      have h' : ((l, []) : PyStr × PyStr) = (a, b) := h
      simp only [Prod.mk.injEq] at h'
      exact Or.inl ⟨h'.1.symm, h'.2.symm⟩
    | some r =>
      obtain ⟨before, lastSeg⟩ := r
      obtain ⟨hdec, hls⟩ := splitLast_eq_some '/' l before lastSeg hsl
      rw [hsl] at h
      have hmid : (match splitFirst ';' lastSeg with
          | some (segA, segB) => (before ++ '/' :: segA, segB)
          | none => (l, [])) = (a, b) := h
      clear h
      cases hsf : splitFirst ';' lastSeg with
      | none =>
        rw [hsf] at hmid
        have h' : ((l, []) : PyStr × PyStr) = (a, b) := hmid
        simp only [Prod.mk.injEq] at h'
        exact Or.inl ⟨h'.1.symm, h'.2.symm⟩
      | some r2 =>
        obtain ⟨sA, sB⟩ := r2
        obtain ⟨hdec2, _⟩ := splitFirst_eq_some ';' lastSeg sA sB hsf
        rw [hsf] at hmid
        have h' : ((before ++ '/' :: sA, sB) : PyStr × PyStr) = (a, b) := hmid
        simp only [Prod.mk.injEq] at h'
        obtain ⟨ha, hb⟩ := h'
        refine Or.inr ⟨?_, ?_⟩
        · rw [← ha, ← hb, hdec, hdec2, List.append_assoc]
          rfl
        · rw [← hb]
          intro hm
          apply hls
          rw [hdec2]
          exact List.mem_append.2 (Or.inr (List.mem_cons_of_mem ';' hm))
  · cases hsf : splitFirst ';' l with
    | none =>
      rw [hsf] at h
      have h' : ((l, []) : PyStr × PyStr) = (a, b) := h
      simp only [Prod.mk.injEq] at h'
      exact Or.inl ⟨h'.1.symm, h'.2.symm⟩
    | some r2 =>
      obtain ⟨sA, sB⟩ := r2
      obtain ⟨hdec2, _⟩ := splitFirst_eq_some ';' l sA sB hsf
      rw [hsf] at h
      have h' : ((sA, sB) : PyStr × PyStr) = (a, b) := h
      simp only [Prod.mk.injEq] at h'
      obtain ⟨ha, hb⟩ := h'
      refine Or.inr ⟨by rw [← ha, ← hb]; exact hdec2, ?_⟩
      rw [← hb]
      intro hm
      apply hs
      rw [hdec2]
      exact List.mem_append.2 (Or.inr (List.mem_cons_of_mem ';' hm))

theorem isPrefixOf2_destruct {l : PyStr}
    (h : ['/', '/'].isPrefixOf l = true) : ∃ w, l = '/' :: '/' :: w := by
  cases l with
  | nil => cases h
  | cons a l1 =>
    cases l1 with
    | nil =>
      exfalso
      have h2 : (['/', '/'].isPrefixOf [a]) = (('/' == a) &&
          List.isPrefixOf ['/'] ([] : PyStr)) := rfl
      rw [h2] at h
      simp [List.isPrefixOf] at h
    | cons b l2 =>
      have e : (['/', '/'].isPrefixOf (a :: b :: l2)) =
          (('/' == a) && ('/' == b)) := by
        show (('/' == a) && (('/' == b) && List.isPrefixOf [] l2)) = _
        rw [show List.isPrefixOf ([] : PyStr) l2 = true by cases l2 <;> rfl,
          Bool.and_true]
      rw [e, Bool.and_eq_true] at h
      obtain ⟨h1, h2⟩ := h
      have ha : '/' = a := by simpa using h1
      have hb : '/' = b := by simpa using h2
      exact ⟨l2, by rw [← ha, ← hb]⟩

theorem pyUrlparse_facts (u s n pa pr q f : PyStr)
    (h : pyUrlparse u [] = ⟨s, n, pa, pr, q, f⟩) :
    (s = [] ∨ ∃ c cs, s = c :: cs ∧ isAsciiAlphaCh c = true ∧
      (c :: cs).all schemeChar = true ∧ pyLower (c :: cs) = c :: cs) ∧
    (∀ c ∈ n, netDelim c = false ∧ tabCrLf c = false) ∧
    (∀ c ∈ pa, c ≠ '?' ∧ c ≠ '#' ∧ tabCrLf c = false) ∧
    (∀ c ∈ pr, c ≠ '/' ∧ c ≠ '?' ∧ c ≠ '#' ∧ tabCrLf c = false) ∧
    (pr ≠ [] → s ∈ usesParams) ∧
    (∀ c ∈ q, c ≠ '#' ∧ tabCrLf c = false) ∧
    (s = [] → n = [] →
      (∀ x y : PyStr, pa = x ++ ':' :: y → x ≠ [] →
        x.all schemeChar = true →
        (∀ c, x.head? = some c → isAsciiAlphaCh c = true) → False) ∧
      (∀ c, pa.head? = some c → c0ControlOrSpace c = false)) := by
  cases hsp : pyUrlsplit u [] with
  | mk S N PA Q F =>
    obtain ⟨hscv, hnf, hpaf, hqf, hnsh⟩ := pyUrlsplit_facts u S N PA Q F hsp
    by_cases hcond : S ∈ usesParams ∧ ';' ∈ PA
    · have hpp : pyUrlparse u [] =
          ⟨S, N, (splitParams PA).1, (splitParams PA).2, Q, F⟩ := by
        simp only [pyUrlparse, hsp, if_pos hcond]
      have hrec : (⟨s, n, pa, pr, q, f⟩ : ParseResult) =
          ⟨S, N, (splitParams PA).1, (splitParams PA).2, Q, F⟩ :=
        h.symm.trans hpp
      simp only [ParseResult.mk.injEq] at hrec
      obtain ⟨rfl, rfl, hpa2, hpr2, rfl, rfl⟩ := hrec
      have hstruct := splitParams_struct PA (splitParams PA).1
        (splitParams PA).2 rfl
      rw [← hpa2, ← hpr2] at hstruct
      rcases hstruct with ⟨ha, hb⟩ | ⟨hdec, hbs⟩
      · subst ha
        subst hb
        exact ⟨hscv, hnf, hpaf, by simp, by simp, hqf, hnsh⟩
      · have hpane : ∀ c ∈ pa, c ∈ PA := by
          intro c hc
          rw [hdec]
          exact List.mem_append.2 (Or.inl hc)
        have hprne : ∀ c ∈ pr, c ∈ PA := by
          intro c hc
          rw [hdec]
          exact List.mem_append.2 (Or.inr (List.mem_cons_of_mem ';' hc))
        refine ⟨hscv, hnf, ?_, ?_, fun _ => hcond.1, hqf, ?_⟩
        · intro c hc
          exact hpaf c (hpane c hc)
        · intro c hc
          exact ⟨fun he => hbs (he ▸ hc), (hpaf c (hprne c hc)).1,
            (hpaf c (hprne c hc)).2.1, (hpaf c (hprne c hc)).2.2⟩
        · intro hs0 hn0
          obtain ⟨hns1, hhd1⟩ := hnsh hs0 hn0
          constructor
          · intro x y hxy hxne hall halpha
            refine hns1 x (y ++ ';' :: pr) ?_ hxne hall halpha
            rw [hdec, hxy, List.append_assoc]
            rfl
          · intro c hc
            apply hhd1
            rw [hdec, head?_append_left]
            · exact hc
            · intro he
              rw [he] at hc
              cases hc
    · have hpp : pyUrlparse u [] = ⟨S, N, PA, [], Q, F⟩ := by
        simp only [pyUrlparse, hsp, if_neg hcond]
      have hrec : (⟨s, n, pa, pr, q, f⟩ : ParseResult) = ⟨S, N, PA, [], Q, F⟩ :=
        h.symm.trans hpp
      simp only [ParseResult.mk.injEq] at hrec
      obtain ⟨rfl, rfl, rfl, rfl, rfl, rfl⟩ := hrec
      exact ⟨hscv, hnf, hpaf, by simp, by simp, hqf, hnsh⟩

/-- C7, counterexample: canonicalize is not idempotent.  Two failure
modes: (1) stripping trailing slashes can expose a ';' into the last
path segment, which the re-parse then splits off as params, so a second
canonicalize shortens the URL again; (2) a schemeless URL whose path
starts with several slashes is re-parsed with the leading "//" taken as
a netloc delimiter, so the path shrinks again on the second pass. -/
theorem c7_counterexample :
    canonicalize (canonicalize (pys "https://x.test/a;/")) ≠
      canonicalize (pys "https://x.test/a;/") ∧
    canonicalize (pys "https://x.test/a;/") = pys "https://x.test/a;" ∧
    canonicalize (canonicalize (pys "https://x.test/a;/")) =
      pys "https://x.test/a" ∧
    canonicalize (canonicalize (pys "/////x")) ≠ canonicalize (pys "/////x") ∧
    canonicalize (pys "/////x") = pys "///x" ∧
    canonicalize (canonicalize (pys "/////x")) = pys "/x" := by
  exact ⟨by decide, by decide, by decide, by decide, by decide, by decide⟩

/-- C7, amended: canonicalization is idempotent for every URL u whose
parse has no ';' in the path and does not have an empty netloc together
with a path starting in "//" (the two situations of the counterexample);
in particular it is idempotent on every URL with a nonempty netloc and a
';'-free path, which covers all http(s) URLs without path semicolons. -/
theorem c7_amended (u : PyStr)
    (hsemi : ';' ∉ (pyUrlparse u).path)
    (hslash : ¬((pyUrlparse u).netloc = [] ∧
      ['/', '/'].isPrefixOf (pyUrlparse u).path = true)) :
    canonicalize (canonicalize u) = canonicalize u := by
  cases hp : pyUrlparse u [] with
  | mk s n pa pr q f =>
    obtain ⟨hscv, hn, hpa, hpr, hprs, hq, hnsh⟩ :=
      pyUrlparse_facts u s n pa pr q f hp
    have hsemi' : ';' ∉ pa := by
      rw [hp] at hsemi
      exact hsemi
    have hslash' : ¬(n = [] ∧ ['/', '/'].isPrefixOf pa = true) := by
      rw [hp] at hslash
      exact hslash
    have hmain : ∀ PW QW : PyStr,
        (∃ t, PW ++ t = pa) →
        (PW = pys "/" ∨ rstripSlashes PW = PW) →
        (QW ≠ [] → stripTrackingQuery QW = QW) →
        (∀ c ∈ QW, c ≠ '#' ∧ tabCrLf c = false) →
        canonicalize (pyUrlunparse ⟨s, n, PW, pr, QW, []⟩) =
          pyUrlunparse ⟨s, n, PW, pr, QW, []⟩ := by
      intro PW QW hpre hPWr hQWs hQWc
      obtain ⟨t, hPW⟩ := hpre
      apply canonicalize_unparse_stable s n PW pr QW hscv hn ?_ hPWr ?_
        hpr hprs hQWs hQWc ?_ ?_
      · intro c hc
        have hcpa : c ∈ pa := by
          rw [← hPW]
          exact List.mem_append.2 (Or.inl hc)
        exact ⟨fun he => hsemi' (he ▸ hcpa), (hpa c hcpa).1,
          (hpa c hcpa).2.1, (hpa c hcpa).2.2⟩
      · intro hn0
        have hps : ['/', '/'].isPrefixOf pa = false := by
          cases hval : ['/', '/'].isPrefixOf pa with
          | false => rfl
          | true => exact absurd ⟨hn0, hval⟩ hslash'
        cases hv : ['/', '/'].isPrefixOf PW with
        | false => rfl
        | true =>
          exfalso
          obtain ⟨w, hw⟩ := isPrefixOf2_destruct hv
          have : ['/', '/'].isPrefixOf pa = true := by
            rw [← hPW, hw]
            exact isPrefixOf_slash2 _
          rw [this] at hps
          cases hps
      · intro hs0 hn0 x y hxy hxne hall halpha
        refine (hnsh hs0 hn0).1 x (y ++ t) ?_ hxne hall halpha
        rw [← hPW, hxy, List.append_assoc]
        rfl
      · intro hs0 hn0 c hc
        apply (hnsh hs0 hn0).2
        rw [← hPW, head?_append_left]
        · exact hc
        · intro he
          rw [he] at hc
          cases hc
    have hqwc : ∀ c ∈ stripTrackingQuery q, c ≠ '#' ∧ tabCrLf c = false :=
      fun c hc => stripTrackingQuery_char_facts q hc
    by_cases hroot : pa = pys "/"
    · by_cases hq0 : q = []
      · have hcanon := canonicalize_eval u s n pa pr q pa q f hp
          (Or.inl ⟨hroot, rfl⟩) (Or.inr ⟨hq0, rfl⟩)
        rw [hcanon]
        refine hmain pa q ⟨[], List.append_nil pa⟩ (Or.inl hroot) ?_ hq
        intro hne
        exact absurd hq0 hne
      · have hcanon := canonicalize_eval u s n pa pr q pa
          (stripTrackingQuery q) f hp (Or.inl ⟨hroot, rfl⟩)
          (Or.inl ⟨hq0, rfl⟩)
        rw [hcanon]
        exact hmain pa (stripTrackingQuery q) ⟨[], List.append_nil pa⟩
          (Or.inl hroot) (fun hne => stripTrackingQuery_stable q hne) hqwc
    · by_cases hq0 : q = []
      · have hcanon := canonicalize_eval u s n pa pr q (rstripSlashes pa) q f
          hp (Or.inr ⟨hroot, rfl⟩) (Or.inr ⟨hq0, rfl⟩)
        rw [hcanon]
        refine hmain (rstripSlashes pa) q ( rstripSlashes_prefix pa)
          (Or.inr (rstripSlashes_idem pa)) ?_ hq
        intro hne
        exact absurd hq0 hne
      · have hcanon := canonicalize_eval u s n pa pr q (rstripSlashes pa)
          (stripTrackingQuery q) f hp (Or.inr ⟨hroot, rfl⟩)
          (Or.inl ⟨hq0, rfl⟩)
        rw [hcanon]
        exact hmain (rstripSlashes pa) (stripTrackingQuery q)
          ( rstripSlashes_prefix pa) (Or.inr (rstripSlashes_idem pa))
          (fun hne => stripTrackingQuery_stable q hne) hqwc

/-- C7 witness: the amended theorem applied at a concrete input. -/
theorem c7_amended_witness :
    ';' ∉ (pyUrlparse (pys "https://x.test/p/?utm_source=a&id=1")).path ∧
    ¬((pyUrlparse (pys "https://x.test/p/?utm_source=a&id=1")).netloc = [] ∧
      ['/', '/'].isPrefixOf
        (pyUrlparse (pys "https://x.test/p/?utm_source=a&id=1")).path = true) ∧
    canonicalize (canonicalize (pys "https://x.test/p/?utm_source=a&id=1")) =
      canonicalize (pys "https://x.test/p/?utm_source=a&id=1") :=
  ⟨by decide, by decide, c7_amended _ (by decide) (by decide)⟩

end Crawler
